import Mathlib

/-!
# fast_healpix: nested HEALPix indexing

Shallow embedding of `src/argus_rico/fast_healpix/fast_healpix_c_code.c`.

Exact-arithmetic model (the integer part and the real part):

* C `double` values are real numbers; `sqrt`, `sin`, `cos`, `asin`, `atan2`, `hypot`,
  `fabs`, `floor`, `fmod`, `round` are the exact functions they compute.
* `M_PI` is `π` and `DEG_PER_RAD` (written `57.295779513082323` in the source, the
  double nearest to `180/π`) is `180/π`.
* C `int` and `long int` values are integers; `/` and `%` are the C truncating
  operations (`Int.tdiv`, `Int.tmod`), `&`, `|`, `<<`, `>>` are the two's-complement bit
  operations on `ℤ`.  The two bit loops keep their bound of 32 iterations and their early
  exit.  The value `radec_to_healpixl` returns, `index + (long int)hp.bighp * ns2`, is
  wrapped to the 64 bits of a `long int` (`wrap_long`): it overflows for `Nside = 2^30`
  and `bighp ≥ 8`.  The other integer operations are not wrapped: the theorems on them
  are about inputs on which they stay below `2^63`, or compare two calls that perform
  the same operations.
* `assert` aborts: a function with an assertion returns `Option`, `none` when the
  assertion fails.  `EPS` is not defined in the file and is a parameter.
* A C array (`double *`, `long int *`) is the function from its indices to its entries;
  a store `a[i] = v` is `Function.update a i v`, and a loop over `n_points` entries
  leaves the entries from `n_points` on as they were.

Binary64 model (the binary64 part): the lines of `xy2ra`, `rad2deg`, `hp_to_xyz` and
`xyztohp` on which rounding decides a claim, with every `double` operation rounded to
IEEE 754 binary64.  It gives the inputs on which a statement that holds in exact
arithmetic fails for the doubles the program computes with.
-/

namespace FastHealpix

/-! ## Integer part (computable) -/

/-- The internal type `hp_t`: base healpix and the integer position in it. -/
structure hp_t where
  bighp : ℤ
  x : ℤ
  y : ℤ
deriving DecidableEq, Repr

/-- The test `isnorthpolar`: `healpix <= 3`. -/
def isnorthpolar (healpix : ℤ) : Bool := decide (healpix ≤ 3)

/-- The test `issouthpolar`: `healpix >= 8`. -/
def issouthpolar (healpix : ℤ) : Bool := decide (healpix ≥ 8)

/-- The test `ispolar`. -/
def ispolar (healpix : ℤ) : Bool := decide (healpix ≤ 3) || decide (healpix ≥ 8)

/-- The test `isequatorial`. -/
def isequatorial (healpix : ℤ) : Bool := decide (healpix ≥ 4) && decide (healpix ≤ 7)

/-- The `for` loop of `healpixl_nested_to_xy` (lines 193-199): `n` iterations are
left, `i` is the loop counter; returns the final `(x, y)`. -/
def nested_loop : ℕ → ℕ → ℤ → ℤ → ℤ → ℤ × ℤ
  | 0, _, _, x, y => (x, y)
  | n + 1, i, index, x, y =>
    let x1 := Int.lor x ((Int.land index 1) <<< (i : ℤ))
    let index1 := index >>> 1
    let y1 := Int.lor y ((Int.land index1 1) <<< (i : ℤ))
    let index2 := index1 >>> 1
    if index2 = 0 then (x1, y1) else nested_loop n (i + 1) index2 x1 y1

/-- The function `healpixl_nested_to_xy`: nested index to the "xy" index
`(bighp * Nside + x) * Nside + y`. -/
def healpixl_nested_to_xy (hp : ℤ) (Nside : ℤ) : ℤ :=
  let ns2 := Nside * Nside
  let bighp := Int.tdiv hp ns2
  let index := Int.tmod hp ns2
  let xy := nested_loop 32 0 index 0 0
  ((bighp * Nside) + xy.1) * Nside + xy.2

/-- The unpacking every caller of `healpixl_nested_to_xy` performs (lines 247-253,
also 207-212 and 228-234): `bighp = h / ns2`, `px = (h % ns2) / Nside`,
`py = (h % ns2) % Nside`. -/
def healpixl_unpack (hp_in : ℤ) (Nside : ℤ) : hp_t :=
  let h := healpixl_nested_to_xy hp_in Nside
  let ns2 := Nside * Nside
  let bighp := Int.tdiv h ns2
  let hp := Int.tmod h ns2
  ⟨bighp, Int.tdiv hp Nside, Int.tmod hp Nside⟩

/-- The `for` loop of `radec_to_healpixl` (lines 410-415): `n` iterations are left,
`i` is the loop counter; returns the final `index`. -/
def interleave_loop : ℕ → ℕ → ℤ → ℤ → ℤ → ℤ
  | 0, _, index, _, _ => index
  | n + 1, i, index, x, y =>
    let index1 :=
      Int.lor index ((Int.lor ((Int.land y 1) <<< (1 : ℤ)) (Int.land x 1)) <<< ((i * 2 : ℕ) : ℤ))
    let y1 := y >>> 1
    let x1 := x >>> 1
    if x1 = 0 ∧ y1 = 0 then index1 else interleave_loop n (i + 1) index1 x1 y1

/-- The value a `long int` (64 bits, two's complement) holds when the mathematical
result of an operation is `v`. -/
def wrap_long (v : ℤ) : ℤ := (v + 2 ^ 63) % 2 ^ 64 - 2 ^ 63

/-- Lines 405-417 of `radec_to_healpixl`: the nested index of a located pixel,
`index + (long int)hp.bighp * ns2` with `index` the bit interleave of `x` and `y`; the
product and the sum are `long int` operations. -/
def hp_to_nested (hp : hp_t) (Nside : ℤ) : ℤ :=
  let ns2 := Nside * Nside
  let index := interleave_loop 32 0 0 hp.x hp.y
  wrap_long (index + wrap_long (hp.bighp * ns2))

/-- The number `index + bighp * ns2` itself, which `hp_to_nested` returns when it is
below `2^63` (proved below). -/
def nested_sum (hp : hp_t) (Nside : ℤ) : ℤ :=
  interleave_loop 32 0 0 hp.x hp.y + hp.bighp * (Nside * Nside)

/-- Closed form of `interleave_loop`: the bit interleave of `x` and `y` over `n` bit
pairs, `y` in the high bit of each pair (proved equal to the loop below). -/
def interleave_bits : ℕ → ℕ → ℕ → ℕ
  | 0, _, _ => 0
  | n + 1, x, y => (2 * (y % 2) + x % 2) + 4 * interleave_bits n (x / 2) (y / 2)

/-- Closed form of `nested_loop`: the even and the odd bits of `idx` over `n` bit pairs
(proved equal to the loop below). -/
def deinterleave_bits : ℕ → ℕ → ℕ × ℕ
  | 0, _ => (0, 0)
  | n + 1, idx =>
    (idx % 2 + 2 * (deinterleave_bits n (idx / 4)).1,
      idx / 2 % 2 + 2 * (deinterleave_bits n (idx / 4)).2)

/-- The `for` loop of `radec_to_healpixl` with the line `if (!x && !y) break;` removed:
all `n` iterations run. -/
def interleave_loop_noexit : ℕ → ℕ → ℤ → ℤ → ℤ → ℤ
  | 0, _, index, _, _ => index
  | n + 1, i, index, x, y =>
    let index1 :=
      Int.lor index ((Int.lor ((Int.land y 1) <<< (1 : ℤ)) (Int.land x 1)) <<< ((i * 2 : ℕ) : ℤ))
    let y1 := y >>> 1
    let x1 := x >>> 1
    interleave_loop_noexit n (i + 1) index1 x1 y1

/-! ## Real part -/

noncomputable section

/-- The constant `M_PI`. -/
def M_PI : ℝ := Real.pi

/-- The constant `DEG_PER_RAD`, `180/π` (the source writes its double value). -/
def DEG_PER_RAD : ℝ := 180 / Real.pi

/-- C `atan2(y, x)`: the argument of `x + i y` in `(-π, π]`, `0` at the origin. -/
def atan2 (y x : ℝ) : ℝ := Complex.arg ⟨x, y⟩

/-- C `hypot`. -/
def hypot (x y : ℝ) : ℝ := Real.sqrt (x * x + y * y)

/-- C `trunc`: rounding toward zero. -/
def trunc (x : ℝ) : ℤ := if 0 ≤ x then ⌊x⌋ else ⌈x⌉

/-- C `fmod(x, y) = x - trunc(x / y) * y`. -/
def fmod (x y : ℝ) : ℝ := x - (trunc (x / y) : ℝ) * y

/-- C `round`: nearest integer, halfway cases away from zero. -/
def c_round (x : ℝ) : ℤ := if 0 ≤ x then ⌊x + 1 / 2⌋ else ⌈x - 1 / 2⌉

/-- The function `xy2ra`. -/
def xy2ra (x y : ℝ) : ℝ :=
  let a := atan2 y x
  if a < 0 then a + 2.0 * M_PI else a

/-- The function `z2dec`. -/
def z2dec (z : ℝ) : ℝ := Real.arcsin z

/-- The function `xyz2radec` (both output pointers given): `(ra, dec)` in radians. -/
def xyz2radec (x y z : ℝ) : ℝ × ℝ :=
  (xy2ra x y, if |z| > 0.9 then M_PI / 2.0 - atan2 (hypot x y) z else z2dec z)

/-- The function `rad2deg`. -/
def rad2deg (x : ℝ) : ℝ := x * DEG_PER_RAD

/-- The function `xyzarr2radecdeg` (both output pointers given): `(ra, dec)` in degrees. -/
def xyzarr2radecdeg (xyz : ℝ × ℝ × ℝ) : ℝ × ℝ :=
  let rd := xyz2radec xyz.1 xyz.2.1 xyz.2.2
  (rad2deg rd.1, rad2deg rd.2)

/-- Lines 176-181 of `hp_to_xyz`: wrap `phi` and write the vector. -/
def hp_to_xyz_out (rad phi z : ℝ) : ℝ × ℝ × ℝ :=
  let phi1 := if phi < 0.0 then phi + 2 * M_PI else phi
  (rad * Real.cos phi1, rad * Real.sin phi1, z)

/-- The function `hp_to_xyz`; `none` is the `assert(0)` of line 137. -/
def hp_to_xyz (Nside : ℤ) (dx dy : ℝ) (chp xp yp : ℤ) : Option (ℝ × ℝ × ℝ) :=
  let pi := M_PI
  let x : ℝ := xp + dx
  let y : ℝ := yp + dy
  let s1 : Bool × ℝ :=
    if isnorthpolar chp = true ∧ (x + y) > Nside then (false, 1.0) else (true, 1.0)
  let s2 : Bool × ℝ :=
    if issouthpolar chp = true ∧ (x + y) < Nside then (false, -1.0) else s1
  let equatorial := s2.1
  let zfactor := s2.2
  if equatorial = true then
    let xn := x / (Nside : ℝ)
    let yn := y / (Nside : ℝ)
    let band : Option (ℝ × ℝ × ℤ) :=
      if chp ≤ 3 then some (0, 1.0, chp)
      else if chp ≤ 7 then some (-1.0, 0, chp - 4)
      else if chp ≤ 11 then some (-2.0, 1.0, chp - 8)
      else none
    band.map fun b =>
      let zoff := b.1
      let phioff := b.2.1
      let c := b.2.2
      let z := 2.0 / 3.0 * (xn + yn + zoff)
      let phi := pi / 4 * (xn - yn + phioff + 2 * (c : ℝ))
      let rad := Real.sqrt (1.0 - z * z)
      hp_to_xyz_out rad phi z
  else
    let xm := if zfactor = -1.0 then (Nside : ℝ) - y else x
    let ym := if zfactor = -1.0 then (Nside : ℝ) - x else y
    let phi_t :=
      if ym = Nside ∧ xm = Nside then 0.0
      else pi * (Nside - ym) / (2.0 * ((Nside - xm) + (Nside - ym)))
    let vv :=
      if phi_t < pi / 4 then |pi * (Nside - xm) / ((2.0 * phi_t - pi) * Nside) / Real.sqrt 3|
      else |pi * (Nside - ym) / (2 * phi_t * Nside) / Real.sqrt 3|
    let z := (1 - vv) * (1 + vv)
    let rad := Real.sqrt (1.0 + z) * vv
    let z1 := z * zfactor
    let phi :=
      if issouthpolar chp = true then pi / 2.0 * ((chp : ℝ) - 8) + phi_t
      else pi / 2.0 * (chp : ℝ) + phi_t
    some (hp_to_xyz_out rad phi z1)

/-- The function `healpixl_to_radecdeg`: `(ra, dec)` in degrees of the point at
offset `(dx, dy)` in the pixel `hp_in`. -/
def healpixl_to_radecdeg (hp_in : ℤ) (Nside : ℤ) (dx dy : ℝ) : Option (ℝ × ℝ) :=
  let p := healpixl_unpack hp_in Nside
  (hp_to_xyz Nside dx dy p.bighp p.x p.y).map xyzarr2radecdeg

/-- The `for` loop of `healpixl_grid_to_radecdeg` (lines 214-218) from loop counter `i`
on, `n` iterations left. -/
def healpixl_grid_loop (Nside : ℤ) (dx dy : ℕ → ℝ) (bighp px py : ℤ) :
    ℕ → ℕ → (ℕ → ℝ) → (ℕ → ℝ) → Option ((ℕ → ℝ) × (ℕ → ℝ))
  | 0, _, ra, dec => some (ra, dec)
  | n + 1, i, ra, dec =>
    match hp_to_xyz Nside (dx i) (dy i) bighp px py with
    | none => none
    | some xyz =>
      healpixl_grid_loop Nside dx dy bighp px py n (i + 1)
        (Function.update ra i (xyzarr2radecdeg xyz).1)
        (Function.update dec i (xyzarr2radecdeg xyz).2)

/-- The function `healpixl_grid_to_radecdeg`: the arrays `ra` and `dec` after the call. -/
def healpixl_grid_to_radecdeg (healpix : ℤ) (n_points : ℤ) (Nside : ℤ) (dx dy : ℕ → ℝ)
    (ra dec : ℕ → ℝ) : Option ((ℕ → ℝ) × (ℕ → ℝ)) :=
  let p := healpixl_unpack healpix Nside
  healpixl_grid_loop Nside dx dy p.bighp p.x p.y n_points.toNat 0 ra dec

/-- The function `xyztohp`; `none` is a failed `assert(fabs(sector - offset) < EPS)`
(line 354). -/
def xyztohp (EPS : ℝ) (vx vy vz coz : ℝ) (Nside : ℤ) : Option hp_t :=
  let twothirds : ℝ := 2.0 / 3.0
  let pi := M_PI
  let twopi := 2.0 * M_PI
  let halfpi := 0.5 * M_PI
  let root3 := Real.sqrt 3.0
  let phi0 := atan2 vy vx
  let phi := if phi0 < 0.0 then phi0 + twopi else phi0
  let phi_t := fmod phi halfpi
  if vz ≥ twothirds ∨ vz ≤ -twothirds then
    let north : Bool := decide (vz ≥ twothirds)
    let vz1 := if north = true then vz else vz * -1.0
    let coz1 := if coz = 0.0 then hypot vx vy else coz
    let kx := (coz1 / Real.sqrt (1.0 + vz1)) * root3 * |(Nside : ℝ) * (2.0 * phi_t - pi) / pi|
    let ky := (coz1 / Real.sqrt (1.0 + vz1)) * root3 * (Nside : ℝ) * 2.0 * phi_t / pi
    let xx := if north = true then (Nside : ℝ) - kx else ky
    let yy := if north = true then (Nside : ℝ) - ky else kx
    let x := min (Nside - 1) ⌊xx⌋
    let y := min (Nside - 1) ⌊yy⌋
    let sector := (phi - phi_t) / halfpi
    let offset := c_round sector
    let offset1 := Int.tmod (Int.tmod offset 4 + 4) 4
    let basehp := if north = true then offset1 else 8 + offset1
    some ⟨basehp, x, y⟩
  else
    let zunits := (vz + twothirds) / (4.0 / 3.0)
    let phiunits := phi_t / halfpi
    let u1 := zunits + phiunits
    let u2 := zunits - phiunits + 1.0
    let xx := u1 * (Nside : ℝ)
    let yy := u2 * (Nside : ℝ)
    let sector := (phi - phi_t) / halfpi
    let offset := c_round sector
    if |sector - (offset : ℝ)| < EPS then
      let offset1 := Int.tmod (Int.tmod offset 4 + 4) 4
      let xx1 := if xx ≥ Nside then xx - Nside else xx
      let yy1 := if yy ≥ Nside then yy - Nside else yy
      let basehp :=
        if xx ≥ Nside then
          if yy ≥ Nside then offset1 else Int.tmod (offset1 + 1) 4 + 4
        else
          if yy ≥ Nside then offset1 + 4 else 8 + offset1
      let x := max 0 (min (Nside - 1) ⌊xx1⌋)
      let y := max 0 (min (Nside - 1) ⌊yy1⌋)
      some ⟨basehp, x, y⟩
    else none

/-- The macros `radec2x`, `radec2y`, `radec2z`. -/
def radec2x (r d : ℝ) : ℝ := Real.cos d * Real.cos r

/-- The macro `radec2y`. -/
def radec2y (r d : ℝ) : ℝ := Real.cos d * Real.sin r

/-- The macro `radec2z`. -/
def radec2z (_r d : ℝ) : ℝ := Real.sin d

/-- The function `radec_to_healpixl`: nested index of the sky position (degrees). -/
def radec_to_healpixl (EPS : ℝ) (ra dec : ℝ) (Nside : ℤ) : Option ℤ :=
  let ra1 := ra / DEG_PER_RAD
  let dec1 := dec / DEG_PER_RAD
  (xyztohp EPS (radec2x ra1 dec1) (radec2y ra1 dec1) (radec2z ra1 dec1) (Real.cos dec1) Nside).map
    fun hp => hp_to_nested hp Nside

/-- The function `radecs_to_healpixls` from loop counter `i` on, `n` iterations left;
an array is the function from its indices to its entries, `hpixes[i] = v` is
`Function.update`. -/
def radecs_to_healpixls_loop (EPS : ℝ) (ra dec : ℕ → ℝ) (Nside : ℤ) :
    ℕ → ℕ → (ℕ → ℤ) → Option (ℕ → ℤ)
  | 0, _, hpixes => some hpixes
  | n + 1, i, hpixes =>
    match radec_to_healpixl EPS (ra i) (dec i) Nside with
    | none => none
    | some v => radecs_to_healpixls_loop EPS ra dec Nside n (i + 1) (Function.update hpixes i v)

/-- The function `radecs_to_healpixls`: the array `hpixes` after the call. -/
def radecs_to_healpixls (EPS : ℝ) (ra dec : ℕ → ℝ) (n_points : ℤ) (hpixes : ℕ → ℤ)
    (Nside : ℤ) : Option (ℕ → ℤ) :=
  radecs_to_healpixls_loop EPS ra dec Nside n_points.toNat 0 hpixes

/-! ### Quantities of the proofs

Names for intermediate values of `xyztohp` and `hp_to_xyz`. -/

/-- The quadrant of the azimuth: `floor(phi / (π/2))` for the normalised `phi`. -/
def quad (vx vy : ℝ) : ℤ := ⌊xy2ra vx vy / (Real.pi / 2)⌋

/-- The position in the quadrant in units of `π/2`: `phi_t / (π/2)`. -/
def tau (vx vy : ℝ) : ℝ := xy2ra vx vy / (Real.pi / 2) - quad vx vy

/-- The factor `coz / sqrt(1 + vz) * root3` of the polar branch of `xyztohp`. -/
def polarS (vx vy vz1 coz : ℝ) : ℝ :=
  (if coz = 0 then hypot vx vy else coz) / Real.sqrt (1 + vz1) * Real.sqrt 3

/-- The diagonal coordinate `u1` of the equatorial branch of `xyztohp`. -/
def equU1 (vx vy vz : ℝ) : ℝ := (vz + 2 / 3) / (4 / 3) + tau vx vy

/-- The diagonal coordinate `u2` of the equatorial branch of `xyztohp`. -/
def equU2 (vx vy vz : ℝ) : ℝ := (vz + 2 / 3) / (4 / 3) - tau vx vy + 1

/-- The value `phi_t` of the polar case of `hp_to_xyz` (lines 154-157). -/
def polar_phi_t (N xm ym : ℝ) : ℝ :=
  if ym = N ∧ xm = N then 0 else Real.pi * (N - ym) / (2 * ((N - xm) + (N - ym)))

/-- The value `vv` of the polar case of `hp_to_xyz` (lines 159-163). -/
def polar_vv (N xm ym : ℝ) : ℝ :=
  if polar_phi_t N xm ym < Real.pi / 4 then
    |Real.pi * (N - xm) / ((2 * polar_phi_t N xm ym - Real.pi) * N) / Real.sqrt 3|
  else |Real.pi * (N - ym) / (2 * polar_phi_t N xm ym * N) / Real.sqrt 3|

/-- The formula for `vv` on the branch `phi_t < pi/4` of `hp_to_xyz` (line 160). -/
def polar_vv_lt (N xm phi_t : ℝ) : ℝ :=
  |Real.pi * (N - xm) / ((2 * phi_t - Real.pi) * N) / Real.sqrt 3|

/-- The formula for `vv` on the other branch of `hp_to_xyz` (line 162). -/
def polar_vv_ge (N ym phi_t : ℝ) : ℝ :=
  |Real.pi * (N - ym) / (2 * phi_t * N) / Real.sqrt 3|

end

/-! ## Binary64 part

The lines of the source that decide the claims on rounding, with every `double` operation
rounded to IEEE 754 binary64 (round to nearest, ties to even; no fused multiply-add and
no extended precision).  The arguments of these functions are taken to be doubles. -/

noncomputable section

end

/-! ## Lemmas -/

open Real

/-! ### The two bit loops and their closed forms -/

theorem land_one_cast (y : ℕ) : Int.land (y : ℤ) 1 = ((y % 2 : ℕ) : ℤ) := by
  show ((y &&& 1 : ℕ) : ℤ) = _
  rw [Nat.and_one_is_mod]

theorem shr_one_cast (y : ℕ) : (y : ℤ) >>> 1 = ((y / 2 : ℕ) : ℤ) := by
  show ((y >>> 1 : ℕ) : ℤ) = _
  rw [Nat.shiftRight_eq_div_pow, pow_one]

theorem lor_shl_cast (a b i : ℕ) (h : a < 2 ^ i) :
    Int.lor (a : ℤ) ((b : ℤ) <<< (i : ℤ)) = ((a + b * 2 ^ i : ℕ) : ℤ) := by
  rw [Int.shiftLeft_coe_nat]
  show ((a ||| b <<< i : ℕ) : ℤ) = _
  rw [Nat.shiftLeft_eq, Nat.lor_comm, mul_comm b, ← Nat.mul_add_lt_is_or h, add_comm]

theorem pair_cast (x y : ℕ) :
    Int.lor ((((y % 2 : ℕ) : ℤ)) <<< (1 : ℤ)) (((x % 2 : ℕ) : ℤ)) = ((2 * (y % 2) + x % 2 : ℕ) : ℤ) := by
  have h1 : ((((y % 2 : ℕ) : ℤ)) <<< (1 : ℤ)) = (((y % 2) <<< 1 : ℕ) : ℤ) :=
    Int.shiftLeft_coe_nat (y % 2) 1
  rw [h1]
  show ((((y % 2) <<< 1) ||| (x % 2) : ℕ) : ℤ) = _
  congr 1
  rcases Nat.mod_two_eq_zero_or_one y with hy | hy <;>
  rcases Nat.mod_two_eq_zero_or_one x with hx | hx <;> rw [hx, hy] <;> rfl

theorem interleave_bits_zero (n : ℕ) : interleave_bits n 0 0 = 0 := by
  induction n with
  | zero => rfl
  | succ n ih => simp [interleave_bits, ih]

theorem interleave_loop_cast (n : ℕ) : ∀ (i idx x y : ℕ), idx < 4 ^ i →
    interleave_loop n i (idx : ℤ) (x : ℤ) (y : ℤ) = ((idx + 4 ^ i * interleave_bits n x y : ℕ) : ℤ) := by
  induction n with
  | zero => intro i idx x y _; simp [interleave_loop, interleave_bits]
  | succ n ih =>
    intro i idx x y h
    have h2 : idx < 2 ^ (i * 2) := by rw [mul_comm, pow_mul]; simpa using h
    have hv : 2 * (y % 2) + x % 2 < 4 := by omega
    have e4 : (4 : ℕ) ^ i = 2 ^ (i * 2) := by rw [mul_comm, pow_mul]; norm_num
    have hnew : idx + (2 * (y % 2) + x % 2) * 2 ^ (i * 2) < 4 ^ (i + 1) := by
      rw [pow_succ, e4]; nlinarith
    simp only [interleave_loop, land_one_cast, shr_one_cast, pair_cast, lor_shl_cast _ _ _ h2]
    split_ifs with hz
    · obtain ⟨hx, hy⟩ := hz
      have hx0 : x / 2 = 0 := by exact_mod_cast hx
      have hy0 : y / 2 = 0 := by exact_mod_cast hy
      simp only [interleave_bits, hx0, hy0, interleave_bits_zero]
      rw [e4]; push_cast; ring
    · rw [ih _ _ _ _ hnew]
      simp only [interleave_bits]
      rw [pow_succ, e4]; push_cast; ring

theorem deinterleave_bits_zero (n : ℕ) : deinterleave_bits n 0 = (0, 0) := by
  induction n with
  | zero => rfl
  | succ n ih => simp [deinterleave_bits, ih]

theorem nested_loop_cast (n : ℕ) : ∀ (i idx x y : ℕ), x < 2 ^ i → y < 2 ^ i →
    nested_loop n i (idx : ℤ) (x : ℤ) (y : ℤ) =
      (((x + 2 ^ i * (deinterleave_bits n idx).1 : ℕ) : ℤ), ((y + 2 ^ i * (deinterleave_bits n idx).2 : ℕ) : ℤ)) := by
  induction n with
  | zero => intro i idx x y _ _; simp [nested_loop, deinterleave_bits]
  | succ n ih =>
    intro i idx x y hx hy
    have hx1 : x + idx % 2 * 2 ^ i < 2 ^ (i + 1) := by
      have := Nat.mod_lt idx (by norm_num : 2 > 0)
      rw [pow_succ]; nlinarith
    have hy1 : y + idx / 2 % 2 * 2 ^ i < 2 ^ (i + 1) := by
      have := Nat.mod_lt (idx / 2) (by norm_num : 2 > 0)
      rw [pow_succ]; nlinarith
    have e4 : idx / 2 / 2 = idx / 4 := by omega
    simp only [nested_loop, land_one_cast, shr_one_cast, lor_shl_cast _ _ _ hx,
      lor_shl_cast _ _ _ hy]
    split_ifs with hz
    · have h0 : idx / 4 = 0 := by rw [← e4]; exact_mod_cast hz
      simp only [deinterleave_bits, h0, deinterleave_bits_zero]
      ext <;> simp <;> ring
    · rw [ih _ _ _ _ hx1 hy1, e4]
      simp only [deinterleave_bits]
      ext <;> simp only [] <;> push_cast <;> ring

theorem interleave_bits_lt (n : ℕ) : ∀ (k x y : ℕ), x < 2 ^ k → y < 2 ^ k → interleave_bits n x y < 4 ^ k := by
  induction n with
  | zero => intro k x y _ _; simp [interleave_bits]
  | succ n ih =>
    intro k x y hx hy
    cases k with
    | zero =>
      have hx0 : x = 0 := by simpa using hx
      have hy0 : y = 0 := by simpa using hy
      subst hx0; subst hy0; simp [interleave_bits_zero]
    | succ k =>
      have h := ih k (x / 2) (y / 2) (by rw [pow_succ] at hx; omega) (by rw [pow_succ] at hy; omega)
      simp only [interleave_bits]; rw [pow_succ]; omega

theorem deinterleave_interleave (n : ℕ) : ∀ (x y : ℕ), x < 2 ^ n → y < 2 ^ n → deinterleave_bits n (interleave_bits n x y) = (x, y) := by
  induction n with
  | zero => intro x y hx hy; simp at hx hy; simp [deinterleave_bits, hx, hy]
  | succ n ih =>
    intro x y hx hy
    have h := ih (x / 2) (y / 2) (by rw [pow_succ] at hx; omega) (by rw [pow_succ] at hy; omega)
    simp only [interleave_bits, deinterleave_bits]
    have e1 : (2 * (y % 2) + x % 2 + 4 * interleave_bits n (x / 2) (y / 2)) / 4 = interleave_bits n (x / 2) (y / 2) := by omega
    rw [e1, h]
    ext <;> simp only [] <;> omega

theorem deinterleave_bits_lt (n : ℕ) : ∀ (k idx : ℕ), idx < 4 ^ k → (deinterleave_bits n idx).1 < 2 ^ k ∧ (deinterleave_bits n idx).2 < 2 ^ k := by
  induction n with
  | zero => intro k idx _; simp [deinterleave_bits]
  | succ n ih =>
    intro k idx h
    cases k with
    | zero =>
      have h0 : idx = 0 := by simpa using h
      subst h0; simp [deinterleave_bits_zero]
    | succ k =>
      have h1 := ih k (idx / 4) (by rw [pow_succ] at h; omega)
      simp only [deinterleave_bits]; rw [pow_succ]; omega

theorem interleave_deinterleave (n : ℕ) : ∀ (idx : ℕ), idx < 4 ^ n → interleave_bits n (deinterleave_bits n idx).1 (deinterleave_bits n idx).2 = idx := by
  induction n with
  | zero => intro idx h; simp at h; simp [interleave_bits, h]
  | succ n ih =>
    intro idx h
    have h1 := ih (idx / 4) (by rw [pow_succ] at h; omega)
    simp only [interleave_bits, deinterleave_bits]
    have a1 : (idx % 2 + 2 * (deinterleave_bits n (idx / 4)).1) / 2 = (deinterleave_bits n (idx / 4)).1 := by omega
    have a2 : (idx / 2 % 2 + 2 * (deinterleave_bits n (idx / 4)).2) / 2 = (deinterleave_bits n (idx / 4)).2 := by omega
    rw [a1, a2, h1]; omega

theorem deinterleave_bits_mono_fuel (n : ℕ) : ∀ (k idx : ℕ), k ≤ n → idx < 4 ^ k → deinterleave_bits n idx = deinterleave_bits k idx := by
  induction n with
  | zero => intro k idx hk _; have : k = 0 := by omega
            subst this; rfl
  | succ n ih =>
    intro k idx hk h
    cases k with
    | zero =>
      have h0 : idx = 0 := by simpa using h
      subst h0; simp [deinterleave_bits_zero]
    | succ k =>
      simp only [deinterleave_bits]
      rw [ih k (idx / 4) (by omega) (by rw [pow_succ] at h; omega)]

theorem interleave_bits_succ (n x y : ℕ) :
    interleave_bits (n + 1) x y = (2 * (y % 2) + x % 2) + 4 * interleave_bits n (x / 2) (y / 2) := rfl

theorem deinterleave_bits_succ (n idx : ℕ) :
    deinterleave_bits (n + 1) idx = (idx % 2 + 2 * (deinterleave_bits n (idx / 4)).1, idx / 2 % 2 + 2 * (deinterleave_bits n (idx / 4)).2) := rfl

attribute [irreducible] interleave_bits deinterleave_bits

/-! ### Composing and decomposing a nested index -/

theorem nested_sum_cast (b : ℤ) (x y N : ℕ) :
    nested_sum ⟨b, (x : ℤ), (y : ℤ)⟩ (N : ℤ) = ((interleave_bits 32 x y : ℕ) : ℤ) + b * ((N : ℤ) * (N : ℤ)) := by
  have h := interleave_loop_cast 32 0 0 x y (by norm_num)
  simp only [nested_sum]
  have h0 : ((0 : ℕ) : ℤ) = 0 := rfl
  rw [h0] at h
  rw [h]; simp

theorem healpixl_nested_to_xy_cast (idx N : ℕ) :
    healpixl_nested_to_xy (idx : ℤ) (N : ℤ) =
      (((idx / (N * N) * N + (deinterleave_bits 32 (idx % (N * N))).1) * N + (deinterleave_bits 32 (idx % (N * N))).2 : ℕ) : ℤ) := by
  have e1 : Int.tdiv (idx : ℤ) ((N : ℤ) * (N : ℤ)) = ((idx / (N * N) : ℕ) : ℤ) := by
    rw [Int.tdiv_eq_ediv (by positivity) (by positivity)]; push_cast; rfl
  have e2 : Int.tmod (idx : ℤ) ((N : ℤ) * (N : ℤ)) = ((idx % (N * N) : ℕ) : ℤ) := by
    rw [Int.tmod_eq_emod (by positivity) (by positivity)]; push_cast; rfl
  have h := nested_loop_cast 32 0 (idx % (N * N)) 0 0 (by norm_num) (by norm_num)
  have h0 : ((0 : ℕ) : ℤ) = 0 := rfl
  rw [h0] at h
  simp only [healpixl_nested_to_xy, e1, e2, h]
  push_cast; ring

theorem xy_unpack (b x y N : ℕ) (hN : 0 < N) (hx : x < N) (hy : y < N) :
    (⟨Int.tdiv ((((b * N + x) * N + y : ℕ) : ℤ)) ((N : ℤ) * (N : ℤ)),
      Int.tdiv (Int.tmod ((((b * N + x) * N + y : ℕ) : ℤ)) ((N : ℤ) * (N : ℤ))) (N : ℤ),
      Int.tmod (Int.tmod ((((b * N + x) * N + y : ℕ) : ℤ)) ((N : ℤ) * (N : ℤ))) (N : ℤ)⟩ : hp_t)
      = ⟨(b : ℤ), (x : ℤ), (y : ℤ)⟩ := by
  have hxy : x * N + y < N * N := by nlinarith
  have e0 : (b * N + x) * N + y = x * N + y + N * N * b := by ring
  have e1 : ((b * N + x) * N + y) / (N * N) = b := by
    rw [e0, Nat.add_mul_div_left _ _ (by positivity), Nat.div_eq_of_lt hxy]; simp
  have e2 : ((b * N + x) * N + y) % (N * N) = x * N + y := by
    rw [e0, Nat.add_mul_mod_self_left, Nat.mod_eq_of_lt hxy]
  have e3 : (x * N + y) / N = x := by
    rw [add_comm, mul_comm, Nat.add_mul_div_left _ _ hN, Nat.div_eq_of_lt hy]; simp
  have e4 : (x * N + y) % N = y := by
    rw [add_comm, mul_comm, Nat.add_mul_mod_self_left, Nat.mod_eq_of_lt hy]
  have t1 : ∀ a c : ℕ, Int.tdiv (a : ℤ) (c : ℤ) = ((a / c : ℕ) : ℤ) := fun a c => by
    rw [Int.tdiv_eq_ediv (by positivity) (by positivity)]; push_cast; rfl
  have t2 : ∀ a c : ℕ, Int.tmod (a : ℤ) (c : ℤ) = ((a % c : ℕ) : ℤ) := fun a c => by
    rw [Int.tmod_eq_emod (by positivity) (by positivity)]; push_cast; rfl
  have c1 : ((N : ℤ) * (N : ℤ)) = ((N * N : ℕ) : ℤ) := by push_cast; rfl
  rw [c1, t1, t2, t1, t2, e1, e2, e3, e4]

theorem healpixl_unpack_cast (idx N : ℕ) (hN : 0 < N)
    (hx : (deinterleave_bits 32 (idx % (N * N))).1 < N) (hy : (deinterleave_bits 32 (idx % (N * N))).2 < N) :
    healpixl_unpack (idx : ℤ) (N : ℤ) =
      ⟨((idx / (N * N) : ℕ) : ℤ), (((deinterleave_bits 32 (idx % (N * N))).1 : ℕ) : ℤ),
        (((deinterleave_bits 32 (idx % (N * N))).2 : ℕ) : ℤ)⟩ := by
  simp only [healpixl_unpack, healpixl_nested_to_xy_cast]
  exact xy_unpack _ _ _ _ hN hx hy

theorem interleave_loop_nat (x y : ℕ) :
    interleave_loop 32 0 0 (x : ℤ) (y : ℤ) = ((interleave_bits 32 x y : ℕ) : ℤ) := by
  have h := interleave_loop_cast 32 0 0 x y (by norm_num)
  have h0 : ((0 : ℕ) : ℤ) = 0 := rfl
  rw [h0] at h
  rw [h]; simp

theorem interleave_bits_lt_sq_of_pow (k x y : ℕ) (hx : x < 2 ^ k) (hy : y < 2 ^ k) :
    interleave_bits 32 x y < 2 ^ k * 2 ^ k := by
  have h := interleave_bits_lt 32 k x y hx hy
  have e : (4 : ℕ) ^ k = 2 ^ k * 2 ^ k := by rw [← mul_pow]; norm_num
  omega

theorem unpack_nested_nat (b x y N : ℕ) (hN : 0 < N) (hx : x < N) (hy : y < N)
    (hN32 : N ≤ 2 ^ 32) (hil : interleave_bits 32 x y < N * N) :
    healpixl_unpack (nested_sum ⟨(b : ℤ), (x : ℤ), (y : ℤ)⟩ (N : ℤ)) (N : ℤ)
      = ⟨(b : ℤ), (x : ℤ), (y : ℤ)⟩ := by
  have hc : nested_sum ⟨(b : ℤ), (x : ℤ), (y : ℤ)⟩ (N : ℤ) = ((interleave_bits 32 x y + N * N * b : ℕ) : ℤ) := by
    rw [nested_sum_cast]; push_cast; ring
  have e1 : (interleave_bits 32 x y + N * N * b) / (N * N) = b := by
    rw [Nat.add_mul_div_left _ _ (by positivity), Nat.div_eq_of_lt hil]; simp
  have e2 : (interleave_bits 32 x y + N * N * b) % (N * N) = interleave_bits 32 x y := by
    rw [Nat.add_mul_mod_self_left, Nat.mod_eq_of_lt hil]
  have hd : deinterleave_bits 32 (interleave_bits 32 x y) = (x, y) := deinterleave_interleave 32 x y (by omega) (by omega)
  rw [hc, healpixl_unpack_cast _ _ hN (by rw [e2, hd]; exact hx) (by rw [e2, hd]; exact hy),
    e1, e2, hd]

theorem unpack_nested_bighp_gt (b x y N : ℕ) (hN : 0 < N) (hil : N * N ≤ interleave_bits 32 x y) :
    (healpixl_unpack (nested_sum ⟨(b : ℤ), (x : ℤ), (y : ℤ)⟩ (N : ℤ)) (N : ℤ)).bighp ≠ (b : ℤ) := by
  have hc : nested_sum ⟨(b : ℤ), (x : ℤ), (y : ℤ)⟩ (N : ℤ) = ((interleave_bits 32 x y + N * N * b : ℕ) : ℤ) := by
    rw [nested_sum_cast]; push_cast; ring
  rw [hc]
  simp only [healpixl_unpack, healpixl_nested_to_xy_cast]
  generalize (deinterleave_bits 32 ((interleave_bits 32 x y + N * N * b) % (N * N))).1 = d1
  generalize (deinterleave_bits 32 ((interleave_bits 32 x y + N * N * b) % (N * N))).2 = d2
  generalize hq : (interleave_bits 32 x y + N * N * b) / (N * N) = q
  have hNN : 0 < N * N := by positivity
  have hq1 : b + 1 ≤ q := by
    rw [← hq, Nat.le_div_iff_mul_le hNN]; nlinarith
  have c1 : ((N : ℤ) * (N : ℤ)) = ((N * N : ℕ) : ℤ) := by push_cast; rfl
  rw [c1, Int.tdiv_eq_ediv (by positivity) (by positivity)]
  have h2 : q ≤ ((q * N + d1) * N + d2) / (N * N) := by
    rw [Nat.le_div_iff_mul_le hNN]; nlinarith
  have h3 : ((((q * N + d1) * N + d2 : ℕ) : ℤ) / ((N * N : ℕ) : ℤ)) = ((((q * N + d1) * N + d2) / (N * N) : ℕ) : ℤ) := by
    push_cast; rfl
  rw [h3]
  intro h
  have : ((q * N + d1) * N + d2) / (N * N) = b := by exact_mod_cast h
  omega

/-! ### The 64-bit `long int` -/

theorem wrap_long_eq (v : ℤ) (h1 : -2 ^ 63 ≤ v) (h2 : v < 2 ^ 63) : wrap_long v = v := by
  unfold wrap_long; omega

theorem interleave_loop_nonneg (x y : ℤ) (hx : 0 ≤ x) (hy : 0 ≤ y) :
    0 ≤ interleave_loop 32 0 0 x y := by
  lift x to ℕ using hx
  lift y to ℕ using hy
  rw [interleave_loop_nat]; positivity

/-- `radec_to_healpixl` returns `index + bighp * ns2` when that number is below `2^63` -/
theorem hp_to_nested_of_fit (hp : hp_t) (N : ℤ) (hb : 0 ≤ hp.bighp) (hx : 0 ≤ hp.x)
    (hy : 0 ≤ hp.y) (h : nested_sum hp N < 2 ^ 63) : hp_to_nested hp N = nested_sum hp N := by
  have h1 := interleave_loop_nonneg hp.x hp.y hx hy
  have h2 : 0 ≤ hp.bighp * (N * N) := mul_nonneg hb (mul_self_nonneg N)
  unfold nested_sum at h
  simp only [hp_to_nested, nested_sum]
  generalize interleave_loop 32 0 0 hp.x hp.y = I at h h1
  generalize hp.bighp * (N * N) = B at h h2
  rw [wrap_long_eq B (by omega) (by omega), wrap_long_eq _ (by omega) (by omega)]

/-- for a resolution up to `2^29` the number `index + bighp * ns2` of a pixel in range is
below `2^62` -/
theorem nested_sum_lt (hp : hp_t) (N : ℤ) (hN : N ≤ 2 ^ 29)
    (hb : 0 ≤ hp.bighp ∧ hp.bighp < 12) (hx : 0 ≤ hp.x ∧ hp.x < N)
    (hy : 0 ≤ hp.y ∧ hp.y < N) : nested_sum hp N < 2 ^ 62 := by
  obtain ⟨b, x, y⟩ := hp
  obtain ⟨hb0, hb1⟩ := hb
  obtain ⟨hx0, hx1⟩ := hx
  obtain ⟨hy0, hy1⟩ := hy
  simp only at hb0 hb1 hx0 hx1 hy0 hy1
  lift N to ℕ using (by omega)
  lift x to ℕ using hx0
  lift y to ℕ using hy0
  have hN2 : N ≤ 2 ^ 29 := by exact_mod_cast hN
  have hx2 : x < 2 ^ 29 := by
    have : x < N := by exact_mod_cast hx1
    omega
  have hy2 : y < 2 ^ 29 := by
    have : y < N := by exact_mod_cast hy1
    omega
  have hil := interleave_bits_lt 32 29 x y hx2 hy2
  rw [nested_sum_cast]
  generalize interleave_bits 32 x y = I at hil
  have h1 : (I : ℤ) < 4 ^ 29 := by exact_mod_cast hil
  have h2 : (N : ℤ) * (N : ℤ) ≤ 2 ^ 29 * 2 ^ 29 :=
    mul_le_mul hN hN (by positivity) (by positivity)
  have h3 : b * ((N : ℤ) * (N : ℤ)) ≤ 11 * (2 ^ 29 * 2 ^ 29) :=
    mul_le_mul (by omega) h2 (by positivity) (by norm_num)
  generalize b * ((N : ℤ) * (N : ℤ)) = B at h3
  norm_num at h1 h3 ⊢
  omega

/-- at `Nside = 2^30` the product `8 * ns2` is `2^63` and the `long int` holds `-2^63` -/
theorem hp_to_nested_overflow : hp_to_nested ⟨8, 0, 0⟩ (2 ^ 30) = -2 ^ 63 := by
  decide

/-! ### Azimuth, quadrant and `fmod` -/

theorem xy2ra_nonneg (x y : ℝ) : 0 ≤ xy2ra x y := by
  unfold xy2ra atan2 M_PI
  have h1 := Complex.neg_pi_lt_arg ⟨x, y⟩
  have := Real.pi_pos
  simp only
  split_ifs with h <;> linarith

theorem xy2ra_lt_two_pi (x y : ℝ) : xy2ra x y < 2 * π := by
  unfold xy2ra atan2 M_PI
  have h1 := Complex.arg_le_pi ⟨x, y⟩
  have := Real.pi_pos
  simp only
  split_ifs with h <;> linarith

theorem quad_nonneg (vx vy : ℝ) : 0 ≤ quad vx vy := by
  unfold quad
  have := xy2ra_nonneg vx vy
  have := Real.pi_pos
  positivity

theorem quad_le (vx vy : ℝ) : quad vx vy ≤ 3 := by
  unfold quad
  have h := xy2ra_lt_two_pi vx vy
  have hp := Real.pi_pos
  have : xy2ra vx vy / (π / 2) < 4 := by
    rw [div_lt_iff₀ (by positivity)]; linarith
  have : ⌊xy2ra vx vy / (π / 2)⌋ < 4 := by
    rw [Int.floor_lt]; exact_mod_cast this
  omega

theorem tau_nonneg (vx vy : ℝ) : 0 ≤ tau vx vy := by
  unfold tau quad
  linarith [Int.floor_le (xy2ra vx vy / (π / 2))]

theorem tau_lt_one (vx vy : ℝ) : tau vx vy < 1 := by
  unfold tau quad
  linarith [Int.lt_floor_add_one (xy2ra vx vy / (π / 2))]

theorem fmod_phase (vx vy : ℝ) :
    fmod (xy2ra vx vy) (0.5 * M_PI) = π / 2 * tau vx vy := by
  have hp := Real.pi_pos
  have h0 := xy2ra_nonneg vx vy
  have hd : 0 ≤ xy2ra vx vy / (0.5 * π) := by positivity
  have e : xy2ra vx vy / (0.5 * π) = xy2ra vx vy / (π / 2) := by
    congr 1; ring
  unfold fmod trunc M_PI
  rw [if_pos hd, e]
  unfold tau quad
  field_simp
  ring

theorem c_round_int (q : ℤ) : c_round (q : ℝ) = q := by
  unfold c_round
  split_ifs with h
  · rw [Int.floor_eq_iff]; constructor <;> norm_num
  · rw [Int.ceil_eq_iff]; constructor <;> norm_num

theorem offset_norm (q : ℤ) (h0 : 0 ≤ q) (h3 : q ≤ 3) : Int.tmod (Int.tmod q 4 + 4) 4 = q := by
  interval_cases q <;> rfl

theorem sector_phase (vx vy : ℝ) :
    (xy2ra vx vy - fmod (xy2ra vx vy) (0.5 * M_PI)) / (0.5 * M_PI) = (quad vx vy : ℝ) := by
  have hp := Real.pi_pos
  rw [fmod_phase]
  unfold tau M_PI
  field_simp
  ring

/-! ### `xyztohp` branch by branch -/

theorem phase_eq (vx vy : ℝ) :
    (if atan2 vy vx < 0.0 then atan2 vy vx + 2.0 * M_PI else atan2 vy vx) = xy2ra vx vy := by
  unfold xy2ra; norm_num

theorem sector_phase2 (vx vy : ℝ) :
    (xy2ra vx vy - π / 2 * tau vx vy) / (0.5 * M_PI) = (quad vx vy : ℝ) := by
  rw [← fmod_phase]; exact sector_phase vx vy

theorem kx_eq (S t : ℝ) (N : ℤ) (hN : 0 ≤ N) (ht : t ≤ 1) :
    S * |(N : ℝ) * (2.0 * (π / 2 * t) - M_PI) / M_PI| = S * ((N : ℝ) * (1 - t)) := by
  have hp := Real.pi_pos
  have hN2 : (0 : ℝ) ≤ N := by exact_mod_cast hN
  have e : (N : ℝ) * (2.0 * (π / 2 * t) - M_PI) / M_PI = -((N : ℝ) * (1 - t)) := by
    unfold M_PI; field_simp; ring
  rw [e, abs_neg, abs_of_nonneg (mul_nonneg hN2 (by linarith))]

theorem ky_eq (S t : ℝ) (N : ℤ) :
    S * (N : ℝ) * 2.0 * (π / 2 * t) / M_PI = S * ((N : ℝ) * t) := by
  have hp := Real.pi_pos
  unfold M_PI; field_simp; ring

theorem xyztohp_north (EPS vx vy vz coz : ℝ) (N : ℤ) (hN : 0 ≤ N) (hz : 2 / 3 ≤ vz) :
    xyztohp EPS vx vy vz coz N = some ⟨quad vx vy,
      min (N - 1) ⌊(N : ℝ) - polarS vx vy vz coz * ((N : ℝ) * (1 - tau vx vy))⌋,
      min (N - 1) ⌊(N : ℝ) - polarS vx vy vz coz * ((N : ℝ) * tau vx vy)⌋⟩ := by
  have hcond : vz ≥ 2.0 / 3.0 ∨ vz ≤ -(2.0 / 3.0) := Or.inl (by norm_num; linarith)
  have hn : vz ≥ 2.0 / 3.0 := by norm_num; linarith
  have e0 : (0.0 : ℝ) = 0 := by norm_num
  have e1 : (1.0 : ℝ) = 1 := by norm_num
  have e3 : (3.0 : ℝ) = 3 := by norm_num
  simp only [xyztohp, phase_eq, fmod_phase, sector_phase2, c_round_int,
    offset_norm _ (quad_nonneg vx vy) (quad_le vx vy), if_pos hcond, decide_eq_true hn, if_true]
  rw [kx_eq _ _ _ hN (tau_lt_one vx vy).le, ky_eq]
  simp only [polarS, e0, e1, e3]

theorem xyztohp_south (EPS vx vy vz coz : ℝ) (N : ℤ) (hN : 0 ≤ N) (hz : vz ≤ -(2 / 3)) :
    xyztohp EPS vx vy vz coz N = some ⟨8 + quad vx vy,
      min (N - 1) ⌊polarS vx vy (-vz) coz * ((N : ℝ) * tau vx vy)⌋,
      min (N - 1) ⌊polarS vx vy (-vz) coz * ((N : ℝ) * (1 - tau vx vy))⌋⟩ := by
  have hcond : vz ≥ 2.0 / 3.0 ∨ vz ≤ -(2.0 / 3.0) := Or.inr (by norm_num; linarith)
  have hn : ¬ (vz ≥ 2.0 / 3.0) := by norm_num; linarith
  have e0 : (0.0 : ℝ) = 0 := by norm_num
  have e1 : (1.0 : ℝ) = 1 := by norm_num
  have e3 : (3.0 : ℝ) = 3 := by norm_num
  have e4 : vz * -1 = -vz := by ring
  simp only [xyztohp, phase_eq, fmod_phase, sector_phase2, c_round_int,
    offset_norm _ (quad_nonneg vx vy) (quad_le vx vy), if_pos hcond, decide_eq_false hn]
  rw [kx_eq _ _ _ hN (tau_lt_one vx vy).le, ky_eq]
  simp [polarS, e0, e1, e3, e4]

theorem xyztohp_equat (EPS vx vy vz coz : ℝ) (N : ℤ) (hE : 0 < EPS)
    (hz1 : -(2 / 3) < vz) (hz2 : vz < 2 / 3) :
    xyztohp EPS vx vy vz coz N = some ⟨
      (if equU1 vx vy vz * N ≥ N then
        (if equU2 vx vy vz * N ≥ N then quad vx vy else Int.tmod (quad vx vy + 1) 4 + 4)
       else (if equU2 vx vy vz * N ≥ N then quad vx vy + 4 else 8 + quad vx vy)),
      max 0 (min (N - 1) ⌊if equU1 vx vy vz * N ≥ N then equU1 vx vy vz * N - N
        else equU1 vx vy vz * N⌋),
      max 0 (min (N - 1) ⌊if equU2 vx vy vz * N ≥ N then equU2 vx vy vz * N - N
        else equU2 vx vy vz * N⌋)⟩ := by
  have hp := Real.pi_pos
  have hcond : ¬ (vz ≥ 2 / 3 ∨ vz ≤ -(2 / 3)) := by
    push_neg; constructor <;> linarith
  have ht : π / 2 * tau vx vy / (0.5 * M_PI) = tau vx vy := by
    unfold M_PI; field_simp; ring
  have e2 : (2.0 : ℝ) / 3.0 = 2 / 3 := by norm_num
  have e4 : (4.0 : ℝ) / 3.0 = 4 / 3 := by norm_num
  have e1 : (1.0 : ℝ) = 1 := by norm_num
  simp only [xyztohp, phase_eq, fmod_phase, sector_phase2, c_round_int,
    offset_norm _ (quad_nonneg vx vy) (quad_le vx vy), if_neg hcond, sub_self, abs_zero,
    if_pos hE, ht, e2, e4, e1, equU1, equU2]

/-! ### Range of the located pixel -/

theorem hypot_nonneg (x y : ℝ) : 0 ≤ hypot x y := Real.sqrt_nonneg _

theorem hypot_sq (x y : ℝ) : hypot x y ^ 2 = x * x + y * y := by
  unfold hypot; rw [Real.sq_sqrt]; nlinarith [sq_nonneg x, sq_nonneg y]

theorem polarS_eq (vx vy vz w coz : ℝ) (hu : vx * vx + vy * vy + vz * vz = 1)
    (hc : coz = 0 ∨ coz = hypot vx vy) (hw : w * w = vz * vz) (hw0 : 0 ≤ w) :
    polarS vx vy w coz = √(3 * (1 - w)) := by
  have hc1 : (if coz = 0 then hypot vx vy else coz) = hypot vx vy := by
    rcases hc with h | h
    · rw [if_pos h]
    · split_ifs <;> simp [h]
  have hw1 : w ≤ 1 := by nlinarith [sq_nonneg vx, sq_nonneg vy]
  have hh : hypot vx vy = √(1 - w) * √(1 + w) := by
    unfold hypot
    rw [← Real.sqrt_mul (by linarith)]
    congr 1; nlinarith
  have hpos : 0 < √(1 + w) := Real.sqrt_pos.mpr (by linarith)
  unfold polarS
  rw [hc1, hh, mul_div_assoc, div_self hpos.ne', mul_one, ← Real.sqrt_mul (by linarith)]
  congr 1; ring

theorem polarS_bounds (vx vy vz w coz : ℝ) (hu : vx * vx + vy * vy + vz * vz = 1)
    (hc : coz = 0 ∨ coz = hypot vx vy) (hw : w * w = vz * vz) (hw0 : 2 / 3 ≤ w) :
    0 ≤ polarS vx vy w coz ∧ polarS vx vy w coz ≤ 1 := by
  rw [polarS_eq vx vy vz w coz hu hc hw (by linarith)]
  refine ⟨Real.sqrt_nonneg _, ?_⟩
  rw [Real.sqrt_le_left (by norm_num : (0 : ℝ) ≤ 1)]
  linarith

theorem floor_min_range (N : ℤ) (hN : 1 ≤ N) (a : ℝ) (ha : 0 ≤ a) :
    0 ≤ min (N - 1) ⌊a⌋ ∧ min (N - 1) ⌊a⌋ < N := by
  have h1 : 0 ≤ ⌊a⌋ := Int.floor_nonneg.mpr ha
  constructor
  · exact le_min (by omega) h1
  · have := min_le_left (N - 1) ⌊a⌋; omega

theorem max_min_range (N : ℤ) (hN : 1 ≤ N) (k : ℤ) :
    0 ≤ max 0 (min (N - 1) k) ∧ max 0 (min (N - 1) k) < N := by
  constructor
  · exact le_max_left _ _
  · have := min_le_left (N - 1) k
    rcases max_choice 0 (min (N - 1) k) with h | h <;> rw [h] <;> omega

/-! ### `hp_to_xyz` case by case -/

/-- for a unit vector and `coz` zero or `hypot(vx, vy)`, `xyztohp` returns a pixel position
in range -/
theorem xyztohp_range (EPS vx vy vz coz : ℝ) (N : ℤ) (hE : 0 < EPS) (hN : 1 ≤ N)
    (hu : vx * vx + vy * vy + vz * vz = 1) (hc : coz = 0 ∨ coz = hypot vx vy) :
    ∃ hp : hp_t, xyztohp EPS vx vy vz coz N = some hp ∧ (0 ≤ hp.bighp ∧ hp.bighp < 12) ∧
      (0 ≤ hp.x ∧ hp.x < N) ∧ (0 ≤ hp.y ∧ hp.y < N) := by
  have hq0 := quad_nonneg vx vy
  have hq3 := quad_le vx vy
  have ht0 := tau_nonneg vx vy
  have ht1 := tau_lt_one vx vy
  have hNr : (1 : ℝ) ≤ N := by exact_mod_cast hN
  by_cases h1 : 2 / 3 ≤ vz
  · obtain ⟨hS0, hS1⟩ := polarS_bounds vx vy vz vz coz hu hc rfl h1
    refine ⟨_, xyztohp_north EPS vx vy vz coz N (by omega) h1, ⟨hq0, by simp only; omega⟩, ?_, ?_⟩
    · apply floor_min_range N hN
      have : polarS vx vy vz coz * ((N : ℝ) * (1 - tau vx vy)) ≤ 1 * ((N : ℝ) * 1) :=
        mul_le_mul hS1 (by nlinarith) (by nlinarith) (by norm_num)
      linarith
    · apply floor_min_range N hN
      have : polarS vx vy vz coz * ((N : ℝ) * tau vx vy) ≤ 1 * ((N : ℝ) * 1) :=
        mul_le_mul hS1 (by nlinarith) (by nlinarith) (by norm_num)
      linarith
  · by_cases h2 : vz ≤ -(2 / 3)
    · obtain ⟨hS0, hS1⟩ := polarS_bounds vx vy vz (-vz) coz hu hc (by ring) (by linarith)
      refine ⟨_, xyztohp_south EPS vx vy vz coz N (by omega) h2, ⟨by simp only; omega, by simp only; omega⟩, ?_, ?_⟩
      · apply floor_min_range N hN
        exact mul_nonneg hS0 (by nlinarith)
      · apply floor_min_range N hN
        exact mul_nonneg hS0 (by nlinarith)
    · push_neg at h1 h2
      refine ⟨_, xyztohp_equat EPS vx vy vz coz N hE h2 h1, ?_, max_min_range N hN _, max_min_range N hN _⟩
      simp only
      have hm : 0 ≤ Int.tmod (quad vx vy + 1) 4 ∧ Int.tmod (quad vx vy + 1) 4 < 4 := by
        generalize quad vx vy = q at hq0 hq3
        interval_cases q <;> decide
      split_ifs <;> omega

theorem hp_to_xyz_north_polar (N : ℤ) (dx dy : ℝ) (chp xp yp : ℤ) (hc : chp ≤ 3)
    (h : (N : ℝ) < xp + dx + (yp + dy)) :
    hp_to_xyz N dx dy chp xp yp = some (hp_to_xyz_out
      (√(1 + (1 - polar_vv N (xp + dx) (yp + dy)) * (1 + polar_vv N (xp + dx) (yp + dy)))
        * polar_vv N (xp + dx) (yp + dy))
      (π / 2 * chp + polar_phi_t N (xp + dx) (yp + dy))
      ((1 - polar_vv N (xp + dx) (yp + dy)) * (1 + polar_vv N (xp + dx) (yp + dy)))) := by
  have hs : ¬ (chp ≥ 8) := by omega
  have e1 : ¬ ((1.0 : ℝ) = -1.0) := by norm_num
  simp only [hp_to_xyz, isnorthpolar, issouthpolar, decide_eq_true hc, decide_eq_false hs,
    gt_iff_lt, h, and_self, if_true, false_and, if_false, Bool.false_eq_true, e1,
    polar_vv, polar_phi_t, M_PI]
  norm_num

theorem hp_to_xyz_south_polar (N : ℤ) (dx dy : ℝ) (chp xp yp : ℤ) (hc : 8 ≤ chp)
    (h : xp + dx + (yp + dy) < (N : ℝ)) :
    hp_to_xyz N dx dy chp xp yp = some (hp_to_xyz_out
      (√(1 + (1 - polar_vv N (N - (yp + dy)) (N - (xp + dx))) *
          (1 + polar_vv N (N - (yp + dy)) (N - (xp + dx))))
        * polar_vv N (N - (yp + dy)) (N - (xp + dx)))
      (π / 2 * (chp - 8) + polar_phi_t N (N - (yp + dy)) (N - (xp + dx)))
      (-((1 - polar_vv N (N - (yp + dy)) (N - (xp + dx))) *
          (1 + polar_vv N (N - (yp + dy)) (N - (xp + dx)))))) := by
  have hs : ¬ (chp ≤ 3) := by omega
  have hs2 : chp ≥ 8 := hc
  simp only [hp_to_xyz, isnorthpolar, issouthpolar, decide_eq_true hs2, decide_eq_false hs,
    h, and_self, if_true, false_and, if_false, Bool.false_eq_true,
    polar_vv, polar_phi_t, M_PI]
  norm_num

theorem hp_to_xyz_north_equat (N : ℤ) (dx dy : ℝ) (chp xp yp : ℤ) (hc : chp ≤ 3)
    (h : xp + dx + (yp + dy) ≤ (N : ℝ)) :
    hp_to_xyz N dx dy chp xp yp = some (hp_to_xyz_out
      (√(1 - (2 / 3 * ((xp + dx) / N + (yp + dy) / N)) * (2 / 3 * ((xp + dx) / N + (yp + dy) / N))))
      (π / 4 * ((xp + dx) / N - (yp + dy) / N + 1 + 2 * chp))
      (2 / 3 * ((xp + dx) / N + (yp + dy) / N))) := by
  have hs : ¬ (chp ≥ 8) := by omega
  have h2 : ¬ ((N : ℝ) < xp + dx + (yp + dy)) := not_lt.mpr h
  simp only [hp_to_xyz, isnorthpolar, issouthpolar, decide_eq_true hc, decide_eq_false hs,
    gt_iff_lt, h2, and_false, if_true, false_and, if_false, Bool.false_eq_true, if_pos hc,
    Option.map_some', M_PI]
  norm_num

theorem hp_to_xyz_mid (N : ℤ) (dx dy : ℝ) (chp xp yp : ℤ) (hc : 4 ≤ chp) (hc2 : chp ≤ 7) :
    hp_to_xyz N dx dy chp xp yp = some (hp_to_xyz_out
      (√(1 - (2 / 3 * ((xp + dx) / N + (yp + dy) / N - 1)) *
        (2 / 3 * ((xp + dx) / N + (yp + dy) / N - 1))))
      (π / 4 * ((xp + dx) / N - (yp + dy) / N + 2 * (chp - 4)))
      (2 / 3 * ((xp + dx) / N + (yp + dy) / N - 1))) := by
  have hs : ¬ (chp ≥ 8) := by omega
  have hn : ¬ (chp ≤ 3) := by omega
  simp only [hp_to_xyz, isnorthpolar, issouthpolar, decide_eq_false hn, decide_eq_false hs,
    if_true, false_and, if_false, Bool.false_eq_true, if_neg hn, if_pos hc2,
    Option.map_some', M_PI]
  norm_num
  simp only [← sub_eq_add_neg]

theorem hp_to_xyz_south_equat (N : ℤ) (dx dy : ℝ) (chp xp yp : ℤ) (hc : 8 ≤ chp)
    (hc2 : chp ≤ 11) (h : (N : ℝ) ≤ xp + dx + (yp + dy)) :
    hp_to_xyz N dx dy chp xp yp = some (hp_to_xyz_out
      (√(1 - (2 / 3 * ((xp + dx) / N + (yp + dy) / N - 2)) *
        (2 / 3 * ((xp + dx) / N + (yp + dy) / N - 2))))
      (π / 4 * ((xp + dx) / N - (yp + dy) / N + 1 + 2 * (chp - 8)))
      (2 / 3 * ((xp + dx) / N + (yp + dy) / N - 2))) := by
  have hn : ¬ (chp ≤ 3) := by omega
  have hn7 : ¬ (chp ≤ 7) := by omega
  have hs2 : chp ≥ 8 := hc
  have h2 : ¬ (xp + dx + (yp + dy) < (N : ℝ)) := not_lt.mpr h
  simp only [hp_to_xyz, isnorthpolar, issouthpolar, decide_eq_false hn, decide_eq_true hs2,
    h2, and_false, if_true, false_and, if_false, Bool.false_eq_true, if_neg hn, if_neg hn7,
    if_pos hc2, Option.map_some', M_PI]
  norm_num
  simp only [← sub_eq_add_neg]

theorem polar_vv_eq (N a b : ℝ) (hN : 0 < N) (ha : 0 ≤ a) (hb : 0 ≤ b) :
    polar_vv N (N - a) (N - b) = (a + b) / (N * √3) := by
  have hp := Real.pi_pos
  have h3 : 0 < √3 := Real.sqrt_pos.mpr (by norm_num)
  have hnn : 0 ≤ (a + b) / (N * √3) := by positivity
  unfold polar_vv polar_phi_t
  simp only [sub_sub_cancel, sub_eq_self]
  by_cases h0 : b = 0 ∧ a = 0
  · obtain ⟨hb0, ha0⟩ := h0
    subst hb0; subst ha0
    simp [hp]
  · rw [if_neg h0]
    have hab : 0 < a + b := by
      rcases lt_or_eq_of_le ha with h | h
      · linarith
      · rcases lt_or_eq_of_le hb with h' | h'
        · linarith
        · exact absurd ⟨h'.symm, h.symm⟩ h0
    split_ifs with hlt
    · have hba : b < a := by
        rw [div_lt_iff₀ (by positivity)] at hlt
        nlinarith
      have e : π * a / ((2 * (π * b / (2 * (a + b))) - π) * N) / √3 = -((a + b) / (N * √3)) := by
        have ha0 : a ≠ 0 := by linarith
        have e1 : 2 * (π * b / (2 * (a + b))) - π = -(π * a / (a + b)) := by
          field_simp; ring
        rw [e1]
        field_simp
        ring
      rw [e, abs_neg, abs_of_nonneg hnn]
    · have hba : a ≤ b := by
        rw [not_lt, le_div_iff₀ (by positivity)] at hlt
        nlinarith
      have hb0 : b ≠ 0 := by
        intro h; rw [h] at hba hab; linarith
      have e : π * b / (2 * (π * b / (2 * (a + b))) * N) / √3 = (a + b) / (N * √3) := by
        field_simp; ring
      rw [e, abs_of_nonneg hnn]

theorem hp_to_xyz_out_norm (rad phi z : ℝ) :
    (hp_to_xyz_out rad phi z).1 * (hp_to_xyz_out rad phi z).1 +
      (hp_to_xyz_out rad phi z).2.1 * (hp_to_xyz_out rad phi z).2.1 +
      (hp_to_xyz_out rad phi z).2.2 * (hp_to_xyz_out rad phi z).2.2 = rad * rad + z * z := by
  simp only [hp_to_xyz_out]
  generalize (if phi < 0.0 then phi + 2 * M_PI else phi) = p
  nlinarith [Real.sin_sq_add_cos_sq p]

theorem polar_norm (vv : ℝ) (h0 : 0 ≤ vv) (h1 : vv ≤ 1) :
    (√(1 + (1 - vv) * (1 + vv)) * vv) * (√(1 + (1 - vv) * (1 + vv)) * vv) +
      ((1 - vv) * (1 + vv)) * ((1 - vv) * (1 + vv)) = 1 := by
  have h : 0 ≤ 1 + (1 - vv) * (1 + vv) := by nlinarith
  have hs := Real.mul_self_sqrt h
  nlinarith

theorem equat_norm (z : ℝ) (h : z * z ≤ 1) : √(1 - z * z) * √(1 - z * z) + z * z = 1 := by
  rw [Real.mul_self_sqrt (by linarith)]; ring

theorem sqrt3_gt_one : (1 : ℝ) < √3 := by
  rw [show (1 : ℝ) = √1 by simp]
  exact Real.sqrt_lt_sqrt (by norm_num) (by norm_num)

theorem vv_bounds (N s : ℝ) (hN : 0 < N) (hs0 : 0 ≤ s) (hs : s ≤ N) :
    0 ≤ s / (N * √3) ∧ s / (N * √3) ≤ 1 := by
  have h3 := sqrt3_gt_one
  refine ⟨by positivity, ?_⟩
  rw [div_le_one (by positivity)]
  nlinarith

/-- the vector written by `hp_to_xyz` has norm one -/
theorem hp_to_xyz_norm (N : ℤ) (dx dy : ℝ) (chp xp yp : ℤ) (hN : 1 ≤ N)
    (hc : 0 ≤ chp ∧ chp < 12) (hx : 0 ≤ xp ∧ xp < N) (hy : 0 ≤ yp ∧ yp < N)
    (hdx : 0 ≤ dx ∧ dx ≤ 1) (hdy : 0 ≤ dy ∧ dy ≤ 1) :
    ∃ r : ℝ × ℝ × ℝ, hp_to_xyz N dx dy chp xp yp = some r ∧
      r.1 * r.1 + r.2.1 * r.2.1 + r.2.2 * r.2.2 = 1 := by
  have hNr : (1 : ℝ) ≤ N := by exact_mod_cast hN
  have hN0 : (0 : ℝ) < N := by linarith
  have hx0 : (0 : ℝ) ≤ xp := by exact_mod_cast hx.1
  have hy0 : (0 : ℝ) ≤ yp := by exact_mod_cast hy.1
  have hx1 : (xp : ℝ) + 1 ≤ N := by exact_mod_cast hx.2
  have hy1 : (yp : ℝ) + 1 ≤ N := by exact_mod_cast hy.2
  obtain ⟨hdx0, hdx1⟩ := hdx
  obtain ⟨hdy0, hdy1⟩ := hdy
  have hu0 : 0 ≤ (xp + dx) / N := by positivity
  have hv0 : 0 ≤ (yp + dy) / N := by positivity
  have hu1 : (xp + dx) / N ≤ 1 := by rw [div_le_one hN0]; linarith
  have hv1 : (yp + dy) / N ≤ 1 := by rw [div_le_one hN0]; linarith
  have hsum : (xp + dx) / N + (yp + dy) / N = (xp + dx + (yp + dy)) / N := by ring
  by_cases h3 : chp ≤ 3
  · by_cases hp : (N : ℝ) < xp + dx + (yp + dy)
    · refine ⟨_, hp_to_xyz_north_polar N dx dy chp xp yp h3 hp, ?_⟩
      rw [hp_to_xyz_out_norm]
      have e : polar_vv N (xp + dx) (yp + dy) =
          ((N - (xp + dx)) + (N - (yp + dy))) / (N * √3) := by
        rw [← polar_vv_eq N _ _ hN0 (by linarith) (by linarith)]
        congr 1 <;> ring
      rw [e]
      obtain ⟨b0, b1⟩ := vv_bounds N ((N - (xp + dx)) + (N - (yp + dy))) hN0 (by linarith)
        (by linarith)
      exact polar_norm _ b0 b1
    · push_neg at hp
      refine ⟨_, hp_to_xyz_north_equat N dx dy chp xp yp h3 hp, ?_⟩
      rw [hp_to_xyz_out_norm]
      apply equat_norm
      have : (xp + dx) / N + (yp + dy) / N ≤ 1 := by
        rw [hsum, div_le_one hN0]; exact hp
      nlinarith
  · by_cases h7 : chp ≤ 7
    · refine ⟨_, hp_to_xyz_mid N dx dy chp xp yp (by omega) h7, ?_⟩
      rw [hp_to_xyz_out_norm]
      apply equat_norm
      nlinarith
    · by_cases hp : xp + dx + (yp + dy) < (N : ℝ)
      · refine ⟨_, hp_to_xyz_south_polar N dx dy chp xp yp (by omega) hp, ?_⟩
        rw [hp_to_xyz_out_norm]
        rw [polar_vv_eq N _ _ hN0 (by linarith) (by linarith)]
        obtain ⟨b0, b1⟩ := vv_bounds N ((yp + dy) + (xp + dx)) hN0 (by linarith) (by linarith)
        have := polar_norm _ b0 b1
        nlinarith
      · push_neg at hp
        refine ⟨_, hp_to_xyz_south_equat N dx dy chp xp yp (by omega) (by omega) hp, ?_⟩
        rw [hp_to_xyz_out_norm]
        apply equat_norm
        have : 1 ≤ (xp + dx) / N + (yp + dy) / N := by
          rw [hsum, le_div_iff₀ hN0]; linarith
        nlinarith

/-! ### Vectors given in polar form, the poles and the corner `(45, 0)` -/

theorem atan2_polar (r θ : ℝ) (hr : 0 < r) (h0 : -π < θ) (h1 : θ ≤ π) :
    atan2 (r * Real.sin θ) (r * Real.cos θ) = θ := by
  unfold atan2
  have e : (⟨r * Real.cos θ, r * Real.sin θ⟩ : ℂ) =
      (r : ℂ) * (Complex.cos (θ : ℂ) + Complex.sin (θ : ℂ) * Complex.I) := by
    apply Complex.ext <;>
      simp [Complex.cos_ofReal_re, Complex.sin_ofReal_re, Complex.cos_ofReal_im,
        Complex.sin_ofReal_im]
  rw [e]
  exact Complex.arg_mul_cos_add_sin_mul_I hr ⟨h0, h1⟩

theorem xy2ra_polar (r φ : ℝ) (hr : 0 < r) (h0 : 0 ≤ φ) (h1 : φ < 2 * π) :
    xy2ra (r * Real.cos φ) (r * Real.sin φ) = φ := by
  have hp := Real.pi_pos
  unfold xy2ra
  simp only
  by_cases h : φ ≤ π
  · rw [atan2_polar r φ hr (by linarith) h, if_neg (by linarith)]
  · push_neg at h
    have e := atan2_polar r (φ - 2 * π) hr (by linarith) (by linarith)
    rw [Real.sin_sub_two_pi, Real.cos_sub_two_pi] at e
    rw [e, if_pos (by linarith)]
    unfold M_PI; norm_num

theorem xy2ra_zero : xy2ra 0 0 = 0 := by
  have e : (⟨0, 0⟩ : ℂ) = 0 := rfl
  unfold xy2ra atan2
  simp [e]

theorem quad_tau_of_phase (vx vy : ℝ) (c : ℤ) (s : ℝ) (hs0 : 0 ≤ s) (hs1 : s < 1)
    (h : xy2ra vx vy = π / 2 * (c + s)) : quad vx vy = c ∧ tau vx vy = s := by
  have hp := Real.pi_pos
  have e : xy2ra vx vy / (π / 2) = c + s := by rw [h]; field_simp
  have hq : quad vx vy = c := by
    unfold quad
    rw [e, Int.floor_eq_iff]; constructor <;> linarith
  refine ⟨hq, ?_⟩
  unfold tau
  rw [hq, e]; ring

theorem quad_tau_polar (r : ℝ) (c : ℤ) (s : ℝ) (hr : 0 < r) (hc0 : 0 ≤ c) (hc3 : c ≤ 3)
    (hs0 : 0 ≤ s) (hs1 : s < 1) :
    quad (r * Real.cos (π / 2 * (c + s))) (r * Real.sin (π / 2 * (c + s))) = c ∧
      tau (r * Real.cos (π / 2 * (c + s))) (r * Real.sin (π / 2 * (c + s))) = s := by
  have hp := Real.pi_pos
  have hc0r : (0 : ℝ) ≤ c := by exact_mod_cast hc0
  have hc3r : (c : ℝ) ≤ 3 := by exact_mod_cast hc3
  apply quad_tau_of_phase _ _ _ _ hs0 hs1
  apply xy2ra_polar _ _ hr
  · positivity
  · nlinarith

theorem quad_tau_zero : quad 0 0 = 0 ∧ tau 0 0 = 0 := by
  have h := quad_tau_of_phase 0 0 0 0 (le_refl _) (by norm_num) (by rw [xy2ra_zero]; simp)
  exact_mod_cast h

theorem deg_pos : 0 < DEG_PER_RAD := by
  unfold DEG_PER_RAD; have := Real.pi_pos; positivity

theorem interleave_zero : interleave_loop 32 0 0 0 0 = 0 := by decide

/-- the classification of the two poles -/
theorem xyztohp_poles (EPS : ℝ) (N : ℤ) (hN : 1 ≤ N) :
    xyztohp EPS (radec2x (0 / DEG_PER_RAD) (90 / DEG_PER_RAD))
        (radec2y (0 / DEG_PER_RAD) (90 / DEG_PER_RAD))
        (radec2z (0 / DEG_PER_RAD) (90 / DEG_PER_RAD)) (Real.cos (90 / DEG_PER_RAD)) N
        = some ⟨0, N - 1, N - 1⟩ ∧
      xyztohp EPS (radec2x (0 / DEG_PER_RAD) (-90 / DEG_PER_RAD))
        (radec2y (0 / DEG_PER_RAD) (-90 / DEG_PER_RAD))
        (radec2z (0 / DEG_PER_RAD) (-90 / DEG_PER_RAD)) (Real.cos (-90 / DEG_PER_RAD)) N
        = some ⟨8, 0, 0⟩ := by
  have hp := Real.pi_pos
  have e1 : (90 : ℝ) / DEG_PER_RAD = π / 2 := by unfold DEG_PER_RAD; field_simp; ring
  have e2 : (-90 : ℝ) / DEG_PER_RAD = -(π / 2) := by unfold DEG_PER_RAD; field_simp; ring
  have hS : ∀ w : ℝ, polarS 0 0 w 0 = 0 := by
    intro w; simp [polarS, hypot]
  obtain ⟨hq, ht⟩ := quad_tau_zero
  constructor
  · rw [e1]
    simp only [radec2x, radec2y, radec2z, Real.cos_pi_div_two, Real.sin_pi_div_two, zero_mul,
      zero_div]
    rw [xyztohp_north EPS 0 0 1 0 N (by omega) (by norm_num), hq, ht, hS]
    simp
  · rw [e2]
    simp only [radec2x, radec2y, radec2z, Real.cos_neg, Real.sin_neg, Real.cos_pi_div_two,
      Real.sin_pi_div_two, zero_mul, zero_div]
    rw [xyztohp_south EPS 0 0 (-1) 0 N (by omega) (by norm_num), hq, ht, hS]
    simp
    omega

theorem radec_poles_values (EPS : ℝ) (N : ℤ) (hN : 1 ≤ N) :
    radec_to_healpixl EPS 0 90 1 = some 0 ∧ radec_to_healpixl EPS 0 (-90) 1 = some 8 ∧
      xyztohp EPS (radec2x (0 / DEG_PER_RAD) (90 / DEG_PER_RAD))
        (radec2y (0 / DEG_PER_RAD) (90 / DEG_PER_RAD))
        (radec2z (0 / DEG_PER_RAD) (90 / DEG_PER_RAD)) (Real.cos (90 / DEG_PER_RAD)) N
        = some ⟨0, N - 1, N - 1⟩ ∧
      xyztohp EPS (radec2x (0 / DEG_PER_RAD) (-90 / DEG_PER_RAD))
        (radec2y (0 / DEG_PER_RAD) (-90 / DEG_PER_RAD))
        (radec2z (0 / DEG_PER_RAD) (-90 / DEG_PER_RAD)) (Real.cos (-90 / DEG_PER_RAD)) N
        = some ⟨8, 0, 0⟩ ∧
      (N < 2 ^ 30 → radec_to_healpixl EPS 0 (-90) N = some (8 * N ^ 2)) := by
  obtain ⟨hn1, hs1⟩ := xyztohp_poles EPS 1 (le_refl _)
  obtain ⟨hn, hs⟩ := xyztohp_poles EPS N hN
  refine ⟨?_, ?_, hn, hs, fun hN30 => ?_⟩
  · simp only [radec_to_healpixl, hn1, Option.map_some']
    rfl
  · simp only [radec_to_healpixl, hs1, Option.map_some']
    rfl
  · have hs2 : nested_sum ⟨8, 0, 0⟩ N = 8 * N ^ 2 := by
      simp only [nested_sum, interleave_zero]; ring
    have hlt : (8 : ℤ) * N ^ 2 < 2 ^ 63 := by
      have h1 : N ≤ 2 ^ 30 - 1 := by omega
      have h2 : N * N ≤ (2 ^ 30 - 1) * (2 ^ 30 - 1) :=
        mul_le_mul h1 h1 (by omega) (by norm_num)
      have e : N ^ 2 = N * N := by ring
      rw [e]
      generalize N * N = M at h2
      norm_num at h2 ⊢
      omega
    simp only [radec_to_healpixl, hs, Option.map_some']
    rw [hp_to_nested_of_fit _ _ (by decide) (by decide) (by decide) (by rw [hs2]; exact hlt), hs2]

/-- at `Nside = 2^30` the index returned for the south pole is `-2^63` -/
theorem radec_south_pole_overflow (EPS : ℝ) :
    radec_to_healpixl EPS 0 (-90) (2 ^ 30) = some (-2 ^ 63) := by
  obtain ⟨_, hs⟩ := xyztohp_poles EPS (2 ^ 30) (by norm_num)
  simp only [radec_to_healpixl, hs, Option.map_some', hp_to_nested_overflow]

theorem xyztohp_corner (EPS : ℝ) (hE : 0 < EPS) :
    xyztohp EPS (radec2x (45 / DEG_PER_RAD) (0 / DEG_PER_RAD))
        (radec2y (45 / DEG_PER_RAD) (0 / DEG_PER_RAD))
        (radec2z (45 / DEG_PER_RAD) (0 / DEG_PER_RAD)) (Real.cos (0 / DEG_PER_RAD)) 4
      = some ⟨0, 0, 0⟩ := by
  have hp := Real.pi_pos
  have e1 : (45 : ℝ) / DEG_PER_RAD = π / 2 * (((0 : ℤ) : ℝ) + 1 / 2) := by
    unfold DEG_PER_RAD; field_simp; ring
  obtain ⟨hq, ht⟩ := quad_tau_polar 1 0 (1 / 2) one_pos (le_refl _) (by norm_num) (by norm_num)
    (by norm_num)
  rw [e1]
  simp only [radec2x, radec2y, radec2z, zero_div, Real.cos_zero, Real.sin_zero]
  rw [xyztohp_equat EPS _ _ 0 1 4 hE (by norm_num) (by norm_num)]
  simp only [equU1, equU2, hq, ht]
  norm_num

theorem radec_corner_value (EPS : ℝ) (hE : 0 < EPS) : radec_to_healpixl EPS 45 0 4 = some 0 := by
  simp only [radec_to_healpixl, xyztohp_corner EPS hE, Option.map_some']
  rfl

/-! ### Doubling the resolution -/

theorem radec_unit (r d : ℝ) :
    radec2x r d * radec2x r d + radec2y r d * radec2y r d + radec2z r d * radec2z r d = 1 := by
  unfold radec2x radec2y radec2z
  nlinarith [Real.sin_sq_add_cos_sq r, Real.sin_sq_add_cos_sq d]

theorem hypot_polar (r p : ℝ) (hr : 0 ≤ r) : hypot (r * Real.cos p) (r * Real.sin p) = r := by
  unfold hypot
  have e : r * Real.cos p * (r * Real.cos p) + r * Real.sin p * (r * Real.sin p) = r ^ 2 := by
    nlinarith [Real.sin_sq_add_cos_sq p]
  rw [e, Real.sqrt_sq hr]

/-- azimuth data of a vector written by `hp_to_xyz_out` -/
theorem out_quad_tau (rad phi z : ℝ) (c : ℤ) (s : ℝ) (hr : 0 < rad) (hc0 : 0 ≤ c)
    (hc3 : c ≤ 3) (hs0 : 0 ≤ s) (hs1 : s < 1)
    (hphi : (if phi < 0 then phi + 2 * π else phi) = π / 2 * (c + s)) :
    quad (hp_to_xyz_out rad phi z).1 (hp_to_xyz_out rad phi z).2.1 = c ∧
      tau (hp_to_xyz_out rad phi z).1 (hp_to_xyz_out rad phi z).2.1 = s ∧
      hypot (hp_to_xyz_out rad phi z).1 (hp_to_xyz_out rad phi z).2.1 = rad ∧
      (hp_to_xyz_out rad phi z).2.2 = z := by
  have e0 : (0.0 : ℝ) = 0 := by norm_num
  simp only [hp_to_xyz_out, M_PI, e0, hphi]
  obtain ⟨h1, h2⟩ := quad_tau_polar rad c s hr hc0 hc3 hs0 hs1
  exact ⟨h1, h2, hypot_polar _ _ hr.le, trivial⟩

theorem out_north (EPS rad phi z coz : ℝ) (N c : ℤ) (s : ℝ) (hr : 0 < rad) (hc0 : 0 ≤ c)
    (hc3 : c ≤ 3) (hs0 : 0 ≤ s) (hs1 : s < 1)
    (hphi : (if phi < 0 then phi + 2 * π else phi) = π / 2 * (c + s))
    (hu : rad * rad + z * z = 1) (hN : 0 ≤ N) (hz : 2 / 3 ≤ z)
    (hc : coz = 0 ∨ coz = hypot (hp_to_xyz_out rad phi z).1 (hp_to_xyz_out rad phi z).2.1) :
    xyztohp EPS (hp_to_xyz_out rad phi z).1 (hp_to_xyz_out rad phi z).2.1
      (hp_to_xyz_out rad phi z).2.2 coz N =
      some ⟨c, min (N - 1) ⌊(N : ℝ) - √(3 * (1 - z)) * ((N : ℝ) * (1 - s))⌋,
        min (N - 1) ⌊(N : ℝ) - √(3 * (1 - z)) * ((N : ℝ) * s)⌋⟩ := by
  obtain ⟨h1, h2, _, h4⟩ := out_quad_tau rad phi z c s hr hc0 hc3 hs0 hs1 hphi
  have hn := hp_to_xyz_out_norm rad phi z
  rw [hu] at hn
  have hz' : 2 / 3 ≤ (hp_to_xyz_out rad phi z).2.2 := by rw [h4]; exact hz
  rw [xyztohp_north EPS _ _ _ coz N hN hz', h1, h2,
    polarS_eq _ _ _ _ coz hn hc rfl (by linarith), h4]

theorem out_south (EPS rad phi z coz : ℝ) (N c : ℤ) (s : ℝ) (hr : 0 < rad) (hc0 : 0 ≤ c)
    (hc3 : c ≤ 3) (hs0 : 0 ≤ s) (hs1 : s < 1)
    (hphi : (if phi < 0 then phi + 2 * π else phi) = π / 2 * (c + s))
    (hu : rad * rad + z * z = 1) (hN : 0 ≤ N) (hz : z ≤ -(2 / 3))
    (hc : coz = 0 ∨ coz = hypot (hp_to_xyz_out rad phi z).1 (hp_to_xyz_out rad phi z).2.1) :
    xyztohp EPS (hp_to_xyz_out rad phi z).1 (hp_to_xyz_out rad phi z).2.1
      (hp_to_xyz_out rad phi z).2.2 coz N =
      some ⟨8 + c, min (N - 1) ⌊√(3 * (1 + z)) * ((N : ℝ) * s)⌋,
        min (N - 1) ⌊√(3 * (1 + z)) * ((N : ℝ) * (1 - s))⌋⟩ := by
  obtain ⟨h1, h2, _, h4⟩ := out_quad_tau rad phi z c s hr hc0 hc3 hs0 hs1 hphi
  have hn := hp_to_xyz_out_norm rad phi z
  rw [hu] at hn
  have hz' : (hp_to_xyz_out rad phi z).2.2 ≤ -(2 / 3) := by rw [h4]; exact hz
  rw [xyztohp_south EPS _ _ _ coz N hN hz', h1, h2,
    polarS_eq _ _ _ _ coz hn hc (by ring) (by rw [h4]; linarith), h4, sub_neg_eq_add]

theorem out_equat (EPS rad phi z coz : ℝ) (N c : ℤ) (s : ℝ) (hE : 0 < EPS) (hr : 0 < rad)
    (hc0 : 0 ≤ c) (hc3 : c ≤ 3) (hs0 : 0 ≤ s) (hs1 : s < 1)
    (hphi : (if phi < 0 then phi + 2 * π else phi) = π / 2 * (c + s))
    (hz1 : -(2 / 3) < z) (hz2 : z < 2 / 3) (U1 U2 : ℝ)
    (hU1 : U1 = (z + 2 / 3) / (4 / 3) + s) (hU2 : U2 = (z + 2 / 3) / (4 / 3) - s + 1) :
    xyztohp EPS (hp_to_xyz_out rad phi z).1 (hp_to_xyz_out rad phi z).2.1
      (hp_to_xyz_out rad phi z).2.2 coz N =
      some ⟨(if U1 * N ≥ N then (if U2 * N ≥ N then c else Int.tmod (c + 1) 4 + 4)
          else (if U2 * N ≥ N then c + 4 else 8 + c)),
        max 0 (min (N - 1) ⌊if U1 * N ≥ N then U1 * N - N else U1 * N⌋),
        max 0 (min (N - 1) ⌊if U2 * N ≥ N then U2 * N - N else U2 * N⌋)⟩ := by
  obtain ⟨h1, h2, _, h4⟩ := out_quad_tau rad phi z c s hr hc0 hc3 hs0 hs1 hphi
  rw [xyztohp_equat EPS _ _ _ coz N hE (by rw [h4]; exact hz1) (by rw [h4]; exact hz2)]
  simp only [equU1, equU2, h1, h2, h4, ← hU1, ← hU2]

theorem clamp_min (N px : ℤ) (e dx : ℝ) (h : e = px + dx) (h0 : 0 ≤ dx) (h1 : dx < 1)
    (hpx : px < N) : min (N - 1) ⌊e⌋ = px := by
  have hf : ⌊e⌋ = px := by
    rw [Int.floor_eq_iff, h]; constructor <;> linarith
  rw [hf]; exact min_eq_right (by omega)

theorem clamp_max_min (N px : ℤ) (e dx : ℝ) (h : e = px + dx) (h0 : 0 ≤ dx) (h1 : dx < 1)
    (hpx0 : 0 ≤ px) (hpx : px < N) : max 0 (min (N - 1) ⌊e⌋) = px := by
  rw [clamp_min N px e dx h h0 h1 hpx]; exact max_eq_right hpx0

/-- facts about `vv = K / sqrt 3` -/
theorem vv_facts (N S : ℝ) (hN : 0 < N) (hS0 : 0 < S) (hS : S ≤ N) :
    0 < S / (N * √3) ∧ 2 / 3 ≤ (1 - S / (N * √3)) * (1 + S / (N * √3)) ∧
      √(3 * (1 - (1 - S / (N * √3)) * (1 + S / (N * √3)))) = S / N ∧
      0 < √(1 + (1 - S / (N * √3)) * (1 + S / (N * √3))) * (S / (N * √3)) := by
  have h3 : 0 < √3 := Real.sqrt_pos.mpr (by norm_num)
  have h33 : √3 * √3 = 3 := Real.mul_self_sqrt (by norm_num)
  have hpos : 0 < S / (N * √3) := by positivity
  have hsq : S / (N * √3) * (S / (N * √3)) = (S / N) * (S / N) / 3 := by
    field_simp; nlinarith
  have hK1 : S / N ≤ 1 := by rw [div_le_one hN]; exact hS
  have hK0 : 0 < S / N := by positivity
  have hz : 2 / 3 ≤ (1 - S / (N * √3)) * (1 + S / (N * √3)) := by nlinarith
  refine ⟨hpos, hz, ?_, ?_⟩
  · have e : 3 * (1 - (1 - S / (N * √3)) * (1 + S / (N * √3))) = (S / N) ^ 2 := by nlinarith
    rw [e, Real.sqrt_sq hK0.le]
  · apply mul_pos _ hpos
    apply Real.sqrt_pos.mpr; linarith

theorem inv_north_polar (EPS : ℝ) (N : ℤ) (dx dy : ℝ) (chp xp yp : ℤ) (coz : ℝ)
    (hN : 1 ≤ N) (hc0 : 0 ≤ chp) (hc3 : chp ≤ 3) (hx : 0 ≤ xp ∧ xp < N) (hy : 0 ≤ yp ∧ yp < N)
    (hdx : 0 < dx ∧ dx < 1) (hdy : 0 < dy ∧ dy < 1) (h : (N : ℝ) < xp + dx + (yp + dy))
    (v : ℝ × ℝ × ℝ) (hv : hp_to_xyz N dx dy chp xp yp = some v)
    (hcoz : coz = 0 ∨ coz = hypot v.1 v.2.1) :
    xyztohp EPS v.1 v.2.1 v.2.2 coz N = some ⟨chp, xp, yp⟩ := by
  have hp := Real.pi_pos
  have hNr : (1 : ℝ) ≤ N := by exact_mod_cast hN
  have hN0 : (0 : ℝ) < N := by linarith
  have hx1 : (xp : ℝ) + 1 ≤ N := by exact_mod_cast hx.2
  have hy1 : (yp : ℝ) + 1 ≤ N := by exact_mod_cast hy.2
  obtain ⟨hdx0, hdx1⟩ := hdx
  obtain ⟨hdy0, hdy1⟩ := hdy
  rw [hp_to_xyz_north_polar N dx dy chp xp yp hc3 h] at hv
  set a : ℝ := N - (xp + dx) with ha
  set b : ℝ := N - (yp + dy) with hb
  have ha0 : 0 < a := by rw [ha]; linarith
  have hb0 : 0 < b := by rw [hb]; linarith
  have hab : a + b ≤ N := by rw [ha, hb]; linarith
  have evv : polar_vv N (xp + dx) (yp + dy) = (a + b) / (N * √3) := by
    rw [← polar_vv_eq N a b hN0 ha0.le hb0.le]
    congr 1 <;> simp only [ha, hb] <;> ring
  have ept : polar_phi_t N (xp + dx) (yp + dy) = π / 2 * (b / (a + b)) := by
    unfold polar_phi_t
    rw [if_neg (by intro hh; linarith [hh.1])]
    simp only [sub_sub_cancel_left, ← ha, ← hb]
    field_simp
  rw [evv, ept] at hv
  obtain ⟨f1, f2, f3, f4⟩ := vv_facts N (a + b) hN0 (by linarith) hab
  have hs0 : 0 ≤ b / (a + b) := by positivity
  have hs1 : b / (a + b) < 1 := by rw [div_lt_one (by linarith)]; linarith
  have hphi : (if π / 2 * chp + π / 2 * (b / (a + b)) < 0
      then π / 2 * chp + π / 2 * (b / (a + b)) + 2 * π
      else π / 2 * chp + π / 2 * (b / (a + b))) = π / 2 * (chp + b / (a + b)) := by
    have hc0r : (0 : ℝ) ≤ chp := by exact_mod_cast hc0
    rw [if_neg (by push_neg; positivity)]; ring
  cases hv
  rw [out_north EPS _ _ _ coz N chp (b / (a + b)) f4 hc0 hc3 hs0 hs1 hphi
    (polar_norm _ f1.le (by nlinarith)) (by omega) f2 hcoz, f3]
  have hab0 : a + b ≠ 0 := by linarith
  congr 2
  · apply clamp_min N xp _ dx _ hdx0.le hdx1 hx.2
    rw [ha]; field_simp; ring
  · apply clamp_min N yp _ dy _ hdy0.le hdy1 hy.2
    rw [hb]; field_simp; ring

theorem inv_south_polar (EPS : ℝ) (N : ℤ) (dx dy : ℝ) (chp xp yp : ℤ) (coz : ℝ)
    (hN : 1 ≤ N) (hc8 : 8 ≤ chp) (hc11 : chp ≤ 11) (hx : 0 ≤ xp ∧ xp < N)
    (hy : 0 ≤ yp ∧ yp < N) (hdx : 0 < dx ∧ dx < 1) (hdy : 0 < dy ∧ dy < 1)
    (h : xp + dx + (yp + dy) < (N : ℝ))
    (v : ℝ × ℝ × ℝ) (hv : hp_to_xyz N dx dy chp xp yp = some v)
    (hcoz : coz = 0 ∨ coz = hypot v.1 v.2.1) :
    xyztohp EPS v.1 v.2.1 v.2.2 coz N = some ⟨chp, xp, yp⟩ := by
  have hp := Real.pi_pos
  have hNr : (1 : ℝ) ≤ N := by exact_mod_cast hN
  have hN0 : (0 : ℝ) < N := by linarith
  have hx0 : (0 : ℝ) ≤ xp := by exact_mod_cast hx.1
  have hy0 : (0 : ℝ) ≤ yp := by exact_mod_cast hy.1
  obtain ⟨hdx0, hdx1⟩ := hdx
  obtain ⟨hdy0, hdy1⟩ := hdy
  rw [hp_to_xyz_south_polar N dx dy chp xp yp hc8 h] at hv
  set X : ℝ := xp + dx with hX
  set Y : ℝ := yp + dy with hY
  have hX0 : 0 < X := by rw [hX]; linarith
  have hY0 : 0 < Y := by rw [hY]; linarith
  have evv : polar_vv N (N - Y) (N - X) = (Y + X) / (N * √3) :=
    polar_vv_eq N Y X hN0 hY0.le hX0.le
  have ept : polar_phi_t N (N - Y) (N - X) = π / 2 * (X / (Y + X)) := by
    unfold polar_phi_t
    rw [if_neg (by intro hh; linarith [hh.1])]
    simp only [sub_sub_cancel]
    field_simp
  rw [evv, ept] at hv
  obtain ⟨f1, f2, f3, f4⟩ := vv_facts N (Y + X) hN0 (by linarith) (by linarith)
  have hs0 : 0 ≤ X / (Y + X) := by positivity
  have hs1 : X / (Y + X) < 1 := by rw [div_lt_one (by linarith)]; linarith
  have hcr : (8 : ℝ) ≤ chp := by exact_mod_cast hc8
  have hphi : (if π / 2 * ((chp : ℝ) - 8) + π / 2 * (X / (Y + X)) < 0
      then π / 2 * ((chp : ℝ) - 8) + π / 2 * (X / (Y + X)) + 2 * π
      else π / 2 * ((chp : ℝ) - 8) + π / 2 * (X / (Y + X))) =
        π / 2 * (((chp - 8 : ℤ) : ℝ) + X / (Y + X)) := by
    have : 0 ≤ π / 2 * ((chp : ℝ) - 8) := mul_nonneg (by positivity) (by linarith)
    rw [if_neg (by push_neg; positivity)]; push_cast; ring
  cases hv
  have hle : (Y + X) / (N * √3) ≤ 1 := (vv_bounds N (Y + X) hN0 (by linarith) (by linarith)).2
  have hu := polar_norm _ f1.le hle
  have hu2 : √(1 + (1 - (Y + X) / (N * √3)) * (1 + (Y + X) / (N * √3))) * ((Y + X) / (N * √3)) *
      (√(1 + (1 - (Y + X) / (N * √3)) * (1 + (Y + X) / (N * √3))) * ((Y + X) / (N * √3))) +
      -((1 - (Y + X) / (N * √3)) * (1 + (Y + X) / (N * √3))) *
        -((1 - (Y + X) / (N * √3)) * (1 + (Y + X) / (N * √3))) = 1 := by
    rw [neg_mul_neg]; exact hu
  have hz : -((1 - (Y + X) / (N * √3)) * (1 + (Y + X) / (N * √3))) ≤ -(2 / 3) := by linarith
  have hN' : (0 : ℤ) ≤ N := by omega
  have hc0' : (0 : ℤ) ≤ chp - 8 := by omega
  have hc3' : chp - 8 ≤ 3 := by omega
  rw [out_south EPS _ _ _ coz N (chp - 8) (X / (Y + X)) f4 hc0' hc3' hs0 hs1 hphi
    hu2 hN' hz hcoz, ← sub_eq_add_neg, f3]
  have hab0 : Y + X ≠ 0 := by linarith
  congr 2
  · omega
  · apply clamp_min N xp _ dx _ hdx0.le hdx1 hx.2
    rw [← hX]; field_simp; ring
  · apply clamp_min N yp _ dy _ hdy0.le hdy1 hy.2
    rw [← hY]; field_simp; ring

theorem not_mul_ge (w N : ℝ) (hw : w < 1) (hN : 0 < N) : ¬ (w * N ≥ N) := by
  push_neg; nlinarith

theorem add_one_mul_ge (u N : ℝ) (hu : 0 ≤ u) (hN : 0 < N) : (u + 1) * N ≥ N := by
  nlinarith

theorem sqrt_three_third : √(3 * (1 - 2 / 3)) = 1 := by
  rw [show (3 : ℝ) * (1 - 2 / 3) = 1 by norm_num, Real.sqrt_one]

theorem inv_north_equat (EPS : ℝ) (N : ℤ) (dx dy : ℝ) (chp xp yp : ℤ) (coz : ℝ) (hE : 0 < EPS)
    (hN : 1 ≤ N) (hc0 : 0 ≤ chp) (hc3 : chp ≤ 3) (hx : 0 ≤ xp ∧ xp < N) (hy : 0 ≤ yp ∧ yp < N)
    (hdx : 0 < dx ∧ dx < 1) (hdy : 0 < dy ∧ dy < 1) (h : xp + dx + (yp + dy) ≤ (N : ℝ))
    (v : ℝ × ℝ × ℝ) (hv : hp_to_xyz N dx dy chp xp yp = some v)
    (hcoz : coz = 0 ∨ coz = hypot v.1 v.2.1) :
    xyztohp EPS v.1 v.2.1 v.2.2 coz N = some ⟨chp, xp, yp⟩ := by
  have hp := Real.pi_pos
  have hNr : (1 : ℝ) ≤ N := by exact_mod_cast hN
  have hN0 : (0 : ℝ) < N := by linarith
  have hx0 : (0 : ℝ) ≤ xp := by exact_mod_cast hx.1
  have hy0 : (0 : ℝ) ≤ yp := by exact_mod_cast hy.1
  have hx1 : (xp : ℝ) + 1 ≤ N := by exact_mod_cast hx.2
  have hy1 : (yp : ℝ) + 1 ≤ N := by exact_mod_cast hy.2
  have hc0r : (0 : ℝ) ≤ chp := by exact_mod_cast hc0
  obtain ⟨hdx0, hdx1⟩ := hdx
  obtain ⟨hdy0, hdy1⟩ := hdy
  rw [hp_to_xyz_north_equat N dx dy chp xp yp hc3 h] at hv
  have eX : (xp : ℝ) + dx = ((xp + dx) / N) * N := by field_simp
  have eY : (yp : ℝ) + dy = ((yp + dy) / N) * N := by field_simp
  have hu0 : 0 < (xp + dx) / (N : ℝ) := by positivity
  have hv0 : 0 < (yp + dy) / (N : ℝ) := by positivity
  have huv : (xp + dx) / (N : ℝ) + (yp + dy) / N ≤ 1 := by
    rw [← add_div, div_le_one hN0]; linarith
  generalize (xp + dx) / (N : ℝ) = u at hv eX hu0 huv
  generalize (yp + dy) / (N : ℝ) = w at hv eY hv0 huv
  have hs0 : 0 ≤ (u - w + 1) / 2 := by linarith
  have hs1 : (u - w + 1) / 2 < 1 := by linarith
  have hphi : (if π / 4 * (u - w + 1 + 2 * chp) < 0 then π / 4 * (u - w + 1 + 2 * chp) + 2 * π
      else π / 4 * (u - w + 1 + 2 * chp)) = π / 2 * ((chp : ℝ) + (u - w + 1) / 2) := by
    have : 0 ≤ π / 4 * (u - w + 1 + 2 * chp) := mul_nonneg (by positivity) (by linarith)
    rw [if_neg (by push_neg; exact this)]; ring
  have hzz : 2 / 3 * (u + w) * (2 / 3 * (u + w)) ≤ 4 / 9 := by nlinarith
  have hrad : 0 < √(1 - 2 / 3 * (u + w) * (2 / 3 * (u + w))) :=
    Real.sqrt_pos.mpr (by linarith)
  have hunit := equat_norm (2 / 3 * (u + w)) (by linarith)
  have hN' : (0 : ℤ) ≤ N := by omega
  cases hv
  by_cases hz : u + w = 1
  · have hz2 : (2 : ℝ) / 3 ≤ 2 / 3 * (u + w) := by rw [hz]; norm_num
    rw [out_north EPS _ _ _ coz N chp ((u - w + 1) / 2) hrad hc0 hc3 hs0 hs1 hphi hunit hN' hz2
      hcoz, hz, mul_one, sqrt_three_third]
    congr 2
    · apply clamp_min N xp _ dx _ hdx0.le hdx1 hx.2
      rw [eX]; have : w = 1 - u := by linarith
      rw [this]; ring
    · apply clamp_min N yp _ dy _ hdy0.le hdy1 hy.2
      rw [eY]; have : u = 1 - w := by linarith
      rw [this]; ring
  · have hlt : u + w < 1 := lt_of_le_of_ne huv hz
    rw [out_equat EPS _ _ _ coz N chp ((u - w + 1) / 2) hE hrad hc0 hc3 hs0 hs1 hphi
      (by linarith) (by linarith) (u + 1) (w + 1) (by ring) (by ring)]
    have g1 : (u + 1) * (N : ℝ) ≥ N := add_one_mul_ge u N hu0.le hN0
    have g2 : (w + 1) * (N : ℝ) ≥ N := add_one_mul_ge w N hv0.le hN0
    simp only [if_pos g1, if_pos g2]
    congr 2
    · apply clamp_max_min N xp _ dx _ hdx0.le hdx1 hx.1 hx.2
      rw [eX]; ring
    · apply clamp_max_min N yp _ dy _ hdy0.le hdy1 hy.1 hy.2
      rw [eY]; ring

theorem inv_south_equat (EPS : ℝ) (N : ℤ) (dx dy : ℝ) (chp xp yp : ℤ) (coz : ℝ) (hE : 0 < EPS)
    (hN : 1 ≤ N) (hc8 : 8 ≤ chp) (hc11 : chp ≤ 11) (hx : 0 ≤ xp ∧ xp < N)
    (hy : 0 ≤ yp ∧ yp < N) (hdx : 0 < dx ∧ dx < 1) (hdy : 0 < dy ∧ dy < 1)
    (h : (N : ℝ) ≤ xp + dx + (yp + dy))
    (v : ℝ × ℝ × ℝ) (hv : hp_to_xyz N dx dy chp xp yp = some v)
    (hcoz : coz = 0 ∨ coz = hypot v.1 v.2.1) :
    xyztohp EPS v.1 v.2.1 v.2.2 coz N = some ⟨chp, xp, yp⟩ := by
  have hp := Real.pi_pos
  have hNr : (1 : ℝ) ≤ N := by exact_mod_cast hN
  have hN0 : (0 : ℝ) < N := by linarith
  have hx0 : (0 : ℝ) ≤ xp := by exact_mod_cast hx.1
  have hy0 : (0 : ℝ) ≤ yp := by exact_mod_cast hy.1
  have hx1 : (xp : ℝ) + 1 ≤ N := by exact_mod_cast hx.2
  have hy1 : (yp : ℝ) + 1 ≤ N := by exact_mod_cast hy.2
  have hcr : (8 : ℝ) ≤ chp := by exact_mod_cast hc8
  obtain ⟨hdx0, hdx1⟩ := hdx
  obtain ⟨hdy0, hdy1⟩ := hdy
  rw [hp_to_xyz_south_equat N dx dy chp xp yp hc8 hc11 h] at hv
  have eX : (xp : ℝ) + dx = ((xp + dx) / N) * N := by field_simp
  have eY : (yp : ℝ) + dy = ((yp + dy) / N) * N := by field_simp
  have hu1 : (xp + dx) / (N : ℝ) < 1 := by rw [div_lt_one hN0]; linarith
  have hv1 : (yp + dy) / (N : ℝ) < 1 := by rw [div_lt_one hN0]; linarith
  have huv : 1 ≤ (xp + dx) / (N : ℝ) + (yp + dy) / N := by
    rw [← add_div, le_div_iff₀ hN0]; linarith
  generalize (xp + dx) / (N : ℝ) = u at hv eX hu1 huv
  generalize (yp + dy) / (N : ℝ) = w at hv eY hv1 huv
  have hs0 : 0 ≤ (u - w + 1) / 2 := by linarith
  have hs1 : (u - w + 1) / 2 < 1 := by linarith
  have hphi : (if π / 4 * (u - w + 1 + 2 * ((chp : ℝ) - 8)) < 0
      then π / 4 * (u - w + 1 + 2 * ((chp : ℝ) - 8)) + 2 * π
      else π / 4 * (u - w + 1 + 2 * ((chp : ℝ) - 8))) =
        π / 2 * (((chp - 8 : ℤ) : ℝ) + (u - w + 1) / 2) := by
    have : 0 ≤ π / 4 * (u - w + 1 + 2 * ((chp : ℝ) - 8)) :=
      mul_nonneg (by positivity) (by linarith)
    rw [if_neg (by push_neg; exact this)]; push_cast; ring
  have hzz : 2 / 3 * (u + w - 2) * (2 / 3 * (u + w - 2)) ≤ 4 / 9 := by nlinarith
  have hrad : 0 < √(1 - 2 / 3 * (u + w - 2) * (2 / 3 * (u + w - 2))) :=
    Real.sqrt_pos.mpr (by linarith)
  have hunit := equat_norm (2 / 3 * (u + w - 2)) (by linarith)
  have hN' : (0 : ℤ) ≤ N := by omega
  have hc0' : (0 : ℤ) ≤ chp - 8 := by omega
  have hc3' : chp - 8 ≤ 3 := by omega
  cases hv
  by_cases hz : u + w = 1
  · have hz2 : 2 / 3 * (u + w - 2) ≤ -((2 : ℝ) / 3) := by rw [hz]; norm_num
    have e1 : √(3 * (1 + 2 / 3 * (u + w - 2))) = 1 := by
      rw [hz, show (3 : ℝ) * (1 + 2 / 3 * (1 - 2)) = 1 by norm_num, Real.sqrt_one]
    rw [out_south EPS _ _ _ coz N (chp - 8) ((u - w + 1) / 2) hrad hc0' hc3' hs0 hs1 hphi hunit
      hN' hz2 hcoz, e1]
    congr 2
    · omega
    · apply clamp_min N xp _ dx _ hdx0.le hdx1 hx.2
      rw [eX]; have : w = 1 - u := by linarith
      rw [this]; ring
    · apply clamp_min N yp _ dy _ hdy0.le hdy1 hy.2
      rw [eY]; have : u = 1 - w := by linarith
      rw [this]; ring
  · have hlt : 1 < u + w := lt_of_le_of_ne huv (Ne.symm hz)
    rw [out_equat EPS _ _ _ coz N (chp - 8) ((u - w + 1) / 2) hE hrad hc0' hc3' hs0 hs1 hphi
      (by linarith) (by linarith) u w (by ring) (by ring)]
    have g1 : ¬ (u * (N : ℝ) ≥ N) := not_mul_ge u N hu1 hN0
    have g2 : ¬ (w * (N : ℝ) ≥ N) := not_mul_ge w N hv1 hN0
    simp only [if_neg g1, if_neg g2]
    congr 2
    · omega
    · apply clamp_max_min N xp _ dx _ hdx0.le hdx1 hx.1 hx.2
      rw [eX]
    · apply clamp_max_min N yp _ dy _ hdy0.le hdy1 hy.1 hy.2
      rw [eY]

theorem inv_mid (EPS : ℝ) (N : ℤ) (dx dy : ℝ) (chp xp yp : ℤ) (coz : ℝ) (hE : 0 < EPS)
    (hN : 1 ≤ N) (hc4 : 4 ≤ chp) (hc7 : chp ≤ 7) (hx : 0 ≤ xp ∧ xp < N)
    (hy : 0 ≤ yp ∧ yp < N) (hdx : 0 < dx ∧ dx < 1) (hdy : 0 < dy ∧ dy < 1)
    (v : ℝ × ℝ × ℝ) (hv : hp_to_xyz N dx dy chp xp yp = some v)
    (hcoz : coz = 0 ∨ coz = hypot v.1 v.2.1) :
    xyztohp EPS v.1 v.2.1 v.2.2 coz N = some ⟨chp, xp, yp⟩ := by
  have hp := Real.pi_pos
  have hNr : (1 : ℝ) ≤ N := by exact_mod_cast hN
  have hN0 : (0 : ℝ) < N := by linarith
  have hx0 : (0 : ℝ) ≤ xp := by exact_mod_cast hx.1
  have hy0 : (0 : ℝ) ≤ yp := by exact_mod_cast hy.1
  have hx1 : (xp : ℝ) + 1 ≤ N := by exact_mod_cast hx.2
  have hy1 : (yp : ℝ) + 1 ≤ N := by exact_mod_cast hy.2
  have hcr : (4 : ℝ) ≤ chp := by exact_mod_cast hc4
  obtain ⟨hdx0, hdx1⟩ := hdx
  obtain ⟨hdy0, hdy1⟩ := hdy
  rw [hp_to_xyz_mid N dx dy chp xp yp hc4 hc7] at hv
  have eX : (xp : ℝ) + dx = ((xp + dx) / N) * N := by field_simp
  have eY : (yp : ℝ) + dy = ((yp + dy) / N) * N := by field_simp
  have hu0 : 0 < (xp + dx) / (N : ℝ) := by positivity
  have hv0 : 0 < (yp + dy) / (N : ℝ) := by positivity
  have hu1 : (xp + dx) / (N : ℝ) < 1 := by rw [div_lt_one hN0]; linarith
  have hv1 : (yp + dy) / (N : ℝ) < 1 := by rw [div_lt_one hN0]; linarith
  generalize (xp + dx) / (N : ℝ) = u at hv eX hu0 hu1
  generalize (yp + dy) / (N : ℝ) = w at hv eY hv0 hv1
  have hzz : 2 / 3 * (u + w - 1) * (2 / 3 * (u + w - 1)) ≤ 4 / 9 := by nlinarith
  have hrad : 0 < √(1 - 2 / 3 * (u + w - 1) * (2 / 3 * (u + w - 1))) :=
    Real.sqrt_pos.mpr (by linarith)
  have hz1 : -((2 : ℝ) / 3) < 2 / 3 * (u + w - 1) := by linarith
  have hz2 : 2 / 3 * (u + w - 1) < (2 : ℝ) / 3 := by linarith
  cases hv
  by_cases huw : w ≤ u
  · have hs0 : 0 ≤ (u - w) / 2 := by linarith
    have hs1 : (u - w) / 2 < 1 := by linarith
    have hphi : (if π / 4 * (u - w + 2 * ((chp : ℝ) - 4)) < 0
        then π / 4 * (u - w + 2 * ((chp : ℝ) - 4)) + 2 * π
        else π / 4 * (u - w + 2 * ((chp : ℝ) - 4))) =
          π / 2 * (((chp - 4 : ℤ) : ℝ) + (u - w) / 2) := by
      have : 0 ≤ π / 4 * (u - w + 2 * ((chp : ℝ) - 4)) :=
        mul_nonneg (by positivity) (by linarith)
      rw [if_neg (by push_neg; exact this)]; push_cast; ring
    rw [out_equat EPS _ _ _ coz N (chp - 4) ((u - w) / 2) hE hrad (by omega) (by omega) hs0 hs1
      hphi hz1 hz2 u (w + 1) (by ring) (by ring)]
    have g1 : ¬ (u * (N : ℝ) ≥ N) := not_mul_ge u N hu1 hN0
    have g2 : (w + 1) * (N : ℝ) ≥ N := add_one_mul_ge w N hv0.le hN0
    simp only [if_neg g1, if_pos g2]
    congr 2
    · omega
    · apply clamp_max_min N xp _ dx _ hdx0.le hdx1 hx.1 hx.2
      rw [eX]
    · apply clamp_max_min N yp _ dy _ hdy0.le hdy1 hy.1 hy.2
      rw [eY]; ring
  · push_neg at huw
    have hs0 : 0 ≤ 1 - (w - u) / 2 := by linarith
    have hs1 : 1 - (w - u) / 2 < 1 := by linarith
    have g1 : (u + 1) * (N : ℝ) ≥ N := add_one_mul_ge u N hu0.le hN0
    have g2 : ¬ (w * (N : ℝ) ≥ N) := not_mul_ge w N hv1 hN0
    by_cases h4 : chp = 4
    · subst h4
      have hphi : (if π / 4 * (u - w + 2 * (((4 : ℤ) : ℝ) - 4)) < 0
          then π / 4 * (u - w + 2 * (((4 : ℤ) : ℝ) - 4)) + 2 * π
          else π / 4 * (u - w + 2 * (((4 : ℤ) : ℝ) - 4))) =
            π / 2 * (((3 : ℤ) : ℝ) + (1 - (w - u) / 2)) := by
        have : π / 4 * (u - w + 2 * (((4 : ℤ) : ℝ) - 4)) < 0 := by
          push_cast; nlinarith
        rw [if_pos this]; push_cast; ring
      rw [out_equat EPS _ _ _ coz N 3 (1 - (w - u) / 2) hE hrad (by omega) (by omega) hs0 hs1
        hphi hz1 hz2 (u + 1) w (by ring) (by ring)]
      simp only [if_pos g1, if_neg g2]
      congr 2
      · apply clamp_max_min N xp _ dx _ hdx0.le hdx1 hx.1 hx.2
        rw [eX]; ring
      · apply clamp_max_min N yp _ dy _ hdy0.le hdy1 hy.1 hy.2
        rw [eY]
    · have hc5 : 5 ≤ chp := by omega
      have hc5r : (5 : ℝ) ≤ chp := by exact_mod_cast hc5
      have hphi : (if π / 4 * (u - w + 2 * ((chp : ℝ) - 4)) < 0
          then π / 4 * (u - w + 2 * ((chp : ℝ) - 4)) + 2 * π
          else π / 4 * (u - w + 2 * ((chp : ℝ) - 4))) =
            π / 2 * (((chp - 5 : ℤ) : ℝ) + (1 - (w - u) / 2)) := by
        have : 0 ≤ π / 4 * (u - w + 2 * ((chp : ℝ) - 4)) :=
          mul_nonneg (by positivity) (by linarith)
        rw [if_neg (by push_neg; exact this)]; push_cast; ring
      rw [out_equat EPS _ _ _ coz N (chp - 5) (1 - (w - u) / 2) hE hrad (by omega) (by omega)
        hs0 hs1 hphi hz1 hz2 (u + 1) w (by ring) (by ring)]
      simp only [if_pos g1, if_neg g2]
      congr 2
      · have : chp = 5 ∨ chp = 6 ∨ chp = 7 := by omega
        rcases this with r | r | r <;> subst r <;> rfl
      · apply clamp_max_min N xp _ dx _ hdx0.le hdx1 hx.1 hx.2
        rw [eX]; ring
      · apply clamp_max_min N yp _ dy _ hdy0.le hdy1 hy.1 hy.2
        rw [eY]

/-! ### Degrees and back, and the centre round trip -/

/-- `xyztohp` inverts `hp_to_xyz` at every point strictly inside a pixel -/
theorem xyztohp_hp_to_xyz (EPS : ℝ) (N : ℤ) (dx dy : ℝ) (chp xp yp : ℤ) (hE : 0 < EPS)
    (hN : 1 ≤ N) (hc : 0 ≤ chp ∧ chp < 12) (hx : 0 ≤ xp ∧ xp < N) (hy : 0 ≤ yp ∧ yp < N)
    (hdx : 0 < dx ∧ dx < 1) (hdy : 0 < dy ∧ dy < 1) :
    ∃ v : ℝ × ℝ × ℝ, hp_to_xyz N dx dy chp xp yp = some v ∧
      v.1 * v.1 + v.2.1 * v.2.1 + v.2.2 * v.2.2 = 1 ∧
      ∀ coz : ℝ, coz = 0 ∨ coz = hypot v.1 v.2.1 →
        xyztohp EPS v.1 v.2.1 v.2.2 coz N = some ⟨chp, xp, yp⟩ := by
  obtain ⟨v, hv, hu⟩ := hp_to_xyz_norm N dx dy chp xp yp hN hc hx hy ⟨hdx.1.le, hdx.2.le⟩
    ⟨hdy.1.le, hdy.2.le⟩
  refine ⟨v, hv, hu, fun coz hcoz => ?_⟩
  by_cases h3 : chp ≤ 3
  · by_cases hp : (N : ℝ) < xp + dx + (yp + dy)
    · exact inv_north_polar EPS N dx dy chp xp yp coz hN hc.1 h3 hx hy hdx hdy hp v hv hcoz
    · exact inv_north_equat EPS N dx dy chp xp yp coz hE hN hc.1 h3 hx hy hdx hdy
        (not_lt.mp hp) v hv hcoz
  · by_cases h7 : chp ≤ 7
    · exact inv_mid EPS N dx dy chp xp yp coz hE hN (by omega) h7 hx hy hdx hdy v hv hcoz
    · by_cases hp : xp + dx + (yp + dy) < (N : ℝ)
      · exact inv_south_polar EPS N dx dy chp xp yp coz hN (by omega) (by omega) hx hy hdx hdy
          hp v hv hcoz
      · exact inv_south_equat EPS N dx dy chp xp yp coz hE hN (by omega) (by omega) hx hy hdx
          hdy (not_lt.mp hp) v hv hcoz

theorem abs_mk (x y : ℝ) : Complex.abs ⟨x, y⟩ = hypot x y := by
  rw [Complex.abs_apply, Complex.normSq_mk]; rfl

theorem hypot_mul_cos_xy2ra (x y : ℝ) : hypot x y * Real.cos (xy2ra x y) = x := by
  have h := Complex.abs_mul_cos_arg ⟨x, y⟩
  rw [abs_mk] at h
  unfold xy2ra atan2 M_PI
  simp only
  split_ifs
  · rw [show (2.0 : ℝ) = 2 by norm_num, Real.cos_add_two_pi]; exact h
  · exact h

theorem hypot_mul_sin_xy2ra (x y : ℝ) : hypot x y * Real.sin (xy2ra x y) = y := by
  have h := Complex.abs_mul_sin_arg ⟨x, y⟩
  rw [abs_mk] at h
  unfold xy2ra atan2 M_PI
  simp only
  split_ifs
  · rw [show (2.0 : ℝ) = 2 by norm_num, Real.sin_add_two_pi]; exact h
  · exact h

/-- the declination (radians) computed by `xyz2radec` has sine `z` and cosine `hypot x y`
on the unit sphere -/
theorem dec_sin_cos (x y z : ℝ) (hu : x * x + y * y + z * z = 1) :
    Real.sin (xyz2radec x y z).2 = z ∧ Real.cos (xyz2radec x y z).2 = hypot x y := by
  have hh := hypot_sq x y
  have hh0 := hypot_nonneg x y
  have hz1 : z ≤ 1 := by nlinarith [sq_nonneg x, sq_nonneg y]
  have hz2 : -1 ≤ z := by nlinarith [sq_nonneg x, sq_nonneg y]
  simp only [xyz2radec, z2dec, M_PI]
  split_ifs with h9
  · have ha : Complex.abs ⟨z, hypot x y⟩ = 1 := by
      rw [abs_mk]; unfold hypot
      rw [← Real.sqrt_one]; congr 1
      rw [Real.mul_self_sqrt (by nlinarith [sq_nonneg x, sq_nonneg y])]; linarith
    have hc := Complex.abs_mul_cos_arg ⟨z, hypot x y⟩
    have hs := Complex.abs_mul_sin_arg ⟨z, hypot x y⟩
    rw [ha, one_mul] at hc hs
    rw [show (2.0 : ℝ) = 2 by norm_num, Real.sin_pi_div_two_sub, Real.cos_pi_div_two_sub]
    exact ⟨hc, hs⟩
  · rw [Real.sin_arcsin hz2 hz1, Real.cos_arcsin]
    refine ⟨rfl, ?_⟩
    unfold hypot; congr 1; nlinarith

/-- converting the degrees written by `xyzarr2radecdeg` back to a vector, as
`radec_to_healpixl` does, gives the vector back -/
theorem radec_of_xyz (v : ℝ × ℝ × ℝ) (hu : v.1 * v.1 + v.2.1 * v.2.1 + v.2.2 * v.2.2 = 1) :
    radec2x ((xyzarr2radecdeg v).1 / DEG_PER_RAD) ((xyzarr2radecdeg v).2 / DEG_PER_RAD) = v.1 ∧
    radec2y ((xyzarr2radecdeg v).1 / DEG_PER_RAD) ((xyzarr2radecdeg v).2 / DEG_PER_RAD) = v.2.1 ∧
    radec2z ((xyzarr2radecdeg v).1 / DEG_PER_RAD) ((xyzarr2radecdeg v).2 / DEG_PER_RAD) = v.2.2 ∧
    Real.cos ((xyzarr2radecdeg v).2 / DEG_PER_RAD) = hypot v.1 v.2.1 := by
  have hD := deg_pos
  obtain ⟨x, y, z⟩ := v
  simp only at hu
  obtain ⟨hs, hc⟩ := dec_sin_cos x y z hu
  simp only [xyzarr2radecdeg, rad2deg, radec2x, radec2y, radec2z,
    mul_div_assoc, div_self hD.ne', mul_one]
  have e1 : (xyz2radec x y z).1 = xy2ra x y := rfl
  rw [hs, hc, e1]
  exact ⟨hypot_mul_cos_xy2ra x y, hypot_mul_sin_xy2ra x y, rfl, rfl⟩

/-- the centre round trip returns the nested index of the pixel the decomposition finds -/
theorem roundtrip_eq (EPS : ℝ) (N i : ℤ) (hE : 0 < EPS) (hN : 1 ≤ N)
    (hb : 0 ≤ (healpixl_unpack i N).bighp ∧ (healpixl_unpack i N).bighp < 12)
    (hx : 0 ≤ (healpixl_unpack i N).x ∧ (healpixl_unpack i N).x < N)
    (hy : 0 ≤ (healpixl_unpack i N).y ∧ (healpixl_unpack i N).y < N) :
    (healpixl_to_radecdeg i N 0.5 0.5).bind (fun rd => radec_to_healpixl EPS rd.1 rd.2 N) =
      some (hp_to_nested (healpixl_unpack i N) N) := by
  obtain ⟨v, hv, hu, hinv⟩ := xyztohp_hp_to_xyz EPS N 0.5 0.5 _ _ _ hE hN hb hx hy
    (by norm_num) (by norm_num)
  obtain ⟨r1, r2, r3, r4⟩ := radec_of_xyz v hu
  simp only [healpixl_to_radecdeg, hv, Option.map_some', Option.some_bind, radec_to_healpixl,
    r1, r2, r3, r4, hinv _ (Or.inr rfl)]

/-- for a power-of-two resolution, decomposing a valid index gives a pixel in range,
and composing it again gives the index back -/
theorem unpack_pow2 (k i : ℕ) (hk : k ≤ 32) (hi : i < 12 * (2 ^ k * 2 ^ k)) :
    (0 ≤ (healpixl_unpack (i : ℤ) ((2 ^ k : ℕ) : ℤ)).bighp ∧
      (healpixl_unpack (i : ℤ) ((2 ^ k : ℕ) : ℤ)).bighp < 12) ∧
    (0 ≤ (healpixl_unpack (i : ℤ) ((2 ^ k : ℕ) : ℤ)).x ∧
      (healpixl_unpack (i : ℤ) ((2 ^ k : ℕ) : ℤ)).x < ((2 ^ k : ℕ) : ℤ)) ∧
    (0 ≤ (healpixl_unpack (i : ℤ) ((2 ^ k : ℕ) : ℤ)).y ∧
      (healpixl_unpack (i : ℤ) ((2 ^ k : ℕ) : ℤ)).y < ((2 ^ k : ℕ) : ℤ)) ∧
    (healpixl_unpack (i : ℤ) ((2 ^ k : ℕ) : ℤ)).bighp = ((i / (2 ^ k * 2 ^ k) : ℕ) : ℤ) ∧
    nested_sum (healpixl_unpack (i : ℤ) ((2 ^ k : ℕ) : ℤ)) ((2 ^ k : ℕ) : ℤ) = (i : ℤ) := by
  have hN : 0 < 2 ^ k := by positivity
  have e4 : (4 : ℕ) ^ k = 2 ^ k * 2 ^ k := by rw [← mul_pow]; norm_num
  have hm : i % (2 ^ k * 2 ^ k) < 4 ^ k := by rw [e4]; exact Nat.mod_lt _ (by positivity)
  obtain ⟨d1, d2⟩ := deinterleave_bits_lt 32 k _ hm
  have h432 : (4 : ℕ) ^ k ≤ 4 ^ 32 := Nat.pow_le_pow_right (by norm_num) hk
  have hid := interleave_deinterleave 32 (i % (2 ^ k * 2 ^ k)) (by omega)
  have hq : i / (2 ^ k * 2 ^ k) < 12 := by
    rw [Nat.div_lt_iff_lt_mul (by positivity)]; exact hi
  rw [healpixl_unpack_cast i (2 ^ k) hN d1 d2]
  generalize (deinterleave_bits 32 (i % (2 ^ k * 2 ^ k))).1 = a at d1 hid
  generalize (deinterleave_bits 32 (i % (2 ^ k * 2 ^ k))).2 = b at d2 hid
  simp only
  refine ⟨⟨by positivity, by exact_mod_cast hq⟩, ⟨by positivity, by exact_mod_cast d1⟩,
    ⟨by positivity, by exact_mod_cast d2⟩, trivial, ?_⟩
  rw [nested_sum_cast, hid]
  have := Nat.mod_add_div i (2 ^ k * 2 ^ k)
  have h2 : ((i % (2 ^ k * 2 ^ k) : ℕ) : ℤ) + ((2 ^ k * 2 ^ k : ℕ) : ℤ) * ((i / (2 ^ k * 2 ^ k) : ℕ) : ℤ)
      = (i : ℤ) := by exact_mod_cast this
  rw [← h2]; push_cast; ring

theorem roundtrip_pow2 (EPS : ℝ) (Nside i : ℤ) (hE : 0 < EPS)
    (hpow : ∃ k : ℕ, Nside = 2 ^ k) (hNi : Nside < 2 ^ 31)
    (hi : 0 ≤ i ∧ i < 12 * Nside ^ 2) (hfit : i < 2 ^ 63) :
    (healpixl_to_radecdeg i Nside 0.5 0.5).bind
      (fun rd => radec_to_healpixl EPS rd.1 rd.2 Nside) = some i := by
  obtain ⟨k, rfl⟩ := hpow
  obtain ⟨hi0, hi1⟩ := hi
  lift i to ℕ using hi0
  have hk : k ≤ 32 := by
    by_contra hc
    push_neg at hc
    have h1 : (2 : ℤ) ^ 31 ≤ 2 ^ k := pow_le_pow_right₀ (by norm_num) (by omega)
    omega
  have hi2 : i < 12 * (2 ^ k * 2 ^ k) := by
    have : (i : ℤ) < ((12 * (2 ^ k * 2 ^ k) : ℕ) : ℤ) := by push_cast; nlinarith
    exact_mod_cast this
  have hc : ((2 : ℤ) ^ k) = ((2 ^ k : ℕ) : ℤ) := by push_cast; rfl
  rw [hc]
  obtain ⟨hb, hx, hy, _, hr⟩ := unpack_pow2 k i hk hi2
  have hN : (1 : ℤ) ≤ ((2 ^ k : ℕ) : ℤ) := by
    have : 1 ≤ 2 ^ k := Nat.one_le_two_pow
    exact_mod_cast this
  rw [roundtrip_eq EPS _ _ hE hN hb hx hy,
    hp_to_nested_of_fit _ _ hb.1 hx.1 hy.1 (by rw [hr]; exact hfit), hr]

/-- at `Nside = 3` the centre round trip of index 5 returns 9 -/
theorem roundtrip_three_five (EPS : ℝ) (hE : 0 < EPS) :
    (healpixl_to_radecdeg 5 3 0.5 0.5).bind
      (fun rd => radec_to_healpixl EPS rd.1 rd.2 3) = some 9 := by
  have e : healpixl_unpack 5 3 = ⟨1, 0, 0⟩ := by decide
  rw [roundtrip_eq EPS 3 5 hE (by decide) (by rw [e]; decide) (by rw [e]; decide)
    (by rw [e]; decide), e]
  rfl

/-! ### Loops over arrays, the assertions, the two `vv` formulas and the diagonal -/

theorem interleave_loop_noexit_cast (n : ℕ) : ∀ (i idx x y : ℕ), idx < 4 ^ i →
    interleave_loop_noexit n i (idx : ℤ) (x : ℤ) (y : ℤ) =
      ((idx + 4 ^ i * interleave_bits n x y : ℕ) : ℤ) := by
  induction n with
  | zero => intro i idx x y _; simp [interleave_loop_noexit, interleave_bits]
  | succ n ih =>
    intro i idx x y h
    have e4 : (4 : ℕ) ^ i = 2 ^ (i * 2) := by rw [mul_comm, pow_mul]; norm_num
    have h2 : idx < 2 ^ (i * 2) := by rw [← e4]; exact h
    have hv : 2 * (y % 2) + x % 2 < 4 := by omega
    have hnew : idx + (2 * (y % 2) + x % 2) * 2 ^ (i * 2) < 4 ^ (i + 1) := by
      rw [pow_succ, e4]; nlinarith
    simp only [interleave_loop_noexit, land_one_cast, shr_one_cast, pair_cast,
      lor_shl_cast _ _ _ h2]
    rw [ih _ _ _ _ hnew, interleave_bits_succ, pow_succ, e4]
    push_cast; ring

theorem interleave_loop_noexit_nat (x y : ℕ) :
    interleave_loop_noexit 32 0 0 (x : ℤ) (y : ℤ) = ((interleave_bits 32 x y : ℕ) : ℤ) := by
  have h := interleave_loop_noexit_cast 32 0 0 x y (by norm_num)
  have h0 : ((0 : ℕ) : ℤ) = 0 := rfl
  rw [h0] at h
  rw [h]; simp

theorem interleave_bits_testBit (n : ℕ) : ∀ (x y i : ℕ), i < n →
    (interleave_bits n x y).testBit (2 * i) = x.testBit i ∧
      (interleave_bits n x y).testBit (2 * i + 1) = y.testBit i := by
  induction n with
  | zero => intro x y i h; omega
  | succ n ih =>
    intro x y i hi
    rw [interleave_bits_succ]
    generalize hw : interleave_bits n (x / 2) (y / 2) = w
    cases i with
    | zero =>
      constructor
      · simp only [Nat.mul_zero, Nat.testBit_zero]
        rcases Nat.mod_two_eq_zero_or_one x with h | h <;> simp [h] <;> omega
      · simp only [Nat.mul_zero, Nat.zero_add]
        rw [show (1 : ℕ) = 0 + 1 from rfl, Nat.testBit_succ, Nat.testBit_zero, Nat.testBit_zero]
        have e : (2 * (y % 2) + x % 2 + 4 * w) / 2 % 2 = y % 2 := by omega
        rw [e]
    | succ j =>
      obtain ⟨h1, h2⟩ := ih (x / 2) (y / 2) j (by omega)
      rw [hw] at h1 h2
      have e2 : (2 * (y % 2) + x % 2 + 4 * w) / 2 / 2 = w := by omega
      constructor
      · rw [show 2 * (j + 1) = (2 * j + 1) + 1 by ring, Nat.testBit_succ, Nat.testBit_succ, e2,
          h1, Nat.testBit_succ]
      · rw [show 2 * (j + 1) + 1 = (2 * j + 1 + 1) + 1 by ring, Nat.testBit_succ,
          Nat.testBit_succ, e2, h2, Nat.testBit_succ]

/-- bit layout of the index built by the loop of `radec_to_healpixl`, and the loop
without the early exit -/
theorem interleave_layout (x y : ℤ) (hx : 0 ≤ x) (hy : 0 ≤ y) :
    (∀ i : ℕ, i ≤ 31 →
      Int.testBit (interleave_loop 32 0 0 x y) (2 * i) = Int.testBit x i ∧
      Int.testBit (interleave_loop 32 0 0 x y) (2 * i + 1) = Int.testBit y i) ∧
    interleave_loop 32 0 0 x y = interleave_loop_noexit 32 0 0 x y := by
  lift x to ℕ using hx
  lift y to ℕ using hy
  rw [interleave_loop_nat, interleave_loop_noexit_nat]
  refine ⟨fun i hi => ?_, rfl⟩
  exact interleave_bits_testBit 32 x y i (by omega)

/-- with a positive `EPS` the assertion of `xyztohp` holds on every input -/
theorem xyztohp_total (EPS vx vy vz coz : ℝ) (N : ℤ) (hE : 0 < EPS) :
    ∃ hp : hp_t, xyztohp EPS vx vy vz coz N = some hp := by
  by_cases hcond : vz ≥ 2.0 / 3.0 ∨ vz ≤ -(2.0 / 3.0)
  · simp only [xyztohp, if_pos hcond]
    exact ⟨_, rfl⟩
  · simp only [xyztohp, phase_eq, fmod_phase, sector_phase2, c_round_int, if_neg hcond, sub_self,
      abs_zero, if_pos hE]
    exact ⟨_, rfl⟩

theorem radec_to_healpixl_total (EPS ra dec : ℝ) (N : ℤ) (hE : 0 < EPS) :
    ∃ v : ℤ, radec_to_healpixl EPS ra dec N = some v := by
  obtain ⟨hp, h⟩ := xyztohp_total EPS (radec2x (ra / DEG_PER_RAD) (dec / DEG_PER_RAD))
    (radec2y (ra / DEG_PER_RAD) (dec / DEG_PER_RAD))
    (radec2z (ra / DEG_PER_RAD) (dec / DEG_PER_RAD)) (Real.cos (dec / DEG_PER_RAD)) N hE
  exact ⟨hp_to_nested hp N, by simp only [radec_to_healpixl, h, Option.map_some']⟩

theorem radecs_loop_spec (EPS : ℝ) (ra dec : ℕ → ℝ) (Nside : ℤ) (hE : 0 < EPS) (n : ℕ) :
    ∀ (i : ℕ) (hpixes : ℕ → ℤ), ∃ out : ℕ → ℤ,
      radecs_to_healpixls_loop EPS ra dec Nside n i hpixes = some out ∧
      (∀ j, i ≤ j → j < i + n → radec_to_healpixl EPS (ra j) (dec j) Nside = some (out j)) ∧
      (∀ j, (j < i ∨ i + n ≤ j) → out j = hpixes j) := by
  induction n with
  | zero =>
    intro i hpixes
    exact ⟨hpixes, rfl, fun j h1 h2 => by omega, fun j _ => rfl⟩
  | succ n ih =>
    intro i hpixes
    obtain ⟨v, hv⟩ := radec_to_healpixl_total EPS (ra i) (dec i) Nside hE
    obtain ⟨out, ho, h1, h2⟩ := ih (i + 1) (Function.update hpixes i v)
    refine ⟨out, ?_, ?_, ?_⟩
    · simp only [radecs_to_healpixls_loop, hv, ho]
    · intro j hj1 hj2
      by_cases hji : j = i
      · subst hji
        rw [hv, h2 j (Or.inl (by omega)), Function.update_same]
      · exact h1 j (by omega) (by omega)
    · intro j hj
      rw [h2 j (by omega), Function.update_noteq (by omega)]

theorem grid_loop_spec (Nside : ℤ) (dx dy : ℕ → ℝ) (bighp px py : ℤ) (n : ℕ) :
    ∀ (i : ℕ) (ra dec : ℕ → ℝ),
      (∀ out, healpixl_grid_loop Nside dx dy bighp px py n i ra dec = some out →
        (∀ j, i ≤ j → j < i + n →
          (hp_to_xyz Nside (dx j) (dy j) bighp px py).map xyzarr2radecdeg =
            some (out.1 j, out.2 j)) ∧
        (∀ j, (j < i ∨ i + n ≤ j) → out.1 j = ra j ∧ out.2 j = dec j)) ∧
      ((∀ j, i ≤ j → j < i + n → hp_to_xyz Nside (dx j) (dy j) bighp px py ≠ none) →
        ∃ out, healpixl_grid_loop Nside dx dy bighp px py n i ra dec = some out) := by
  induction n with
  | zero =>
    intro i ra dec
    refine ⟨fun out h => ?_, fun _ => ⟨(ra, dec), rfl⟩⟩
    simp only [healpixl_grid_loop, Option.some.injEq] at h
    subst h
    exact ⟨fun j h1 h2 => by omega, fun j _ => ⟨rfl, rfl⟩⟩
  | succ n ih =>
    intro i ra dec
    cases hx : hp_to_xyz Nside (dx i) (dy i) bighp px py with
    | none =>
      refine ⟨fun out h => ?_, fun h => absurd hx (h i (le_refl _) (by omega))⟩
      simp [healpixl_grid_loop, hx] at h
    | some xyz =>
      obtain ⟨ih1, ih2⟩ := ih (i + 1) (Function.update ra i (xyzarr2radecdeg xyz).1)
        (Function.update dec i (xyzarr2radecdeg xyz).2)
      constructor
      · intro out h
        simp only [healpixl_grid_loop, hx] at h
        obtain ⟨a1, a2⟩ := ih1 out h
        constructor
        · intro j hj1 hj2
          by_cases hji : j = i
          · subst hji
            obtain ⟨b1, b2⟩ := a2 j (Or.inl (by omega))
            rw [hx, b1, b2, Function.update_same, Function.update_same]
            rfl
          · exact a1 j (by omega) (by omega)
        · intro j hj
          obtain ⟨b1, b2⟩ := a2 j (by omega)
          rw [b1, b2, Function.update_noteq (by omega), Function.update_noteq (by omega)]
          exact ⟨rfl, rfl⟩
      · intro h
        obtain ⟨out, ho⟩ := ih2 (fun j h1 h2 => h j (by omega) (by omega))
        exact ⟨out, by simp only [healpixl_grid_loop, hx, ho]⟩

theorem polar_vv_branches (N xm ym : ℝ) :
    polar_vv N xm ym = if polar_phi_t N xm ym < π / 4
      then polar_vv_lt N xm (polar_phi_t N xm ym) else polar_vv_ge N ym (polar_phi_t N xm ym) :=
  rfl

theorem polar_phi_t_eq (N a b : ℝ) (hab : 0 < a + b) :
    polar_phi_t N (N - a) (N - b) = π * b / (2 * (a + b)) := by
  unfold polar_phi_t
  have h : ¬ (N - b = N ∧ N - a = N) := by
    rintro ⟨h1, h2⟩
    have : b = 0 := by linarith
    have : a = 0 := by linarith
    linarith
  rw [if_neg h]
  simp only [sub_sub_cancel]

theorem polar_vv_lt_eq (N a b : ℝ) (hN : 0 < N) (ha : 0 < a) (hb : 0 ≤ b) :
    polar_vv_lt N (N - a) (π * b / (2 * (a + b))) = (a + b) / (N * √3) := by
  have hp := Real.pi_pos
  have h3 : 0 < √3 := Real.sqrt_pos.mpr (by norm_num)
  have hab : 0 < a + b := by linarith
  have hnn : 0 ≤ (a + b) / (N * √3) := by positivity
  unfold polar_vv_lt
  simp only [sub_sub_cancel]
  have e1 : 2 * (π * b / (2 * (a + b))) - π = -(π * a / (a + b)) := by
    field_simp; ring
  have e : π * a / ((2 * (π * b / (2 * (a + b))) - π) * N) / √3 = -((a + b) / (N * √3)) := by
    have ha0 : a ≠ 0 := ha.ne'
    rw [e1]
    field_simp
    ring
  rw [e, abs_neg, abs_of_nonneg hnn]

theorem polar_vv_ge_eq (N a b : ℝ) (hN : 0 < N) (ha : 0 ≤ a) (hb : 0 < b) :
    polar_vv_ge N (N - b) (π * b / (2 * (a + b))) = (a + b) / (N * √3) := by
  have hp := Real.pi_pos
  have h3 : 0 < √3 := Real.sqrt_pos.mpr (by norm_num)
  have hab : 0 < a + b := by linarith
  have hnn : 0 ≤ (a + b) / (N * √3) := by positivity
  unfold polar_vv_ge
  simp only [sub_sub_cancel]
  have e : π * b / (2 * (π * b / (2 * (a + b))) * N) / √3 = (a + b) / (N * √3) := by
    have hb0 : b ≠ 0 := hb.ne'
    field_simp; ring
  rw [e, abs_of_nonneg hnn]

/-- the two formulas for `vv` and the value of the selected one -/
theorem polar_vv_formulas (N : ℤ) (a b : ℝ) (hN : 1 ≤ N) (ha : 0 ≤ a) (hb : 0 ≤ b)
    (hab : 0 < a + b) :
    polar_phi_t N (N - a) (N - b) = π * b / (2 * (a + b)) ∧
    polar_vv N (N - a) (N - b) =
      (if π * b / (2 * (a + b)) < π / 4 then polar_vv_lt N (N - a) (π * b / (2 * (a + b)))
        else polar_vv_ge N (N - b) (π * b / (2 * (a + b)))) ∧
    polar_vv N (N - a) (N - b) = (a + b) / (N * √3) ∧
    (0 < a → 0 < b →
      polar_vv_lt N (N - a) (π * b / (2 * (a + b))) =
        polar_vv_ge N (N - b) (π * b / (2 * (a + b)))) := by
  have hNr : (1 : ℝ) ≤ N := by exact_mod_cast hN
  have hN0 : (0 : ℝ) < N := by linarith
  have e := polar_phi_t_eq N a b hab
  refine ⟨e, ?_, polar_vv_eq N a b hN0 ha hb, fun ha' hb' => ?_⟩
  · rw [polar_vv_branches, e]
  · rw [polar_vv_lt_eq N a b hN0 ha' hb, polar_vv_ge_eq N a b hN0 ha hb']

/-- the sector of the equatorial branch is an integer and the assertion holds -/
theorem sector_integral (EPS vx vy vz coz : ℝ) (N : ℤ) (hE : 0 < EPS) :
    ∃ k : ℤ, (0 ≤ k ∧ k ≤ 3) ∧
      (xy2ra vx vy - fmod (xy2ra vx vy) (0.5 * M_PI)) / (0.5 * M_PI) = (k : ℝ) ∧
      c_round ((xy2ra vx vy - fmod (xy2ra vx vy) (0.5 * M_PI)) / (0.5 * M_PI)) = k ∧
      k = ⌊xy2ra vx vy / (π / 2)⌋ ∧
      |(xy2ra vx vy - fmod (xy2ra vx vy) (0.5 * M_PI)) / (0.5 * M_PI) -
        (c_round ((xy2ra vx vy - fmod (xy2ra vx vy) (0.5 * M_PI)) / (0.5 * M_PI)) : ℝ)| < EPS ∧
      ∃ hp : hp_t, xyztohp EPS vx vy vz coz N = some hp := by
  refine ⟨quad vx vy, ⟨quad_nonneg vx vy, quad_le vx vy⟩, sector_phase vx vy, ?_, rfl, ?_,
    xyztohp_total EPS vx vy vz coz N hE⟩
  · rw [sector_phase, c_round_int]
  · rw [sector_phase, c_round_int, sub_self, abs_zero]; exact hE

theorem pow2_unpack (k : ℕ) (hk : k ≤ 30) (i : ℤ) (hi : 0 ≤ i ∧ i < 12 * ((2 : ℤ) ^ k) ^ 2) :
    ((0 ≤ (healpixl_unpack i (2 ^ k)).bighp ∧ (healpixl_unpack i (2 ^ k)).bighp < 12) ∧
      (0 ≤ (healpixl_unpack i (2 ^ k)).x ∧ (healpixl_unpack i (2 ^ k)).x < 2 ^ k) ∧
      (0 ≤ (healpixl_unpack i (2 ^ k)).y ∧ (healpixl_unpack i (2 ^ k)).y < 2 ^ k)) ∧
    (healpixl_unpack i (2 ^ k)).bighp = Int.tdiv i (((2 : ℤ) ^ k) ^ 2) ∧
    nested_sum (healpixl_unpack i (2 ^ k)) (2 ^ k) = i ∧
    (i < 2 ^ 63 → hp_to_nested (healpixl_unpack i (2 ^ k)) (2 ^ k) = i) := by
  obtain ⟨hi0, hi1⟩ := hi
  lift i to ℕ using hi0
  have hi2 : i < 12 * (2 ^ k * 2 ^ k) := by
    have : (i : ℤ) < ((12 * (2 ^ k * 2 ^ k) : ℕ) : ℤ) := by push_cast; nlinarith
    exact_mod_cast this
  have hc : ((2 : ℤ) ^ k) = ((2 ^ k : ℕ) : ℤ) := by push_cast; rfl
  rw [hc]
  obtain ⟨hb, hx, hy, hq, hr⟩ := unpack_pow2 k i (by omega) hi2
  refine ⟨⟨hb, hx, hy⟩, ?_, hr, fun hfit => ?_⟩
  · rw [hq, Int.tdiv_eq_ediv (by positivity) (by positivity)]
    push_cast; ring_nf
  · rw [hp_to_nested_of_fit _ _ hb.1 hx.1 hy.1 (by rw [hr]; exact hfit), hr]

theorem pow2_nested (k : ℕ) (hk : k ≤ 30) (p : hp_t)
    (hp : (0 ≤ p.bighp ∧ p.bighp < 12) ∧ (0 ≤ p.x ∧ p.x < 2 ^ k) ∧ (0 ≤ p.y ∧ p.y < 2 ^ k)) :
    (0 ≤ nested_sum p (2 ^ k) ∧ nested_sum p (2 ^ k) < 12 * ((2 : ℤ) ^ k) ^ 2) ∧
      healpixl_unpack (nested_sum p (2 ^ k)) (2 ^ k) = p := by
  obtain ⟨b, x, y⟩ := p
  obtain ⟨⟨hb0, hb1⟩, ⟨hx0, hx1⟩, ⟨hy0, hy1⟩⟩ := hp
  simp only at hb0 hb1 hx0 hx1 hy0 hy1
  lift b to ℕ using hb0
  lift x to ℕ using hx0
  lift y to ℕ using hy0
  have hc : ((2 : ℤ) ^ k) = ((2 ^ k : ℕ) : ℤ) := by push_cast; rfl
  rw [hc] at hx1 hy1 ⊢
  have hx2 : x < 2 ^ k := by exact_mod_cast hx1
  have hy2 : y < 2 ^ k := by exact_mod_cast hy1
  have hb2 : b < 12 := by exact_mod_cast hb1
  have hil := interleave_bits_lt_sq_of_pow k x y hx2 hy2
  have hN32 : 2 ^ k ≤ 2 ^ 32 := Nat.pow_le_pow_right (by norm_num) (by omega)
  refine ⟨?_, unpack_nested_nat b x y (2 ^ k) (by positivity) hx2 hy2 hN32 hil⟩
  rw [nested_sum_cast]
  generalize interleave_bits 32 x y = I at hil
  have h1 : (I : ℤ) < ((2 ^ k * 2 ^ k : ℕ) : ℤ) := by exact_mod_cast hil
  have h2 : (b : ℤ) ≤ 11 := by omega
  have h3 : (0 : ℤ) ≤ ((2 ^ k * 2 ^ k : ℕ) : ℤ) := by positivity
  push_cast at h1 h3 ⊢
  constructor
  · positivity
  · nlinarith

/-- decomposition is a bijection for a power-of-two resolution up to `2^29` -/
theorem unpack_bijOn (k : ℕ) (hk : k ≤ 29) :
    Set.BijOn (fun i => healpixl_unpack i (2 ^ k)) (Set.Ico 0 (12 * ((2 : ℤ) ^ k) ^ 2))
      {p : hp_t | (0 ≤ p.bighp ∧ p.bighp < 12) ∧ (0 ≤ p.x ∧ p.x < 2 ^ k) ∧
        (0 ≤ p.y ∧ p.y < 2 ^ k)} := by
  have hk30 : k ≤ 30 := by omega
  refine ⟨fun i hi => (pow2_unpack k hk30 i hi).1, fun i hi j hj h => ?_, fun p hp => ?_⟩
  · have h1 := (pow2_unpack k hk30 i hi).2.2.1
    have h2 := (pow2_unpack k hk30 j hj).2.2.1
    simp only at h
    rw [← h1, ← h2, h]
  · obtain ⟨h1, h2⟩ := pow2_nested k hk30 p hp
    exact ⟨nested_sum p (2 ^ k), h1, h2⟩

/-- on a valid index of a power-of-two resolution `healpixl_to_radecdeg` passes a base
healpix in `[0,12)` and the `assert(0)` of `hp_to_xyz` is not reached -/
theorem pow2_no_assert (k : ℕ) (hk : k ≤ 30) (i : ℤ) (dx dy : ℝ)
    (hi : 0 ≤ i ∧ i < 12 * ((2 : ℤ) ^ k) ^ 2) (hdx : 0 ≤ dx ∧ dx ≤ 1) (hdy : 0 ≤ dy ∧ dy ≤ 1) :
    (0 ≤ (healpixl_unpack i (2 ^ k)).bighp ∧ (healpixl_unpack i (2 ^ k)).bighp < 12) ∧
      ∃ rd : ℝ × ℝ, healpixl_to_radecdeg i (2 ^ k) dx dy = some rd := by
  obtain ⟨⟨hb, hx, hy⟩, _, _⟩ := pow2_unpack k hk i hi
  have hN : (1 : ℤ) ≤ 2 ^ k := one_le_pow₀ (by norm_num)
  obtain ⟨r, hr, _⟩ := hp_to_xyz_norm (2 ^ k) dx dy _ _ _ hN hb hx hy hdx hdy
  exact ⟨hb, xyzarr2radecdeg r, by simp only [healpixl_to_radecdeg, hr, Option.map_some']⟩

/-- at `Nside = 3` the index 106 is unpacked to base healpix 12, and with `dx = dy = 1`
the `assert(0)` of `hp_to_xyz` is reached -/
theorem assert_reached :
    healpixl_unpack 106 3 = ⟨12, 0, 1⟩ ∧ healpixl_to_radecdeg 106 3 1 1 = none := by
  have e : healpixl_unpack 106 3 = ⟨12, 0, 1⟩ := by decide
  refine ⟨e, ?_⟩
  simp only [healpixl_to_radecdeg, e, hp_to_xyz, isnorthpolar, issouthpolar]
  norm_num

/-- on the unit sphere both branches of `xyz2radec` give `asin z` -/
theorem xyz2radec_dec_arcsin (x y z : ℝ) (hu : x * x + y * y + z * z = 1) :
    (xyz2radec x y z).2 = Real.arcsin z ∧
      M_PI / 2.0 - atan2 (hypot x y) z = Real.arcsin z := by
  have hz1 : z ≤ 1 := by nlinarith [sq_nonneg x, sq_nonneg y]
  have hz2 : -1 ≤ z := by nlinarith [sq_nonneg x, sq_nonneg y]
  have hp := Real.pi_pos
  have hh : hypot x y = Real.sin (Real.arccos z) := by
    rw [Real.sin_arccos]; unfold hypot; congr 1; nlinarith
  have hat : atan2 (hypot x y) z = Real.arccos z := by
    have h := atan2_polar 1 (Real.arccos z) one_pos
      (by linarith [Real.arccos_nonneg z]) (Real.arccos_le_pi z)
    rw [one_mul, one_mul, Real.cos_arccos hz2 hz1, ← hh] at h
    exact h
  have hb : M_PI / 2.0 - atan2 (hypot x y) z = Real.arcsin z := by
    rw [hat, Real.arccos_eq_pi_div_two_sub_arcsin]; unfold M_PI; norm_num
  refine ⟨?_, hb⟩
  simp only [xyz2radec, z2dec]
  split_ifs
  · exact hb
  · rfl

/-- `xyz2radec` gives back the declination of a vector built with `radec2x/y/z` -/
theorem dec_reconstruct (ra dec : ℝ) (h1 : -(π / 2) ≤ dec) (h2 : dec ≤ π / 2) :
    (xyz2radec (radec2x ra dec) (radec2y ra dec) (radec2z ra dec)).2 = dec ∧
      M_PI / 2.0 - atan2 (hypot (radec2x ra dec) (radec2y ra dec)) (radec2z ra dec) =
        Real.arcsin (radec2z ra dec) ∧
      Real.arcsin (radec2z ra dec) = dec := by
  obtain ⟨a1, a2⟩ := xyz2radec_dec_arcsin _ _ _ (radec_unit ra dec)
  have a3 : Real.arcsin (radec2z ra dec) = dec := by
    unfold radec2z; exact Real.arcsin_sin h1 h2
  exact ⟨by rw [a1, a3], a2, a3⟩

/-- the declinations `±89.9999` degrees are on the branch `|z| > 0.9` -/
theorem near_pole_branch (ra : ℝ) :
    |radec2z ra (89.9999 / DEG_PER_RAD)| > 0.9 ∧ |radec2z ra (-89.9999 / DEG_PER_RAD)| > 0.9 := by
  have hp := Real.pi_pos
  have h4 := Real.pi_le_four
  have e1 : (89.9999 : ℝ) / DEG_PER_RAD = π / 2 - 0.0001 * π / 180 := by
    unfold DEG_PER_RAD; field_simp; ring
  have e2 : (-89.9999 : ℝ) / DEG_PER_RAD = -(π / 2 - 0.0001 * π / 180) := by
    unfold DEG_PER_RAD; field_simp; ring
  have hc := Real.one_sub_sq_div_two_le_cos (x := 0.0001 * π / 180)
  have hd : (0.0001 * π / 180) ^ 2 / 2 < 0.05 := by nlinarith
  have hs : (0.9 : ℝ) < Real.cos (0.0001 * π / 180) := by
    have : (0.9 : ℝ) < 1 - (0.0001 * π / 180) ^ 2 / 2 := by linarith
    linarith
  unfold radec2z
  rw [e1, e2, Real.sin_neg, abs_neg, Real.sin_pi_div_two_sub, abs_of_pos (by linarith)]
  exact ⟨hs, hs⟩

/-! ### Binary64 rounding -/

/-- C1 (corrected): centre round trip for power-of-two resolutions. For every
`Nside = 2^k` that is a C `int` and every nested index `0 ≤ i < 12 * Nside^2` that is a
`long int` (`i < 2^63`), feeding `healpixl_to_radecdeg(i, Nside, 0.5, 0.5)` to
`radec_to_healpixl` returns `i`. -/
theorem centre_roundtrip_power_of_two (EPS : ℝ) (Nside i : ℤ) (hE : 0 < EPS)
    (hpow : ∃ k : ℕ, Nside = 2 ^ k) (hNi : Nside < 2 ^ 31)
    (hi : 0 ≤ i ∧ i < 12 * Nside ^ 2) (hfit : i < 2 ^ 63) :
    (healpixl_to_radecdeg i Nside 0.5 0.5).bind
      (fun rd => radec_to_healpixl EPS rd.1 rd.2 Nside) = some i :=
  roundtrip_pow2 EPS Nside i hE hpow hNi hi hfit

/-- Witness of C1 at `Nside = 1`, `i = 0`. -/
theorem centre_roundtrip_power_of_two_witness :
    ((0 : ℝ) < 1 ∧ (∃ k : ℕ, (1 : ℤ) = 2 ^ k) ∧ (1 : ℤ) < 2 ^ 31 ∧
      ((0 : ℤ) ≤ 0 ∧ (0 : ℤ) < 12 * 1 ^ 2) ∧ (0 : ℤ) < 2 ^ 63) ∧
    (healpixl_to_radecdeg 0 1 0.5 0.5).bind
      (fun rd => radec_to_healpixl 1 rd.1 rd.2 1) = some 0 :=
  ⟨⟨one_pos, ⟨0, by decide⟩, by decide, by decide, by decide⟩,
    centre_roundtrip_power_of_two 1 1 0 one_pos ⟨0, by decide⟩ (by decide) (by decide)
      (by decide)⟩

/-- Counterexample to C1 as stated (every positive `Nside`): at `Nside = 3`, `i = 5` the
decomposition finds `x = 3`, outside `[0, Nside)`, the callers unpack pixel `(1, 0, 0)`
and the round trip returns 9. -/
theorem centre_roundtrip_counterexample : ¬ ∀ (EPS : ℝ) (Nside i : ℤ), 0 < EPS → 1 ≤ Nside →
    0 ≤ i ∧ i < 12 * Nside ^ 2 →
    (healpixl_to_radecdeg i Nside 0.5 0.5).bind
      (fun rd => radec_to_healpixl EPS rd.1 rd.2 Nside) = some i := by
  intro h
  have h1 := h 1 3 5 one_pos (by decide) (by decide)
  rw [roundtrip_three_five 1 one_pos] at h1
  revert h1
  decide

/-- C2 (corrected): compose-then-decompose round trip. For every `Nside ≥ 1` (a C `int`),
`bighp` in `[0,12)` and `x, y` in `[0,Nside)`: decomposing the nested index
`bighp * Nside^2 + interleave(x, y)` returns `(bighp, x, y)` when
`interleave(x, y) < Nside^2` and `(bighp + 1) * Nside^2 ≤ 2^63` (no `long int`
overflows); the first condition holds for all such `x, y` when `Nside` is a power of
two; and for `Nside ≤ 2^29` the decomposition does not return `(bighp, x, y)` when
`interleave(x, y) ≥ Nside^2`. -/
theorem compose_decompose_roundtrip (Nside bighp x y : ℤ) (hN : 1 ≤ Nside)
    (hNi : Nside < 2 ^ 31) (hb : 0 ≤ bighp ∧ bighp < 12) (hx : 0 ≤ x ∧ x < Nside)
    (hy : 0 ≤ y ∧ y < Nside) :
    (interleave_loop 32 0 0 x y < Nside * Nside → (bighp + 1) * (Nside * Nside) ≤ 2 ^ 63 →
        healpixl_unpack (hp_to_nested ⟨bighp, x, y⟩ Nside) Nside = ⟨bighp, x, y⟩) ∧
      ((∃ k : ℕ, Nside = 2 ^ k) → interleave_loop 32 0 0 x y < Nside * Nside) ∧
      (Nside ≤ 2 ^ 29 → Nside * Nside ≤ interleave_loop 32 0 0 x y →
        healpixl_unpack (hp_to_nested ⟨bighp, x, y⟩ Nside) Nside ≠ ⟨bighp, x, y⟩) := by
  have hb' := hb
  have hx' := hx
  have hy' := hy
  obtain ⟨hx0, hx1⟩ := hx
  obtain ⟨hy0, hy1⟩ := hy
  obtain ⟨hb0, _⟩ := hb
  lift Nside to ℕ using (by omega)
  lift x to ℕ using hx0
  lift y to ℕ using hy0
  lift bighp to ℕ using hb0
  have hN0 : 0 < Nside := by exact_mod_cast hN
  have hx2 : x < Nside := by exact_mod_cast hx1
  have hy2 : y < Nside := by exact_mod_cast hy1
  have hN32 : Nside ≤ 2 ^ 32 := by
    have : (Nside : ℤ) < 2 ^ 31 := hNi
    have : Nside < 2 ^ 31 := by exact_mod_cast this
    omega
  rw [interleave_loop_nat]
  refine ⟨fun h hfit => ?_, ?_, fun h29 h => ?_⟩
  · have hs : nested_sum ⟨(bighp : ℤ), (x : ℤ), (y : ℤ)⟩ (Nside : ℤ) < 2 ^ 63 := by
      rw [nested_sum_cast]
      have e : ((bighp : ℤ) + 1) * ((Nside : ℤ) * (Nside : ℤ)) =
          (bighp : ℤ) * ((Nside : ℤ) * (Nside : ℤ)) + (Nside : ℤ) * (Nside : ℤ) := by ring
      rw [e] at hfit
      linarith
    rw [hp_to_nested_of_fit _ _ hb'.1 hx'.1 hy'.1 hs]
    exact unpack_nested_nat bighp x y Nside hN0 hx2 hy2 hN32 (by exact_mod_cast h)
  · rintro ⟨k, hk⟩
    have hk2 : Nside = 2 ^ k := by exact_mod_cast hk
    subst hk2
    exact_mod_cast interleave_bits_lt_sq_of_pow k x y hx2 hy2
  · have hs := nested_sum_lt ⟨(bighp : ℤ), (x : ℤ), (y : ℤ)⟩ (Nside : ℤ) h29 hb' hx' hy'
    rw [hp_to_nested_of_fit _ _ hb'.1 hx'.1 hy'.1 (lt_trans hs (by norm_num))]
    intro hc
    exact unpack_nested_bighp_gt bighp x y Nside hN0 (by exact_mod_cast h) (by rw [hc])

/-- Witness of C2 at `Nside = 4`, pixel `(4, 3, 0)`. -/
theorem compose_decompose_roundtrip_witness :
    ((1 : ℤ) ≤ 4 ∧ (4 : ℤ) < 2 ^ 31 ∧ ((0 : ℤ) ≤ 4 ∧ (4 : ℤ) < 12) ∧
      ((0 : ℤ) ≤ 3 ∧ (3 : ℤ) < 4) ∧ ((0 : ℤ) ≤ 0 ∧ (0 : ℤ) < 4)) ∧
    ((interleave_loop 32 0 0 3 0 < (4 : ℤ) * 4 → ((4 : ℤ) + 1) * (4 * 4) ≤ 2 ^ 63 →
        healpixl_unpack (hp_to_nested ⟨4, 3, 0⟩ 4) 4 = ⟨4, 3, 0⟩) ∧
      ((∃ k : ℕ, (4 : ℤ) = 2 ^ k) → interleave_loop 32 0 0 3 0 < (4 : ℤ) * 4) ∧
      ((4 : ℤ) ≤ 2 ^ 29 → (4 : ℤ) * 4 ≤ interleave_loop 32 0 0 3 0 →
        healpixl_unpack (hp_to_nested ⟨4, 3, 0⟩ 4) 4 ≠ ⟨4, 3, 0⟩)) :=
  ⟨by decide,
    compose_decompose_roundtrip 4 4 3 0 (by decide) (by decide) (by decide) (by decide)
      (by decide)⟩

/-- Counterexample to C2 as stated: at `Nside = 3`, `(bighp, x, y) = (0, 2, 2)` the
interleave is 12 ≥ 9, and the decomposition of the index 12 returns `(1, 1, 1)`; and at
`Nside = 2^30` (`Nside^2 = 2^60 ≤ 2^62`), `(bighp, x, y) = (8, 0, 0)` the product
`8 * 2^60` overflows the `long int`, the index is `-2^63` and its decomposition returns
`(-8, 0, 0)`. -/
theorem compose_decompose_counterexample : (¬ ∀ Nside bighp x y : ℤ, 1 ≤ Nside →
    Nside * Nside ≤ 2 ^ 62 → 0 ≤ bighp ∧ bighp < 12 → 0 ≤ x ∧ x < Nside →
    0 ≤ y ∧ y < Nside →
    healpixl_unpack (hp_to_nested ⟨bighp, x, y⟩ Nside) Nside = ⟨bighp, x, y⟩) ∧
    ((2 : ℤ) ^ 30 * 2 ^ 30 ≤ 2 ^ 62 ∧
      healpixl_unpack (hp_to_nested ⟨8, 0, 0⟩ (2 ^ 30)) (2 ^ 30) = ⟨-8, 0, 0⟩) := by
  refine ⟨fun h => ?_, by decide, by decide⟩
  have h1 := h 3 0 2 2 (by decide) (by decide) (by decide) (by decide) (by decide)
  revert h1
  decide

/-- C3 (corrected): index range. For every `Nside ≥ 1` (a C `int`), `bighp` in `[0,12)`
and `x, y` in `[0,Nside)`: when `bighp * Nside^2 + interleave(x, y)` is below `2^63` the
nested index computed by `radec_to_healpixl` is that number and is non-negative; when
moreover `Nside` is a power of two and `(bighp + 1) * Nside^2 ≤ 2^63` it is strictly less
than `12 * Nside^2`. -/
theorem nested_index_range (Nside bighp x y : ℤ) (hN : 1 ≤ Nside) (hNi : Nside < 2 ^ 31)
    (hb : 0 ≤ bighp ∧ bighp < 12) (hx : 0 ≤ x ∧ x < Nside) (hy : 0 ≤ y ∧ y < Nside) :
    (interleave_loop 32 0 0 x y + bighp * (Nside * Nside) < 2 ^ 63 →
        hp_to_nested ⟨bighp, x, y⟩ Nside =
          interleave_loop 32 0 0 x y + bighp * (Nside * Nside) ∧
        0 ≤ hp_to_nested ⟨bighp, x, y⟩ Nside) ∧
      ((∃ k : ℕ, Nside = 2 ^ k) → (bighp + 1) * Nside ^ 2 ≤ 2 ^ 63 →
        0 ≤ hp_to_nested ⟨bighp, x, y⟩ Nside ∧
        hp_to_nested ⟨bighp, x, y⟩ Nside < 12 * Nside ^ 2) := by
  have hi := interleave_loop_nonneg x y hx.1 hy.1
  have hbn : 0 ≤ bighp * (Nside * Nside) := mul_nonneg hb.1 (mul_self_nonneg Nside)
  have key : interleave_loop 32 0 0 x y + bighp * (Nside * Nside) < 2 ^ 63 →
      hp_to_nested ⟨bighp, x, y⟩ Nside =
        interleave_loop 32 0 0 x y + bighp * (Nside * Nside) := fun h =>
    hp_to_nested_of_fit ⟨bighp, x, y⟩ Nside hb.1 hx.1 hy.1 h
  refine ⟨fun h => ⟨key h, by rw [key h]; linarith⟩, ?_⟩
  rintro ⟨k, hk⟩ hfit
  obtain ⟨hx0, hx1⟩ := hx
  obtain ⟨hy0, hy1⟩ := hy
  have hil : interleave_loop 32 0 0 x y < Nside * Nside := by
    lift Nside to ℕ using (by omega)
    lift x to ℕ using hx0
    lift y to ℕ using hy0
    have hx2 : x < Nside := by exact_mod_cast hx1
    have hy2 : y < Nside := by exact_mod_cast hy1
    have hk2 : Nside = 2 ^ k := by exact_mod_cast hk
    subst hk2
    rw [interleave_loop_nat]
    exact_mod_cast interleave_bits_lt_sq_of_pow k x y hx2 hy2
  have e : (bighp + 1) * Nside ^ 2 = bighp * (Nside * Nside) + Nside * Nside := by ring
  have e2 : 12 * Nside ^ 2 = 12 * (Nside * Nside) := by ring
  rw [e] at hfit
  have hlt : interleave_loop 32 0 0 x y + bighp * (Nside * Nside) < 2 ^ 63 := by linarith
  rw [key hlt, e2]
  have hb1 : bighp ≤ 11 := by omega
  have hnn : 0 ≤ Nside * Nside := mul_self_nonneg Nside
  constructor
  · linarith
  · nlinarith

/-- Witness of C3 at `Nside = 4`, pixel `(4, 3, 0)`. -/
theorem nested_index_range_witness :
    ((1 : ℤ) ≤ 4 ∧ (4 : ℤ) < 2 ^ 31 ∧ ((0 : ℤ) ≤ 4 ∧ (4 : ℤ) < 12) ∧
      ((0 : ℤ) ≤ 3 ∧ (3 : ℤ) < 4) ∧ ((0 : ℤ) ≤ 0 ∧ (0 : ℤ) < 4)) ∧
    ((interleave_loop 32 0 0 3 0 + (4 : ℤ) * (4 * 4) < 2 ^ 63 →
        hp_to_nested ⟨4, 3, 0⟩ 4 = interleave_loop 32 0 0 3 0 + (4 : ℤ) * (4 * 4) ∧
        0 ≤ hp_to_nested ⟨4, 3, 0⟩ 4) ∧
      ((∃ k : ℕ, (4 : ℤ) = 2 ^ k) → ((4 : ℤ) + 1) * 4 ^ 2 ≤ 2 ^ 63 →
        0 ≤ hp_to_nested ⟨4, 3, 0⟩ 4 ∧ hp_to_nested ⟨4, 3, 0⟩ 4 < 12 * (4 : ℤ) ^ 2)) :=
  ⟨by decide,
    nested_index_range 4 4 3 0 (by decide) (by decide) (by decide) (by decide) (by decide)⟩

/-- Counterexample to C3 as stated: at `Nside = 3`, `(bighp, x, y) = (11, 2, 2)` the
index is `99 + 12 = 111`, not below `12 * 9 = 108`; and at `Nside = 2^30`,
`(bighp, x, y) = (8, 0, 0)` the product `8 * 2^60` overflows the `long int` and the index
is `-2^63`, negative. -/
theorem nested_index_range_counterexample : (¬ ∀ Nside bighp x y : ℤ, 1 ≤ Nside →
    0 ≤ bighp ∧ bighp < 12 → 0 ≤ x ∧ x < Nside → 0 ≤ y ∧ y < Nside →
    0 ≤ hp_to_nested ⟨bighp, x, y⟩ Nside ∧
      hp_to_nested ⟨bighp, x, y⟩ Nside < 12 * Nside ^ 2) ∧
    (hp_to_nested ⟨8, 0, 0⟩ (2 ^ 30) = -2 ^ 63 ∧ ¬ (0 ≤ hp_to_nested ⟨8, 0, 0⟩ (2 ^ 30))) := by
  refine ⟨fun h => ?_, by decide, by decide⟩
  have h1 := h 3 11 2 2 (by decide) (by decide) (by decide) (by decide)
  revert h1
  decide

/-- C4 (confirmed): classification range. For every `Nside ≥ 1` and every unit vector,
`xyztohp` called with `coz = 0` or `coz = hypot(vx, vy)` returns `bighp` in `[0,12)` and
`x, y` in `[0, Nside)`; in the polar branch, clamped only from above, this says that
`floor(xx)` and `floor(yy)` are not negative. -/
theorem xyztohp_classification_range (EPS vx vy vz coz : ℝ) (Nside : ℤ) (hE : 0 < EPS)
    (hN : 1 ≤ Nside) (hu : vx ^ 2 + vy ^ 2 + vz ^ 2 = 1)
    (hc : coz = 0 ∨ coz = hypot vx vy) :
    ∃ hp : hp_t, xyztohp EPS vx vy vz coz Nside = some hp ∧
      (0 ≤ hp.bighp ∧ hp.bighp < 12) ∧ (0 ≤ hp.x ∧ hp.x < Nside) ∧
      (0 ≤ hp.y ∧ hp.y < Nside) :=
  xyztohp_range EPS vx vy vz coz Nside hE hN (by rw [← hu]; ring) hc

/-- Witness of C4 at the north pole `(0, 0, 1)`, `coz = 0`, `Nside = 1`. -/
theorem xyztohp_classification_range_witness :
    ((0 : ℝ) < 1 ∧ (1 : ℤ) ≤ 1 ∧ (0 : ℝ) ^ 2 + 0 ^ 2 + 1 ^ 2 = 1 ∧
      ((0 : ℝ) = 0 ∨ (0 : ℝ) = hypot 0 0)) ∧
    ∃ hp : hp_t, xyztohp 1 0 0 1 0 1 = some hp ∧
      (0 ≤ hp.bighp ∧ hp.bighp < 12) ∧ (0 ≤ hp.x ∧ hp.x < 1) ∧ (0 ≤ hp.y ∧ hp.y < 1) :=
  ⟨⟨one_pos, le_refl _, by simp, Or.inl rfl⟩,
    xyztohp_classification_range 1 0 0 1 0 1 one_pos (le_refl _) (by simp) (Or.inl rfl)⟩

/-- C5 (confirmed): inverse of the classification. For every `Nside ≥ 1`, `bighp` in
`[0,12)`, `px, py` in `[0,Nside)` and offsets `0 < dx < 1`, `0 < dy < 1`, `hp_to_xyz`
returns a point and `xyztohp` with `coz = 0` maps it back to exactly `(bighp, px, py)`. -/
theorem xyztohp_inverts_hp_to_xyz (EPS : ℝ) (Nside : ℤ) (dx dy : ℝ) (bighp px py : ℤ)
    (hE : 0 < EPS) (hN : 1 ≤ Nside) (hb : 0 ≤ bighp ∧ bighp < 12)
    (hx : 0 ≤ px ∧ px < Nside) (hy : 0 ≤ py ∧ py < Nside) (hdx : 0 < dx ∧ dx < 1)
    (hdy : 0 < dy ∧ dy < 1) :
    ∃ v : ℝ × ℝ × ℝ, hp_to_xyz Nside dx dy bighp px py = some v ∧
      xyztohp EPS v.1 v.2.1 v.2.2 0 Nside = some ⟨bighp, px, py⟩ := by
  obtain ⟨v, hv, _, hinv⟩ := xyztohp_hp_to_xyz EPS Nside dx dy bighp px py hE hN hb hx hy hdx hdy
  exact ⟨v, hv, hinv 0 (Or.inl rfl)⟩

/-- Witness of C5 at the centre of the pixel `(4, 0, 0)` for `Nside = 1`. -/
theorem xyztohp_inverts_hp_to_xyz_witness :
    ((0 : ℝ) < 1 ∧ (1 : ℤ) ≤ 1 ∧ ((0 : ℤ) ≤ 4 ∧ (4 : ℤ) < 12) ∧ ((0 : ℤ) ≤ 0 ∧ (0 : ℤ) < 1) ∧
      ((0 : ℝ) < 1 / 2 ∧ (1 / 2 : ℝ) < 1)) ∧
    ∃ v : ℝ × ℝ × ℝ, hp_to_xyz 1 (1 / 2) (1 / 2) 4 0 0 = some v ∧
      xyztohp 1 v.1 v.2.1 v.2.2 0 1 = some ⟨4, 0, 0⟩ :=
  ⟨⟨one_pos, le_refl _, by decide, by decide, by norm_num, by norm_num⟩,
    xyztohp_inverts_hp_to_xyz 1 1 (1 / 2) (1 / 2) 4 0 0 one_pos (le_refl _) (by decide)
      (by decide) (by decide) ⟨by norm_num, by norm_num⟩ ⟨by norm_num, by norm_num⟩⟩

/-- C7 (confirmed): unit-sphere output. For every `Nside ≥ 1`, `bighp` in `[0,12)`,
`px, py` in `[0,Nside)` and `dx, dy` in `[0,1]`, `hp_to_xyz` writes a triple with
`rx^2 + ry^2 + rz^2 = 1`; the radicands `1 - z^2` and `1 + |z|` are non-negative. -/
theorem hp_to_xyz_unit_sphere (Nside : ℤ) (dx dy : ℝ) (bighp px py : ℤ) (hN : 1 ≤ Nside)
    (hb : 0 ≤ bighp ∧ bighp < 12) (hx : 0 ≤ px ∧ px < Nside) (hy : 0 ≤ py ∧ py < Nside)
    (hdx : 0 ≤ dx ∧ dx ≤ 1) (hdy : 0 ≤ dy ∧ dy ≤ 1) :
    ∃ r : ℝ × ℝ × ℝ, hp_to_xyz Nside dx dy bighp px py = some r ∧
      r.1 ^ 2 + r.2.1 ^ 2 + r.2.2 ^ 2 = 1 ∧ 0 ≤ 1 - r.2.2 * r.2.2 ∧ 0 ≤ 1 + |r.2.2| := by
  obtain ⟨r, hr, hn⟩ := hp_to_xyz_norm Nside dx dy bighp px py hN hb hx hy hdx hdy
  refine ⟨r, hr, by rw [← hn]; ring, ?_, by positivity⟩
  nlinarith [mul_self_nonneg r.1, mul_self_nonneg r.2.1]

/-- Witness of C7 at the centre of the pixel `(0, 0, 0)` for `Nside = 1`. -/
theorem hp_to_xyz_unit_sphere_witness :
    ((1 : ℤ) ≤ 1 ∧ ((0 : ℤ) ≤ 0 ∧ (0 : ℤ) < 12) ∧ ((0 : ℤ) ≤ 0 ∧ (0 : ℤ) < 1) ∧
      ((0 : ℝ) ≤ 1 / 2 ∧ (1 / 2 : ℝ) ≤ 1)) ∧
    ∃ r : ℝ × ℝ × ℝ, hp_to_xyz 1 (1 / 2) (1 / 2) 0 0 0 = some r ∧
      r.1 ^ 2 + r.2.1 ^ 2 + r.2.2 ^ 2 = 1 ∧ 0 ≤ 1 - r.2.2 * r.2.2 ∧ 0 ≤ 1 + |r.2.2| :=
  ⟨⟨le_refl _, by decide, by decide, by norm_num, by norm_num⟩,
    hp_to_xyz_unit_sphere 1 (1 / 2) (1 / 2) 0 0 0 (le_refl _) (by decide) (by decide)
      (by decide) ⟨by norm_num, by norm_num⟩ ⟨by norm_num, by norm_num⟩⟩

/-- C9 (corrected): poles. `radec_to_healpixl(0, 90, 1) = 0`, `radec_to_healpixl(0, -90, 1)
= 8`, and for every `Nside ≥ 1` the north pole is located in base healpix 0 at
`(Nside-1, Nside-1)`, the south pole in base healpix 8 at `(0, 0)`, with index
`8 * Nside^2` when `Nside < 2^30` (`8 * Nside^2` is below `2^63`). -/
theorem poles_classification (EPS : ℝ) (Nside : ℤ) (hN : 1 ≤ Nside) :
    radec_to_healpixl EPS 0 90 1 = some 0 ∧ radec_to_healpixl EPS 0 (-90) 1 = some 8 ∧
      xyztohp EPS (radec2x (0 / DEG_PER_RAD) (90 / DEG_PER_RAD))
        (radec2y (0 / DEG_PER_RAD) (90 / DEG_PER_RAD))
        (radec2z (0 / DEG_PER_RAD) (90 / DEG_PER_RAD)) (Real.cos (90 / DEG_PER_RAD)) Nside
        = some ⟨0, Nside - 1, Nside - 1⟩ ∧
      xyztohp EPS (radec2x (0 / DEG_PER_RAD) (-90 / DEG_PER_RAD))
        (radec2y (0 / DEG_PER_RAD) (-90 / DEG_PER_RAD))
        (radec2z (0 / DEG_PER_RAD) (-90 / DEG_PER_RAD)) (Real.cos (-90 / DEG_PER_RAD)) Nside
        = some ⟨8, 0, 0⟩ ∧
      (Nside < 2 ^ 30 → radec_to_healpixl EPS 0 (-90) Nside = some (8 * Nside ^ 2)) :=
  radec_poles_values EPS Nside hN

/-- Witness of C9 at `Nside = 2`. -/
theorem poles_classification_witness :
    (1 : ℤ) ≤ 2 ∧
    (radec_to_healpixl 1 0 90 1 = some 0 ∧ radec_to_healpixl 1 0 (-90) 1 = some 8 ∧
      xyztohp 1 (radec2x (0 / DEG_PER_RAD) (90 / DEG_PER_RAD))
        (radec2y (0 / DEG_PER_RAD) (90 / DEG_PER_RAD))
        (radec2z (0 / DEG_PER_RAD) (90 / DEG_PER_RAD)) (Real.cos (90 / DEG_PER_RAD)) 2
        = some ⟨0, 2 - 1, 2 - 1⟩ ∧
      xyztohp 1 (radec2x (0 / DEG_PER_RAD) (-90 / DEG_PER_RAD))
        (radec2y (0 / DEG_PER_RAD) (-90 / DEG_PER_RAD))
        (radec2z (0 / DEG_PER_RAD) (-90 / DEG_PER_RAD)) (Real.cos (-90 / DEG_PER_RAD)) 2
        = some ⟨8, 0, 0⟩ ∧
      ((2 : ℤ) < 2 ^ 30 → radec_to_healpixl 1 0 (-90) 2 = some (8 * 2 ^ 2))) :=
  ⟨by decide, poles_classification 1 2 (by decide)⟩

/-- Counterexample to C9 as stated (every `Nside ≥ 1`): at `Nside = 2^30`, a C `int`, the
south pole is located at `(8, 0, 0)`, the product `8 * 2^60` overflows the `long int` and
the index returned is `-2^63`, not `8 * Nside^2 = 2^63`. -/
theorem poles_classification_counterexample : ¬ ∀ (EPS : ℝ) (Nside : ℤ), 1 ≤ Nside →
    Nside < 2 ^ 31 → radec_to_healpixl EPS 0 (-90) Nside = some (8 * Nside ^ 2) := by
  intro h
  have h1 := h 1 (2 ^ 30) (by norm_num) (by norm_num)
  rw [radec_south_pole_overflow 1] at h1
  have a := Option.some.inj h1
  revert a
  decide

/-- C10 (corrected): equatorial scenario. For `Nside = 4`, `radec_to_healpixl(45, 0, 4)`
returns 0: the point `ra = 45`, `dec = 0` is the corner where `xx = yy = Nside`, and the
tests `xx >= Nside`, `yy >= Nside` give it to the north-polar base healpix 0. -/
theorem equatorial_scenario_corner (EPS : ℝ) (hE : 0 < EPS) :
    radec_to_healpixl EPS 45 0 4 = some 0 ∧ Int.tdiv 0 16 = 0 :=
  ⟨radec_corner_value EPS hE, rfl⟩

/-- Witness of C10 at `EPS = 1`. -/
theorem equatorial_scenario_corner_witness :
    (0 : ℝ) < 1 ∧ (radec_to_healpixl 1 45 0 4 = some 0 ∧ Int.tdiv 0 16 = 0) :=
  ⟨one_pos, equatorial_scenario_corner 1 one_pos⟩

/-- Counterexample to C10 as stated: the index returned for `(45, 0, 4)` is 0, whose base
healpix `0 / 16 = 0` is not in `[4, 8)`. -/
theorem equatorial_scenario_counterexample : ¬ ∀ EPS : ℝ, 0 < EPS →
    ∃ i : ℤ, radec_to_healpixl EPS 45 0 4 = some i ∧ 4 ≤ Int.tdiv i 16 ∧
      Int.tdiv i 16 < 8 := by
  intro h
  obtain ⟨i, hi, h4, _⟩ := h 1 one_pos
  rw [radec_corner_value 1 one_pos] at hi
  cases hi
  revert h4
  decide

/-- C12 (confirmed): declination reconstruction. For every `ra` and every `dec` in
`[-π/2, π/2]`, `xyz2radec` applied to the unit vector of `(ra, dec)` returns exactly `dec`
(so within `1e-9`), the branch formula `π/2 - atan2(hypot(x,y), z)` equals `asin(z)`, and
`dec = ±89.9999` degrees are on the branch `|z| > 0.9`. -/
theorem declination_reconstruction (ra dec : ℝ) (hd : -(π / 2) ≤ dec ∧ dec ≤ π / 2) :
    (xyz2radec (radec2x ra dec) (radec2y ra dec) (radec2z ra dec)).2 = dec ∧
    |(xyz2radec (radec2x ra dec) (radec2y ra dec) (radec2z ra dec)).2 - dec| < 1e-9 ∧
    M_PI / 2.0 - atan2 (hypot (radec2x ra dec) (radec2y ra dec)) (radec2z ra dec) =
      Real.arcsin (radec2z ra dec) ∧
    (|radec2z ra (89.9999 / DEG_PER_RAD)| > 0.9 ∧
      |radec2z ra (-89.9999 / DEG_PER_RAD)| > 0.9) := by
  obtain ⟨a1, a2, _⟩ := dec_reconstruct ra dec hd.1 hd.2
  refine ⟨a1, ?_, a2, near_pole_branch ra⟩
  rw [a1, sub_self, abs_zero]; norm_num

/-- Witness of C12 at `ra = 0`, `dec = 0`. -/
theorem declination_reconstruction_witness :
    (-(π / 2) ≤ (0 : ℝ) ∧ (0 : ℝ) ≤ π / 2) ∧
    (xyz2radec (radec2x 0 0) (radec2y 0 0) (radec2z 0 0)).2 = 0 :=
  ⟨⟨by linarith [Real.pi_pos], by linarith [Real.pi_pos]⟩,
    (declination_reconstruction 0 0 ⟨by linarith [Real.pi_pos], by linarith [Real.pi_pos]⟩).1⟩

/-- C13 (confirmed): interleave bit layout. For `0 ≤ x, y < 2^31` the index built by the
loop of `radec_to_healpixl` has, for every `i` in `0..31`, bit `2i` equal to bit `i` of
`x` and bit `2i+1` equal to bit `i` of `y`, and it equals the result of the loop run for
all 32 iterations without the early exit. -/
theorem interleave_bit_layout (x y : ℤ) (hx : 0 ≤ x ∧ x < 2 ^ 31) (hy : 0 ≤ y ∧ y < 2 ^ 31) :
    (∀ i : ℕ, i ≤ 31 →
      Int.testBit (interleave_loop 32 0 0 x y) (2 * i) = Int.testBit x i ∧
      Int.testBit (interleave_loop 32 0 0 x y) (2 * i + 1) = Int.testBit y i) ∧
    interleave_loop 32 0 0 x y = interleave_loop_noexit 32 0 0 x y :=
  interleave_layout x y hx.1 hy.1

/-- Witness of C13 at `x = 3`, `y = 0`. -/
theorem interleave_bit_layout_witness :
    (((0 : ℤ) ≤ 3 ∧ (3 : ℤ) < 2 ^ 31) ∧ ((0 : ℤ) ≤ 0 ∧ (0 : ℤ) < 2 ^ 31)) ∧
    ((∀ i : ℕ, i ≤ 31 →
      Int.testBit (interleave_loop 32 0 0 3 0) (2 * i) = Int.testBit 3 i ∧
      Int.testBit (interleave_loop 32 0 0 3 0) (2 * i + 1) = Int.testBit 0 i) ∧
    interleave_loop 32 0 0 3 0 = interleave_loop_noexit 32 0 0 3 0) :=
  ⟨by decide, interleave_bit_layout 3 0 (by decide) (by decide)⟩

/-- C14 (confirmed): batch forward is the element-wise scalar forward, in order. For every
`n`, `Nside` and arrays `ra`, `dec`, `radecs_to_healpixls` returns, entry `i < n` of the
output is `radec_to_healpixl(ra[i], dec[i], Nside)`, the entries from `n` on are not
written, and entry `i` depends only on `ra[i]`, `dec[i]`. -/
theorem batch_forward_elementwise (EPS : ℝ) (n : ℕ) (ra dec : ℕ → ℝ) (hpixes : ℕ → ℤ)
    (Nside : ℤ) (hE : 0 < EPS) :
    ∃ out : ℕ → ℤ, radecs_to_healpixls EPS ra dec n hpixes Nside = some out ∧
      (∀ i, i < n → radec_to_healpixl EPS (ra i) (dec i) Nside = some (out i)) ∧
      (∀ j, n ≤ j → out j = hpixes j) ∧
      (∀ (ra2 dec2 : ℕ → ℝ) (hpixes2 out2 : ℕ → ℤ),
        radecs_to_healpixls EPS ra2 dec2 n hpixes2 Nside = some out2 →
        ∀ i, i < n → ra2 i = ra i → dec2 i = dec i → out2 i = out i) := by
  obtain ⟨out, ho, h1, h2⟩ := radecs_loop_spec EPS ra dec Nside hE n 0 hpixes
  refine ⟨out, by simpa [radecs_to_healpixls] using ho, fun i hi => h1 i (Nat.zero_le _) (by omega),
    fun j hj => h2 j (Or.inr (by omega)), ?_⟩
  intro ra2 dec2 hpixes2 out2 ho2 i hi hr hd
  obtain ⟨out3, ho3, g1, _⟩ := radecs_loop_spec EPS ra2 dec2 Nside hE n 0 hpixes2
  have e : out2 = out3 := by
    have : some out2 = some out3 := by
      rw [← ho2, ← ho3]; simp [radecs_to_healpixls]
    exact Option.some.inj this
  have a := g1 i (Nat.zero_le _) (by omega)
  have b := h1 i (Nat.zero_le _) (by omega)
  rw [hr, hd, b] at a
  rw [e]; exact (Option.some.inj a).symm

/-- Witness of C14 at `n = 2` on arrays of zeros, `Nside = 1`. -/
theorem batch_forward_elementwise_witness :
    (0 : ℝ) < 1 ∧ ∃ out : ℕ → ℤ,
      radecs_to_healpixls 1 (fun _ => 0) (fun _ => 0) 2 (fun _ => 0) 1 = some out ∧
      (∀ i, i < 2 → radec_to_healpixl 1 0 0 1 = some (out i)) :=
  ⟨one_pos, (batch_forward_elementwise 1 2 (fun _ => 0) (fun _ => 0) (fun _ => 0) 1 one_pos).imp
    fun _ h => ⟨h.1, h.2.1⟩⟩

/-- C15 (confirmed): the grid entry point agrees with the scalar inverse. For every pixel
index, `Nside`, `n` and offset arrays, when `healpixl_grid_to_radecdeg` returns, the
`i`-th `(ra, dec)` it wrote is the result of `healpixl_to_radecdeg(index, Nside, dx[i],
dy[i])` for every `i < n` and the entries from `n` on are not written; it returns
whenever each of these scalar calls returns. -/
theorem grid_agrees_with_scalar (healpix Nside : ℤ) (n : ℕ) (dx dy ra dec : ℕ → ℝ) :
    (∀ out, healpixl_grid_to_radecdeg healpix n Nside dx dy ra dec = some out →
      (∀ i, i < n →
        healpixl_to_radecdeg healpix Nside (dx i) (dy i) = some (out.1 i, out.2 i)) ∧
      (∀ j, n ≤ j → out.1 j = ra j ∧ out.2 j = dec j)) ∧
    ((∀ i, i < n → healpixl_to_radecdeg healpix Nside (dx i) (dy i) ≠ none) →
      ∃ out, healpixl_grid_to_radecdeg healpix n Nside dx dy ra dec = some out) := by
  obtain ⟨s1, s2⟩ := grid_loop_spec Nside dx dy (healpixl_unpack healpix Nside).bighp
    (healpixl_unpack healpix Nside).x (healpixl_unpack healpix Nside).y n 0 ra dec
  have e : healpixl_grid_to_radecdeg healpix n Nside dx dy ra dec =
      healpixl_grid_loop Nside dx dy (healpixl_unpack healpix Nside).bighp
        (healpixl_unpack healpix Nside).x (healpixl_unpack healpix Nside).y n 0 ra dec := by
    simp [healpixl_grid_to_radecdeg]
  rw [e]
  constructor
  · intro out ho
    obtain ⟨a1, a2⟩ := s1 out ho
    exact ⟨fun i hi => a1 i (Nat.zero_le _) (by omega), fun j hj => a2 j (Or.inr (by omega))⟩
  · intro h
    apply s2
    intro j _ hj hn
    apply h j (by omega)
    simp only [healpixl_to_radecdeg, hn, Option.map_none']

/-- Witness of C15 at index 0, `Nside = 1`, one offset pair `(0.5, 0.5)`. -/
theorem grid_agrees_with_scalar_witness :
    ∃ out : (ℕ → ℝ) × (ℕ → ℝ),
      healpixl_grid_to_radecdeg 0 1 1 (fun _ => 0.5) (fun _ => 0.5) (fun _ => 0) (fun _ => 0)
        = some out ∧
      healpixl_to_radecdeg 0 1 0.5 0.5 = some (out.1 0, out.2 0) := by
  have h := grid_agrees_with_scalar 0 1 1 (fun _ => 0.5) (fun _ => 0.5) (fun _ => 0) (fun _ => 0)
  have hs : ∃ rd : ℝ × ℝ, healpixl_to_radecdeg 0 (2 ^ 0) 0.5 0.5 = some rd :=
    (pow2_no_assert 0 (by decide) 0 0.5 0.5 (by decide) ⟨by norm_num, by norm_num⟩
      ⟨by norm_num, by norm_num⟩).2
  obtain ⟨rd, hrd⟩ := hs
  rw [pow_zero] at hrd
  obtain ⟨out, ho⟩ := h.2 (fun i _ => by simp only [hrd]; exact Option.some_ne_none _)
  exact ⟨out, ho, (h.1 out ho).1 0 (by norm_num)⟩

/-- C16 (confirmed): equivalence of the two polar `vv` formulas of `hp_to_xyz`. With
`a = Nside - x ≥ 0`, `b = Nside - y ≥ 0`, `a + b > 0`: `phi_t = π b / (2 (a + b))`, the
code selects the first formula when `phi_t < π/4` and the second otherwise, the selected
one equals `(a + b) / (Nside sqrt 3)`, and the two formulas are equal when `a > 0` and
`b > 0`. -/
theorem polar_vv_equivalence (Nside : ℤ) (a b : ℝ) (hN : 1 ≤ Nside) (ha : 0 ≤ a) (hb : 0 ≤ b)
    (hab : 0 < a + b) :
    polar_phi_t Nside (Nside - a) (Nside - b) = π * b / (2 * (a + b)) ∧
    polar_vv Nside (Nside - a) (Nside - b) =
      (if π * b / (2 * (a + b)) < π / 4
        then polar_vv_lt Nside (Nside - a) (π * b / (2 * (a + b)))
        else polar_vv_ge Nside (Nside - b) (π * b / (2 * (a + b)))) ∧
    polar_vv Nside (Nside - a) (Nside - b) = (a + b) / (Nside * √3) ∧
    (0 < a → 0 < b →
      polar_vv_lt Nside (Nside - a) (π * b / (2 * (a + b))) =
        polar_vv_ge Nside (Nside - b) (π * b / (2 * (a + b)))) :=
  polar_vv_formulas Nside a b hN ha hb hab

/-- Witness of C16 at `Nside = 1`, `a = b = 1/4`. -/
theorem polar_vv_equivalence_witness :
    ((1 : ℤ) ≤ 1 ∧ (0 : ℝ) ≤ 1 / 4 ∧ (0 : ℝ) < 1 / 4 + 1 / 4) ∧
    polar_vv ((1 : ℤ) : ℝ) (((1 : ℤ) : ℝ) - 1 / 4) (((1 : ℤ) : ℝ) - 1 / 4) =
      (1 / 4 + 1 / 4) / (((1 : ℤ) : ℝ) * √3) :=
  ⟨⟨le_refl _, by norm_num, by norm_num⟩,
    (polar_vv_equivalence 1 (1 / 4) (1 / 4) (le_refl _) (by norm_num) (by norm_num)
      (by norm_num)).2.2.1⟩

/-- C17 (corrected): the `assert(0)` branch is unreachable on valid input of a
power-of-two resolution. For `Nside = 2^k` with `k ≤ 30`, every index
`0 ≤ index < 12 * Nside^2` and every `dx, dy` in `[0,1]`, the base healpix that
`healpixl_to_radecdeg` passes to `hp_to_xyz` lies in `[0,12)` and the call returns. -/
theorem assert_unreachable_power_of_two (k : ℕ) (index : ℤ) (dx dy : ℝ) (hk : k ≤ 30)
    (hi : 0 ≤ index ∧ index < 12 * ((2 : ℤ) ^ k) ^ 2) (hdx : 0 ≤ dx ∧ dx ≤ 1)
    (hdy : 0 ≤ dy ∧ dy ≤ 1) :
    (0 ≤ (healpixl_unpack index (2 ^ k)).bighp ∧ (healpixl_unpack index (2 ^ k)).bighp < 12) ∧
      ∃ rd : ℝ × ℝ, healpixl_to_radecdeg index (2 ^ k) dx dy = some rd :=
  pow2_no_assert k hk index dx dy hi hdx hdy

/-- Witness of C17 at `Nside = 2`, `index = 5`, `dx = dy = 1`. -/
theorem assert_unreachable_power_of_two_witness :
    ((1 : ℕ) ≤ 30 ∧ ((0 : ℤ) ≤ 5 ∧ (5 : ℤ) < 12 * ((2 : ℤ) ^ 1) ^ 2) ∧
      ((0 : ℝ) ≤ 1 ∧ (1 : ℝ) ≤ 1)) ∧
    ((0 ≤ (healpixl_unpack 5 (2 ^ 1)).bighp ∧ (healpixl_unpack 5 (2 ^ 1)).bighp < 12) ∧
      ∃ rd : ℝ × ℝ, healpixl_to_radecdeg 5 (2 ^ 1) 1 1 = some rd) :=
  ⟨⟨by decide, by decide, le_of_lt one_pos, le_refl _⟩,
    assert_unreachable_power_of_two 1 5 1 1 (by decide) (by decide) ⟨zero_le_one, le_refl _⟩
      ⟨zero_le_one, le_refl _⟩⟩

/-- Counterexample to C17 as stated (every positive `Nside`): `Nside = 3`, `index = 106`
(`< 108`), `dx = dy = 1` are in the stated domain, the base healpix unpacked is 12 and
`hp_to_xyz` reaches `assert(0)`. -/
theorem assert_unreachable_counterexample :
    ((1 : ℤ) ≤ 3 ∧ ((0 : ℤ) ≤ 106 ∧ (106 : ℤ) < 12 * 3 ^ 2) ∧ ((0 : ℝ) ≤ 1 ∧ (1 : ℝ) ≤ 1)) ∧
    ¬ ((0 ≤ (healpixl_unpack 106 3).bighp ∧ (healpixl_unpack 106 3).bighp < 12) ∧
      ∃ rd : ℝ × ℝ, healpixl_to_radecdeg 106 3 1 1 = some rd) := by
  refine ⟨⟨by decide, by decide, zero_le_one, le_refl _⟩, ?_⟩
  rintro ⟨-, rd, h⟩
  rw [assert_reached.2] at h
  exact Option.noConfusion h

/-- C19 (corrected): power-of-two bijection. For `Nside = 2^k` with `k ≤ 30` and every
index in `[0, 12 * Nside^2)` that is a `long int` (`index < 2^63`, which is every such
index when `k ≤ 29`), the decomposition yields `bighp = index div Nside^2` in `[0,12)` and
`px, py` in `[0,Nside)` and composing them again gives back `index`; for `k ≤ 29` the
decomposition is a bijection from `[0, 12 * Nside^2)` onto
`[0,12) × [0,Nside) × [0,Nside)`. -/
theorem power_of_two_bijection (k : ℕ) (hk : k ≤ 30) :
    (∀ index : ℤ, 0 ≤ index ∧ index < 12 * ((2 : ℤ) ^ k) ^ 2 → index < 2 ^ 63 →
      ((0 ≤ (healpixl_unpack index (2 ^ k)).bighp ∧
          (healpixl_unpack index (2 ^ k)).bighp < 12) ∧
        (0 ≤ (healpixl_unpack index (2 ^ k)).x ∧ (healpixl_unpack index (2 ^ k)).x < 2 ^ k) ∧
        (0 ≤ (healpixl_unpack index (2 ^ k)).y ∧ (healpixl_unpack index (2 ^ k)).y < 2 ^ k)) ∧
      (healpixl_unpack index (2 ^ k)).bighp = Int.tdiv index (((2 : ℤ) ^ k) ^ 2) ∧
      hp_to_nested (healpixl_unpack index (2 ^ k)) (2 ^ k) = index) ∧
    (k ≤ 29 → (12 * ((2 : ℤ) ^ k) ^ 2 < 2 ^ 63 ∧
      Set.BijOn (fun i => healpixl_unpack i (2 ^ k)) (Set.Ico 0 (12 * ((2 : ℤ) ^ k) ^ 2))
        {p : hp_t | (0 ≤ p.bighp ∧ p.bighp < 12) ∧ (0 ≤ p.x ∧ p.x < 2 ^ k) ∧
          (0 ≤ p.y ∧ p.y < 2 ^ k)})) := by
  refine ⟨fun index hi hfit => ?_, fun h29 => ⟨?_, unpack_bijOn k h29⟩⟩
  · obtain ⟨a, b, _, c⟩ := pow2_unpack k hk index hi
    exact ⟨a, b, c hfit⟩
  · have h1 : (2 : ℤ) ^ k ≤ 2 ^ 29 := pow_le_pow_right₀ (by norm_num) h29
    have h2 : ((2 : ℤ) ^ k) ^ 2 ≤ (2 ^ 29) ^ 2 := pow_le_pow_left₀ (by positivity) h1 2
    generalize ((2 : ℤ) ^ k) ^ 2 = M at h2
    norm_num at h2 ⊢
    omega

/-- Witness of C19 at `k = 1`, `index = 7`. -/
theorem power_of_two_bijection_witness :
    (1 : ℕ) ≤ 30 ∧ hp_to_nested (healpixl_unpack 7 (2 ^ 1)) (2 ^ 1) = 7 :=
  ⟨by decide, ((power_of_two_bijection 1 (by decide)).1 7 (by decide) (by decide)).2.2⟩

/-- Counterexample to C19 as stated: at `k = 30` the number `2^63` is in
`[0, 12 * Nside^2)`, it decomposes to `(8, 0, 0)`, and composing `8 * 2^60 + 0` again
overflows the `long int` and gives `-2^63`. -/
theorem power_of_two_bijection_counterexample :
    ((30 : ℕ) ≤ 30 ∧ (0 : ℤ) ≤ 2 ^ 63 ∧ (2 : ℤ) ^ 63 < 12 * ((2 : ℤ) ^ 30) ^ 2) ∧
    healpixl_unpack (2 ^ 63) (2 ^ 30) = ⟨8, 0, 0⟩ ∧
    hp_to_nested (healpixl_unpack (2 ^ 63) (2 ^ 30)) (2 ^ 30) = -2 ^ 63 ∧
    hp_to_nested (healpixl_unpack (2 ^ 63) (2 ^ 30)) (2 ^ 30) ≠ 2 ^ 63 := by
  decide

/-- C20 (confirmed): validity of the sector assertion in the equatorial branch. For every
input with `|vz| < 2/3` and every positive `EPS`, with `phi` the normalised azimuth and
`phi_t = fmod(phi, π/2)`, `sector = (phi - phi_t) / (π/2)` is an integer in `{0,1,2,3}`,
equal to `offset = round(sector) = floor(phi / (π/2))`, so
`fabs(sector - offset) < EPS` holds and `xyztohp` returns. -/
theorem sector_assertion_valid (EPS vx vy vz coz : ℝ) (Nside : ℤ) (hE : 0 < EPS)
    (hz : |vz| < 2 / 3) :
    ∃ k : ℤ, (0 ≤ k ∧ k ≤ 3) ∧
      (xy2ra vx vy - fmod (xy2ra vx vy) (0.5 * M_PI)) / (0.5 * M_PI) = (k : ℝ) ∧
      c_round ((xy2ra vx vy - fmod (xy2ra vx vy) (0.5 * M_PI)) / (0.5 * M_PI)) = k ∧
      k = ⌊xy2ra vx vy / (π / 2)⌋ ∧
      |(xy2ra vx vy - fmod (xy2ra vx vy) (0.5 * M_PI)) / (0.5 * M_PI) -
        (c_round ((xy2ra vx vy - fmod (xy2ra vx vy) (0.5 * M_PI)) / (0.5 * M_PI)) : ℝ)| < EPS ∧
      ∃ hp : hp_t, xyztohp EPS vx vy vz coz Nside = some hp := by
  obtain ⟨k, h1, h2, h3, h4, h5, _⟩ := sector_integral EPS vx vy vz coz Nside hE
  rw [abs_lt] at hz
  exact ⟨k, h1, h2, h3, h4, h5, _, xyztohp_equat EPS vx vy vz coz Nside hE hz.1 hz.2⟩

/-- Witness of C20 at `EPS = 1`, the vector `(1, 0, 0)`, `Nside = 1`. -/
theorem sector_assertion_valid_witness :
    ((0 : ℝ) < 1 ∧ |(0 : ℝ)| < 2 / 3) ∧ ∃ hp : hp_t, xyztohp 1 1 0 0 0 1 = some hp :=
  ⟨⟨one_pos, by norm_num⟩,
    match sector_assertion_valid 1 1 0 0 0 1 one_pos (by norm_num) with
    | ⟨_, _, _, _, _, _, h⟩ => h⟩

end FastHealpix
